import Mathlib

/-!
# Tic-Tac-Toe match handler (`src/modules/main.js`)

A shallow embedding of the authoritative match handler: the session state,
the lifecycle callbacks `matchInit`, `matchJoinAttempt`, `matchJoin`,
`matchLeave`, `matchLoop`, the move processor `processMove`, and the player
record update `updatePlayerStats` with its entry point `rpcUpdateStats`,
followed by theorems about them.

Modelling conventions.

* A JavaScript object used as a map (`state.players`, `state.playerSymbols`,
  `state.presences`) is an association list in insertion order, which is the
  order `Object.keys` enumerates string keys that are not array indices.
  User identifiers are the runtime's UUID strings.
* The dispatcher, the storage layer and the logger do not throw; every call
  made on the dispatcher or on `updatePlayerStats` is recorded, in call order,
  in a list of `Effect`s returned next to the new state.
* Messages are kept as structured values rather than as the JSON text that
  `JSON.stringify` produces.
* Counters (`moveCount`, `emptyTicks`) are natural numbers.
-/

namespace TicTacToe

/-! ## Values -/

abbrev UserId := String

/-- The two symbol strings `"X"` and `"O"`. -/
inductive Sym where
  | X
  | O
  deriving DecidableEq, Repr

/-- The JavaScript values that a board cell or `state.winner` can hold:
`null`, `undefined`, `"X"`, `"O"`, `"draw"`. -/
inductive Val where
  | null
  | undefined
  | X
  | O
  | draw
  deriving DecidableEq, Repr

/-- A symbol string as a value. -/
def Sym.toVal : Sym → Val
  | .X => .X
  | .O => .O

/-! ## Objects used as maps -/

/-- Property read `obj[k]`; `none` is `undefined`. -/
def objGet {β : Type} : List (UserId × β) → UserId → Option β
  | [], _ => none
  | (k, v) :: rest, key => if k = key then some v else objGet rest key

/-- Property write `obj[k] = v`: an existing key keeps its place, a new key
goes last. -/
def objSet {β : Type} : List (UserId × β) → UserId → β → List (UserId × β)
  | [], key, v => [(key, v)]
  | (k, w) :: rest, key, v =>
    if k = key then (k, v) :: rest else (k, w) :: objSet rest key v

/-- The statement `delete obj[k]`. -/
def objDelete {β : Type} : List (UserId × β) → UserId → List (UserId × β)
  | [], _ => []
  | (k, w) :: rest, key =>
    if k = key then objDelete rest key else (k, w) :: objDelete rest key

/-- The keys, as `Object.keys(obj)` lists them. -/
def objKeys {β : Type} (obj : List (UserId × β)) : List UserId :=
  obj.map Prod.fst

/-! ## Constants -/

namespace OpCode

def GAME_STATE : Nat := 1
def MOVE : Nat := 2
def GAME_OVER : Nat := 3
def ERROR : Nat := 4
def TURN_UPDATE : Nat := 5
def PLAYER_JOIN : Nat := 6
def PLAYER_LEAVE : Nat := 7

end OpCode

/-- The eight lines: rows, columns, diagonals. -/
def WIN_CONDITIONS : List (Nat × Nat × Nat) :=
  [(0, 1, 2), (3, 4, 5), (6, 7, 8),
   (0, 3, 6), (1, 4, 7), (2, 5, 8),
   (0, 4, 8), (2, 4, 6)]

/-! ## Data model -/

/-- A presence handed over by the runtime. -/
structure Presence where
  userId : UserId
  sessionId : String
  username : String
  odId : Option String
  deriving DecidableEq, Repr

/-- An entry of `state.players`. -/
structure Player where
  odId : Option String
  sessionId : String
  username : String
  symbol : Sym
  deriving DecidableEq, Repr

/-- The match state built by `matchInit`. -/
structure State where
  board : List Val
  players : List (UserId × Player)
  playerSymbols : List (UserId × Sym)
  currentTurn : Option UserId
  currentSymbol : Sym
  winner : Val
  gameOver : Bool
  moveCount : Nat
  presences : List (UserId × Presence)
  emptyTicks : Nat
  gameStarted : Bool
  invited : List UserId
  mode : String
  fromMatchmaker : Bool
  createdAt : Nat
  deriving DecidableEq, Repr

/-- The match label, the object given to `JSON.stringify` for the label. -/
structure Label where
  isOpen : Bool
  started : Option Bool
  players : Nat
  mode : String
  deriving DecidableEq, Repr

/-- The value of `data.position` once the payload was parsed. JSON has no NaN,
so a number is a finite one (a rational) or an infinity from overflow. -/
inductive Position where
  | notNumber
  | num (q : ℚ)
  | posInf
  | negInf
  deriving DecidableEq

/-- The message bodies the handler sends. -/
inductive Msg where
  | playerAssign (yourSymbol : Sym) (playerId : UserId)
  | gameStart (board : List Val) (currentTurn : Option UserId) (currentSymbol : Sym)
      (yourSymbol : Option Sym) (isYourTurn : Bool) (players : List (UserId × String × Sym))
  | gameStateSync (board : List Val) (currentTurn : Option UserId) (currentSymbol : Sym)
      (yourSymbol : Option Sym) (isYourTurn : Bool) (players : List (UserId × String × Sym))
      (gameOver : Bool) (winner : Val) (gameStarted : Bool)
  | gameStateUpdate (board : List Val) (lastMovePosition : Position) (lastMoveSymbol : Val)
      (currentTurn : Option UserId) (currentSymbol : Sym) (yourSymbol : Option Sym)
      (isYourTurn : Bool) (moveCount : Nat)
  | gameOverWin (winner : Val) (board : List Val) (winningLine : Option (Nat × Nat × Nat))
  | gameOverDraw (board : List Val)
  | gameOverForfeit (winner : Val) (board : List Val)
  | error (message : String)
  | playerLeft (playerId : UserId) (username : String)
  deriving DecidableEq

/-- One observable call made by a handler. -/
inductive Effect where
  | broadcast (opCode : Nat) (msg : Msg) (recipients : List Presence)
  | labelUpdate (label : Label)
  | stats (userId : UserId) (result : String)
  deriving DecidableEq

/-- The outcome of the first two statements of the `try` block of
`processMove`: they throw (the payload is not JSON, or it parses to `null`),
or they produce `data.position`. -/
inductive MoveData where
  | throws
  | parsed (position : Position)
  deriving DecidableEq

/-- An inbound match message. -/
structure Message where
  opCode : Nat
  sender : Presence
  data : MoveData
  deriving DecidableEq

/-- The parameters `matchInit` reads; `none` is an absent property. -/
structure Params where
  invited : Option (List UserId)
  usernames : Option (List String)
  mode : Option String
  fromMatchmaker : Option Bool
  deriving DecidableEq, Repr

/-! ## Helper functions of the module -/

/-- Array read `board[i]` for an index `i`. -/
def cell (board : List Val) (i : Nat) : Val :=
  board.getD i Val.undefined

/-- The result object of `checkWin`. -/
structure WinResult where
  won : Bool
  line : Option (Nat × Nat × Nat)
  deriving DecidableEq, Repr

/-- The test of one line in the loop of `checkWin`. -/
def lineHolds (board : List Val) (symbol : Val) (c : Nat × Nat × Nat) : Bool :=
  decide (cell board c.1 = symbol) && decide (cell board c.2.1 = symbol)
    && decide (cell board c.2.2 = symbol)

/-- The function `checkWin(board, symbol)`. -/
def checkWin (board : List Val) (symbol : Val) : WinResult :=
  match WIN_CONDITIONS.find? (lineHolds board symbol) with
  | some c => { won := true, line := some c }
  | none => { won := false, line := none }

/-- The function `formatPlayers(state)`. -/
def formatPlayers (state : State) : List (UserId × String × Sym) :=
  state.players.map (fun kv => (kv.1, kv.2.username, kv.2.symbol))

/-- The function `sendGameState(dispatcher, state, presence)`. -/
def sendGameState (state : State) (presence : Presence) : List Effect :=
  [Effect.broadcast OpCode.GAME_STATE
    (Msg.gameStateSync state.board state.currentTurn state.currentSymbol
      (objGet state.playerSymbols presence.userId)
      (decide (state.currentTurn = some presence.userId))
      (formatPlayers state) state.gameOver state.winner state.gameStarted)
    [presence]]

/-- The function `sendError(dispatcher, presence, message)`. -/
def sendError (presence : Presence) (message : String) : List Effect :=
  [Effect.broadcast OpCode.ERROR (Msg.error message) [presence]]

/-- The function `broadcastToAll(dispatcher, state, opCode, message)`. -/
def broadcastToAll (state : State) (opCode : Nat) (message : Msg) : List Effect :=
  let presences := state.presences.map Prod.snd
  if presences.length > 0 then [Effect.broadcast opCode message presences] else []

/-- The symbol read `state.playerSymbols[id]` as a value. -/
def symbolOf (state : State) (id : UserId) : Val :=
  match objGet state.playerSymbols id with
  | some s => s.toVal
  | none => Val.undefined

/-! ## Match initialisation -/

/-- The object `matchInit` returns. -/
structure InitResult where
  state : State
  tickRate : Nat
  label : Label
  deriving DecidableEq, Repr

/-- The function `matchInit`; `now` is the value of `Date.now()`. -/
def matchInit (params : Params) (now : Nat) : InitResult :=
  let state : State :=
    { board := [Val.null, Val.null, Val.null, Val.null, Val.null, Val.null, Val.null,
        Val.null, Val.null]
      players := []
      playerSymbols := []
      currentTurn := none
      currentSymbol := Sym.X
      winner := Val.null
      gameOver := false
      moveCount := 0
      presences := []
      emptyTicks := 0
      gameStarted := false
      invited := params.invited.getD []
      mode := match params.mode with
        | some m => if m = "" then "classic" else m
        | none => "classic"
      fromMatchmaker := params.fromMatchmaker.getD false
      createdAt := now }
  { state := state
    tickRate := 1
    label := { isOpen := true, started := none, players := 0, mode := state.mode } }

/-- One entry of the matchmaker result: the presence and `properties.mode`. -/
structure MatchmakerEntry where
  presence : Presence
  mode : Option String
  deriving DecidableEq, Repr

/-- The parameters `matchmakerMatched` passes to `nk.matchCreate`, which the
runtime hands to `matchInit` of the new match. The source calls the argument
`matches`. -/
def matchmakerMatched (entries : List MatchmakerEntry) : Params :=
  let userIds := entries.map (fun entry => entry.presence.userId)
  let usernames := entries.map (fun entry => entry.presence.username)
  let gameMode :=
    match entries.head? with
    | some entry =>
      match entry.mode with
      | some m => if m = "" then "classic" else m
      | none => "classic"
    | none => "classic"
  { invited := some userIds
    usernames := some usernames
    mode := some gameMode
    fromMatchmaker := some true }

/-! ## Join attempt -/

/-- The object `matchJoinAttempt` returns. -/
structure JoinAttemptResult where
  state : State
  accept : Bool
  rejectMessage : Option String
  deriving DecidableEq, Repr

/-- The function `matchJoinAttempt`. -/
def matchJoinAttempt (state : State) (presence : Presence) : JoinAttemptResult :=
  if (objGet state.players presence.userId).isSome then
    { state := state, accept := true, rejectMessage := none }
  else
    let playerCount := (objKeys state.players).length
    if playerCount ≥ 2 then
      { state := state, accept := false, rejectMessage := some "Match is full" }
    else if state.gameStarted ∧ ¬ presence.userId ∈ state.invited then
      { state := state, accept := false, rejectMessage := some "Game already started" }
    else
      { state := state, accept := true, rejectMessage := none }

/-! ## Join -/

/-- The first key of `playerSymbols` whose symbol is `"X"`: the loop of
`startGame`. -/
def findX : List (UserId × Sym) → Option UserId
  | [] => none
  | (k, s) :: rest => if s = Sym.X then some k else findX rest

/-- The function `startGame(logger, dispatcher, state)`. -/
def startGame (state : State) : State × List Effect :=
  let state1 := { state with gameStarted := true, currentSymbol := Sym.X }
  let state2 :=
    match findX state1.playerSymbols with
    | some id => { state1 with currentTurn := some id }
    | none => state1
  let sends := state2.presences.map (fun kv =>
    Effect.broadcast OpCode.GAME_STATE
      (Msg.gameStart state2.board state2.currentTurn Sym.X
        (objGet state2.playerSymbols kv.1)
        (decide (state2.currentTurn = some kv.1))
        (formatPlayers state2))
      [kv.2])
  (state2, sends ++ [Effect.labelUpdate
    { isOpen := false, started := some true, players := 2, mode := state2.mode }])

/-- The body of the loop of `matchJoin` for one presence. -/
def matchJoinOne (state : State) (presence : Presence) : State × List Effect :=
  let state1 := { state with presences := objSet state.presences presence.userId presence }
  if (objGet state1.players presence.userId).isSome then
    (state1, sendGameState state1 presence)
  else
    let playerCount := (objKeys state1.players).length
    let symbol := if playerCount = 0 then Sym.X else Sym.O
    let state2 := { state1 with
      players := objSet state1.players presence.userId
        { odId := presence.odId
          sessionId := presence.sessionId
          username := if presence.username = "" then "Player" ++ toString (playerCount + 1)
            else presence.username
          symbol := symbol }
      playerSymbols := objSet state1.playerSymbols presence.userId symbol }
    let assign := Effect.broadcast OpCode.PLAYER_JOIN
      (Msg.playerAssign symbol presence.userId) [presence]
    if (objKeys state2.players).length = 2 then
      let r := startGame state2
      (r.1, assign :: r.2)
    else
      (state2, [assign])

/-- Runs a loop body over a batch, threading the state and collecting the
effects in order. -/
def runBatch {α : Type} (body : State → α → State × List Effect) :
    State → List α → State × List Effect
  | state, [] => (state, [])
  | state, x :: rest =>
    let r := body state x
    let r2 := runBatch body r.1 rest
    (r2.1, r.2 ++ r2.2)

/-- The function `matchJoin`. -/
def matchJoin (state : State) (presences : List Presence) : State × List Effect :=
  let r := runBatch matchJoinOne state presences
  ({ r.1 with emptyTicks := 0 }, r.2)

/-! ## Leave -/

/-- The body of the loop of `matchLeave` for one presence. -/
def matchLeaveOne (state : State) (presence : Presence) : State × List Effect :=
  let state1 := { state with presences := objDelete state.presences presence.userId }
  let r : State × List Effect :=
    if ¬ state1.gameOver ∧ state1.gameStarted then
      let remainingIds := (objKeys state1.players).filter (fun id => decide (id ≠ presence.userId))
      match remainingIds with
      | [winnerId] =>
        let winnerSymbol := symbolOf state1 winnerId
        let state2 := { state1 with gameOver := true, winner := winnerSymbol }
        let forfeit :=
          match objGet state2.presences winnerId with
          | some remaining =>
            [Effect.broadcast OpCode.GAME_OVER
              (Msg.gameOverForfeit winnerSymbol state2.board) [remaining]]
          | none => []
        (state2, [Effect.stats winnerId "win", Effect.stats presence.userId "loss"] ++ forfeit)
      | _ => (state1, [])
    else (state1, [])
  (r.1, r.2 ++ broadcastToAll r.1 OpCode.PLAYER_LEAVE
    (Msg.playerLeft presence.userId presence.username))

/-- The function `matchLeave`. -/
def matchLeave (state : State) (presences : List Presence) : State × List Effect :=
  runBatch matchLeaveOne state presences

/-! ## Moves -/

/-- The test `typeof position !== "number"`, negated. -/
def Position.isNumber : Position → Bool
  | .notNumber => false
  | _ => true

/-- The comparison `position < 0` on a number. -/
def Position.ltZero : Position → Bool
  | .num q => decide (q < 0)
  | .negInf => true
  | _ => false

/-- The comparison `position > 8` on a number. -/
def Position.gtEight : Position → Bool
  | .num q => decide (q > 8)
  | .posInf => true
  | _ => false

/-- The array index that the property key of `position` names, when it names
one: an integer-valued number that is not negative. -/
def Position.index : Position → Option Nat
  | .num q => if q.den = 1 ∧ 0 ≤ q.num then some q.num.toNat else none
  | _ => none

/-- The read `state.board[position]`. -/
def boardAt (board : List Val) (position : Position) : Val :=
  match position.index with
  | some i => cell board i
  | none => Val.undefined

/-- The write `state.board[position] = symbol`. It is only reached after
`state.board[position]` was read as `null`, so `position` names an index
inside the array. -/
def boardWrite (board : List Val) (position : Position) (symbol : Val) : List Val :=
  match position.index with
  | some i => board.set i symbol
  | none => board

/-- The first key other than the sender: the loop that switches the turn. -/
def firstOther : List UserId → UserId → Option UserId
  | [], _ => none
  | k :: rest, senderId => if k ≠ senderId then some k else firstOther rest senderId

/-- The turn switch of `processMove`: `currentSymbol` flips and `currentTurn`
goes to the first key of `playerSymbols` other than the sender. -/
def switchTurn (state : State) (senderId : UserId) (symbol : Val) : State :=
  let state2 := { state with
    currentSymbol := if symbol = Val.X then Sym.O else Sym.X }
  match firstOther (objKeys state2.playerSymbols) senderId with
  | some id => { state2 with currentTurn := some id }
  | none => state2

/-- The per-recipient state updates that end `processMove`. -/
def sendUpdates (state : State) (position : Position) (symbol : Val) : List Effect :=
  state.presences.map (fun kv =>
    Effect.broadcast OpCode.GAME_STATE
      (Msg.gameStateUpdate state.board position symbol state.currentTurn
        state.currentSymbol (objGet state.playerSymbols kv.1)
        (decide (state.currentTurn = some kv.1)) state.moveCount)
      [kv.2])

/-- The part of `processMove` that follows the validations: the write, the
win check, the draw check and the turn switch. -/
def makeMove (state : State) (message : Message) (position : Position) :
    State × List Effect :=
  let senderId := message.sender.userId
  let symbol := symbolOf state senderId
  let state1 := { state with
    board := boardWrite state.board position symbol
    moveCount := state.moveCount + 1 }
  let winResult := checkWin state1.board symbol
  if winResult.won then
    let state2 := { state1 with gameOver := true, winner := symbol }
    let updates := (objKeys state2.players).map (fun pid =>
      if symbolOf state2 pid = symbol then Effect.stats pid "win"
      else Effect.stats pid "loss")
    (state2, updates ++ broadcastToAll state2 OpCode.GAME_OVER
      (Msg.gameOverWin symbol state2.board winResult.line))
  else if state1.moveCount ≥ 9 then
    let state2 := { state1 with gameOver := true, winner := Val.draw }
    let updates := (objKeys state2.players).map (fun pid => Effect.stats pid "draw")
    (state2, updates ++ broadcastToAll state2 OpCode.GAME_OVER
      (Msg.gameOverDraw state2.board))
  else
    let state3 := switchTurn state1 senderId symbol
    (state3, sendUpdates state3 position symbol)

/-- The function `processMove(logger, nk, dispatcher, state, message)`. -/
def processMove (state : State) (message : Message) : State × List Effect :=
  let senderId := message.sender.userId
  match message.data with
  | .throws => (state, sendError message.sender "Invalid move data")
  | .parsed position =>
    if state.gameOver then
      (state, sendError message.sender "Game is already over")
    else if ¬ state.gameStarted then
      (state, sendError message.sender "Game hasn't started")
    else if state.currentTurn ≠ some senderId then
      (state, sendError message.sender "Not your turn")
    else if ¬ position.isNumber ∨ position.ltZero ∨ position.gtEight then
      (state, sendError message.sender "Invalid position")
    else if boardAt state.board position ≠ Val.null then
      (state, sendError message.sender "Cell already taken")
    else
      makeMove state message position

/-- The body of the message loop of `matchLoop`. -/
def matchLoopOne (state : State) (message : Message) : State × List Effect :=
  if message.opCode = OpCode.MOVE then processMove state message else (state, [])

/-- The function `matchLoop`; `none` is the `null` that ends the match. -/
def matchLoop (state : State) (messages : List Message) : Option State × List Effect :=
  let state1 :=
    if (objKeys state.presences).length = 0 then
      { state with emptyTicks := state.emptyTicks + 1 }
    else
      { state with emptyTicks := 0 }
  if (objKeys state.presences).length = 0 ∧ state1.emptyTicks > 60 then
    (none, [])
  else
    let r := runBatch matchLoopOne state1 messages
    (some r.1, r.2)

/-! ## Reachable states -/

/-- The states that follow a state `start` under any sequence of the four
callbacks with any arguments. A `matchLoop` that returns `null` ends the
match. -/
inductive ReachableFrom (start : State) : State → Prop where
  | refl : ReachableFrom start start
  | joinAttempt (state : State) (presence : Presence) :
      ReachableFrom start state → ReachableFrom start (matchJoinAttempt state presence).state
  | join (state : State) (presences : List Presence) :
      ReachableFrom start state → ReachableFrom start (matchJoin state presences).1
  | leave (state : State) (presences : List Presence) :
      ReachableFrom start state → ReachableFrom start (matchLeave state presences).1
  | loop (state : State) (messages : List Message) (next : State) :
      ReachableFrom start state → (matchLoop state messages).1 = some next →
      ReachableFrom start next

/-- The states a match goes through: those that follow the state built by
`matchInit`. -/
def Reachable (state : State) : Prop :=
  ∃ (params : Params) (now : Nat), ReachableFrom (matchInit params now).state state

/-! ## Properties named by the specification -/

/-- A line that holds three equal cells, none of them empty: the test of
`checkWinner` in `game_logic.js`, `board[a] && board[a] === board[b] &&
board[a] === board[c]`. -/
def lineFilled (board : List Val) (c : Nat × Nat × Nat) : Prop :=
  cell board c.1 ≠ Val.null ∧ cell board c.1 ≠ Val.undefined ∧
    cell board c.1 = cell board c.2.1 ∧ cell board c.1 = cell board c.2.2

instance (board : List Val) (c : Nat × Nat × Nat) : Decidable (lineFilled board c) := by
  unfold lineFilled; infer_instance

/-- The conditions under which a move is to be applied: the payload carries a
position that is an integer `n` in 0..8, the session is started and not over,
the sender holds the turn and cell `n` is empty. -/
def MoveOk (state : State) (message : Message) (n : Nat) : Prop :=
  message.data = MoveData.parsed (Position.num n) ∧ n ≤ 8 ∧
    state.gameStarted = true ∧ state.gameOver = false ∧
    state.currentTurn = some message.sender.userId ∧
    cell state.board n = Val.null

instance (state : State) (message : Message) (n : Nat) : Decidable (MoveOk state message n) := by
  unfold MoveOk; infer_instance

/-- The number of board cells that are not empty. -/
def filledCells (board : List Val) : Nat :=
  board.countP (fun v => decide (v ≠ Val.null))

/-- The facts that hold in every state of a running match. -/
structure Inv (s : State) : Prop where
  board_len : s.board.length = 9
  board_cells : ∀ v ∈ s.board, v = Val.null ∨ v = Val.X ∨ v = Val.O
  count : s.moveCount = filledCells s.board
  turn_key : ∀ id, s.currentTurn = some id → id ∈ objKeys s.playerSymbols
  no_line : s.gameOver = false → ∀ c ∈ WIN_CONDITIONS, ¬ lineFilled s.board c
  winner_null : s.gameOver = false → s.winner = Val.null
  keys_eq : objKeys s.playerSymbols = objKeys s.players
  keys_nodup : (objKeys s.players).Nodup

/-- The texts of the errors `processMove` sends. -/
def moveErrors : List String :=
  ["Invalid move data", "Game is already over", "Game hasn't started", "Not your turn",
    "Invalid position", "Cell already taken"]

/-- The move at cell `n` completed the line `c` for `symbol`: the line goes
through `n` and its three cells hold `symbol`. -/
def completesLine (board : List Val) (n : Nat) (symbol : Val) (c : Nat × Nat × Nat) : Prop :=
  (c.1 = n ∨ c.2.1 = n ∨ c.2.2 = n) ∧ lineHolds board symbol c = true

instance (board : List Val) (n : Nat) (symbol : Val) (c : Nat × Nat × Nat) :
    Decidable (completesLine board n symbol c) := by
  unfold completesLine; infer_instance

/-! ## Concrete sessions -/

/-- A first player. -/
def alice : Presence :=
  { userId := "alice-id", sessionId := "s1", username := "alice", odId := none }

/-- A second player. -/
def bob : Presence :=
  { userId := "bob-id", sessionId := "s2", username := "bob", odId := none }

/-- A move message. -/
def moveMsg (sender : Presence) (n : Nat) : Message :=
  { opCode := OpCode.MOVE, sender := sender, data := MoveData.parsed (Position.num (n : ℚ)) }

/-- The parameters of a match created without any. -/
def noParams : Params :=
  { invited := none, usernames := none, mode := none, fromMatchmaker := none }

/-- A session created without parameters. -/
def lobbyState : State :=
  (matchInit noParams 0).state

/-- The session once `alice` and `bob` have joined. -/
def startedState : State :=
  (matchJoin lobbyState [alice, bob]).1

/-- The session after the moves 0, 3, 1, 4. -/
def midState : State :=
  (runBatch matchLoopOne startedState
    [moveMsg alice 0, moveMsg bob 3, moveMsg alice 1, moveMsg bob 4]).1

/-- A third player. -/
def carol : Presence :=
  { userId := "carol-id", sessionId := "s3", username := "carol", odId := none }

/-- A matchmaker result with three entries. -/
def threeEntries : List MatchmakerEntry :=
  [{ presence := alice, mode := none }, { presence := bob, mode := none },
   { presence := carol, mode := none }]

/-- The session the matchmaker callback creates for `threeEntries`, once
`alice` and `bob` have joined. -/
def matchmadeState : State :=
  (matchJoin (matchInit (matchmakerMatched threeEntries) 0).state [alice, bob]).1

/-- A move whose position is the number 1.5, sent by `alice`. -/
def fractionalMove : Message :=
  { opCode := OpCode.MOVE, sender := alice, data := MoveData.parsed (Position.num (3 / 2)) }

/-- The symbol of the `i`-th participant in join order: `X` for the first,
`O` for every later one. -/
def symbolAt (i : Nat) : Sym :=
  if i = 0 then Sym.X else Sym.O

/-- The facts about symbols and about the start of the game that hold in
every state of a running match. -/
structure StartInv (s : State) : Prop where
  symbols_eq : s.playerSymbols = s.players.map (fun kv => (kv.1, kv.2.symbol))
  symbols_order :
    s.players.map (fun kv => kv.2.symbol) = (List.range s.players.length).map symbolAt
  started_iff : s.gameStarted = true ↔ 2 ≤ s.players.length
  over_started : s.gameOver = true → s.gameStarted = true
  turn_none : s.gameStarted = false → s.currentTurn = none
  turn_some : s.gameStarted = true → ∃ id, s.currentTurn = some id

/-- The entry `matchJoin` writes into `state.players` for a new presence. -/
def playerOf (s : State) (p : Presence) : Player :=
  { odId := p.odId
    sessionId := p.sessionId
    username := if p.username = "" then "Player" ++ toString ((objKeys s.players).length + 1)
      else p.username
    symbol := if (objKeys s.players).length = 0 then Sym.X else Sym.O }

/-- The state of `matchJoin` once a new presence is enrolled, before the test
that starts the game. -/
def enrol (s : State) (p : Presence) : State :=
  { s with
    presences := objSet s.presences p.userId p
    players := objSet s.players p.userId (playerOf s p)
    playerSymbols := objSet s.playerSymbols p.userId (playerOf s p).symbol }

/-- A matchmaker result that lists `alice` before `bob`. -/
def twoEntries : List MatchmakerEntry :=
  [{ presence := alice, mode := none }, { presence := bob, mode := none }]

/-- The session created for `twoEntries` in which the join of `bob` is
processed before the join of `alice`. -/
def swappedState : State :=
  (matchJoin (matchJoin (matchInit (matchmakerMatched twoEntries) 0).state [bob]).1 [alice]).1

/-- The record updates among the effects, in call order. -/
def statsOf : List Effect → List (UserId × String)
  | [] => []
  | Effect.stats userId result :: rest => (userId, result) :: statsOf rest
  | _ :: rest => statsOf rest

/-- The state `t` shows the same game as `s`: same end flag, board, move
counter, winner and turn. -/
def SameGame (s t : State) : Prop :=
  t.gameOver = s.gameOver ∧ t.board = s.board ∧ t.moveCount = s.moveCount ∧
    t.winner = s.winner ∧ t.currentTurn = s.currentTurn ∧ t.currentSymbol = s.currentSymbol

/-- The session after the moves 0, 3, 1, 4, 2: `alice` has the top row. -/
def wonState : State :=
  (runBatch matchLoopOne startedState
    [moveMsg alice 0, moveMsg bob 3, moveMsg alice 1, moveMsg bob 4, moveMsg alice 2]).1

/-- The states of a match in which `matchJoin` is only given presences whose
`matchJoinAttempt` was accepted. The list holds the presences that were
accepted and have not joined yet. -/
inductive Admitted (start : State) : State → List Presence → Prop where
  | refl : Admitted start start []
  | accepted (state : State) (pending : List Presence) (presence : Presence) :
      Admitted start state pending → (matchJoinAttempt state presence).accept = true →
      Admitted start (matchJoinAttempt state presence).state (pending ++ [presence])
  | rejected (state : State) (pending : List Presence) (presence : Presence) :
      Admitted start state pending → (matchJoinAttempt state presence).accept = false →
      Admitted start (matchJoinAttempt state presence).state pending
  | join (state : State) (pending : List Presence) (presences : List Presence) :
      Admitted start state pending → (∀ p ∈ presences, p ∈ pending) →
      Admitted start (matchJoin state presences).1
        (pending.filter (fun p => decide (p ∉ presences)))
  | leave (state : State) (pending : List Presence) (presences : List Presence) :
      Admitted start state pending → Admitted start (matchLeave state presences).1 pending
  | loop (state : State) (pending : List Presence) (messages : List Message) (next : State) :
      Admitted start state pending → (matchLoop state messages).1 = some next →
      Admitted start next pending

/-- The states of a match in which every accepted `matchJoinAttempt` is
followed at once by the `matchJoin` of that presence. -/
inductive Sequential (start : State) : State → Prop where
  | refl : Sequential start start
  | enter (state : State) (presence : Presence) :
      Sequential start state → (matchJoinAttempt state presence).accept = true →
      Sequential start (matchJoin (matchJoinAttempt state presence).state [presence]).1
  | reject (state : State) (presence : Presence) :
      Sequential start state → (matchJoinAttempt state presence).accept = false →
      Sequential start (matchJoinAttempt state presence).state
  | leave (state : State) (presences : List Presence) :
      Sequential start state → Sequential start (matchLeave state presences).1
  | loop (state : State) (messages : List Message) (next : State) :
      Sequential start state → (matchLoop state messages).1 = some next →
      Sequential start next

/-- The session `alice`, `bob` and `carol` joined in one batch. -/
def crowdedState : State :=
  (matchJoin lobbyState [alice, bob, carol]).1

/-- While no move was made in a started game, `X` is to play and the turn is
with the first participant. -/
def OpeningTurn (s : State) : Prop :=
  s.gameStarted = true →
    s.currentSymbol = Sym.X ∧ ∃ kv, s.players[0]? = some kv ∧ s.currentTurn = some kv.1

/-! ## Player records -/

/-- The record kept for a player under `player_stats`/`stats`. The fields are
the integers that the module itself writes. -/
structure Stats where
  wins : Int
  losses : Int
  draws : Int
  totalGames : Int
  winStreak : Int
  currentStreak : Int
  rating : Int
  deriving DecidableEq, Repr

/-- The storage collection `player_stats`, key `stats`: a record per user. A
record is stored as the text `JSON.stringify` gives and read back with
`JSON.parse`, which returns the record that was written. -/
abbrev Storage := List (UserId × Stats)

/-- The record `updatePlayerStats` starts from when none is stored. -/
def defaultStats : Stats :=
  { wins := 0, losses := 0, draws := 0, totalGames := 0, winStreak := 0, currentStreak := 0,
    rating := 1200 }

/-- The statements of `updatePlayerStats` between the read and the write.
The result is `none` when the value passed is not a string. -/
def applyResult (stats : Stats) (result : Option String) : Stats :=
  let stats1 := { stats with totalGames := stats.totalGames + 1 }
  if result = some "win" then
    let stats2 := { stats1 with wins := stats1.wins + 1 }
    let stats3 := { stats2 with currentStreak := stats2.currentStreak + 1 }
    let stats4 := { stats3 with winStreak := max stats3.winStreak stats3.currentStreak }
    { stats4 with rating := stats4.rating + 25 }
  else if result = some "loss" then
    let stats2 := { stats1 with losses := stats1.losses + 1 }
    let stats3 := { stats2 with currentStreak := 0 }
    { stats3 with rating := max 0 (stats3.rating - 20) }
  else if result = some "draw" then
    let stats2 := { stats1 with draws := stats1.draws + 1 }
    { stats2 with rating := stats2.rating + 5 }
  else
    stats1

/-- The record `updatePlayerStats` reads for a user: the stored one, or the
default when none is stored. -/
def readStats (storage : Storage) (odId : UserId) : Stats :=
  match objGet storage odId with
  | some stats => stats
  | none => defaultStats

/-- The function `updatePlayerStats(nk, logger, odId, result)`, as the storage
it leaves. -/
def updatePlayerStats (storage : Storage) (odId : UserId) (result : Option String) : Storage :=
  objSet storage odId (applyResult (readStats storage odId) result)

/-- The payload of `rpcUpdateStats`, once through `JSON.parse`: the parse
throws or yields `null`, or it yields an object whose `result` property is
read (`none` when it is absent or not a string). -/
inductive StatsPayload where
  | throws
  | parsed (result : Option String)
  deriving DecidableEq, Repr

/-- The function `rpcUpdateStats`, as the storage it leaves and the `success`
flag of its answer; `userId` is `ctx.userId`. -/
def rpcUpdateStats (storage : Storage) (userId : UserId) (payload : StatsPayload) :
    Storage × Bool :=
  match payload with
  | .throws => (storage, false)
  | .parsed result => (updatePlayerStats storage userId result, true)

/-- The storage after the record updates among `effects`, in call order. -/
def applyStats (storage : Storage) (updates : List (UserId × String)) : Storage :=
  updates.foldl (fun st u => updatePlayerStats st u.1 (some u.2)) storage

/-- The invariant of a record: the total is the sum of the three counters, and
the counters and the rating are not negative. -/
def StatsOk (stats : Stats) : Prop :=
  stats.totalGames = stats.wins + stats.losses + stats.draws ∧
    0 ≤ stats.wins ∧ 0 ≤ stats.losses ∧ 0 ≤ stats.draws ∧ 0 ≤ stats.totalGames ∧
    0 ≤ stats.rating

instance (stats : Stats) : Decidable (StatsOk stats) := by
  unfold StatsOk; infer_instance

/-- The values of `currentStreak` after each of a sequence of updates of the
record of `odId`. -/
def streakHistory (odId : UserId) : Storage → List (Option String) → List Int
  | _, [] => []
  | storage, result :: rest =>
    (readStats (updatePlayerStats storage odId result) odId).currentStreak ::
      streakHistory odId (updatePlayerStats storage odId result) rest

/-- The storage after a sequence of updates of the record of `odId`. -/
def updateAll (odId : UserId) (storage : Storage) (results : List (Option String)) : Storage :=
  results.foldl (fun st result => updatePlayerStats st odId result) storage

/-- A run of a match from `start`: the state it is in and every effect the
callbacks had so far, in order. -/
inductive Run (start : State) : State → List Effect → Prop where
  | refl : Run start start []
  | joinAttempt (state : State) (effects : List Effect) (presence : Presence) :
      Run start state effects → Run start (matchJoinAttempt state presence).state effects
  | join (state : State) (effects : List Effect) (presences : List Presence) :
      Run start state effects →
      Run start (matchJoin state presences).1 (effects ++ (matchJoin state presences).2)
  | leave (state : State) (effects : List Effect) (presences : List Presence) :
      Run start state effects →
      Run start (matchLeave state presences).1 (effects ++ (matchLeave state presences).2)
  | loop (state : State) (effects : List Effect) (messages : List Message) (next : State) :
      Run start state effects → (matchLoop state messages).1 = some next →
      Run start next (effects ++ (matchLoop state messages).2)

/-- What the record updates of a match are, given its state: none while the
game is not over; once it is over the participants are two, and either the
winner is `"draw"` and each got "draw", or the owner of the winning symbol got
"win" and the other participant got "loss". -/
def Ledger (s : State) (updates : List (UserId × String)) : Prop :=
  (s.gameOver = false → updates = []) ∧
  (s.gameOver = true → ∃ a b, objKeys s.players = [a, b] ∧ a ≠ b ∧
    ((s.winner = Val.draw ∧ updates = [(a, "draw"), (b, "draw")]) ∨
     (∃ w l, ((w = a ∧ l = b) ∨ (w = b ∧ l = a)) ∧ symbolOf s w = s.winner ∧
        s.winner ≠ Val.draw ∧
        (updates = [(w, "win"), (l, "loss")] ∨ updates = [(l, "loss"), (w, "win")]))))

/-- All the effects of the five winning moves played in `startedState`, from
the creation of the match. -/
def wonEffects : List Effect :=
  ([] ++ (matchJoin lobbyState [alice, bob]).2) ++
    (matchLoop startedState
      [moveMsg alice 0, moveMsg bob 3, moveMsg alice 1, moveMsg bob 4, moveMsg alice 2]).2

/-! ## Leaderboard -/

/-- An object returned by `nk.storageList` for the collection `player_stats`:
the owner and the parsed value. -/
structure StorageObject where
  userId : UserId
  value : Stats
  deriving DecidableEq, Repr

/-- The outcome of `nk.usersGetId([userId])` for one user: it throws, it finds
nobody, or it finds a user; an absent name is the empty string. -/
inductive UserLookup where
  | throws
  | noUser
  | user (username : String) (displayName : String)
  deriving DecidableEq, Repr

/-- An element of `allStats`; `rank` is `none` until the rank is assigned. -/
structure LeaderboardEntry where
  odId : UserId
  username : String
  wins : Int
  losses : Int
  draws : Int
  totalGames : Int
  winStreak : Int
  rating : Int
  rank : Option Nat
  deriving DecidableEq, Repr

/-- The answer of `rpcGetLeaderboard`. -/
structure LeaderboardResponse where
  success : Bool
  leaderboard : List LeaderboardEntry
  count : Option Nat
  deriving DecidableEq, Repr

/-- The payload of `rpcGetLeaderboard`: absent, not parseable, or parsed with
its `limit` property (`none` when the property is absent). -/
inductive LeaderboardPayload where
  | absent
  | throws
  | parsed (limit : Option Nat)
  deriving DecidableEq, Repr

/-- The expression `x || d` on a number `x`: `d` when `x` is 0. -/
def orDefault (x d : Int) : Int :=
  if x = 0 then d else x

/-- The name resolved for an entry. -/
def resolveUsername : UserLookup → String
  | .throws => "Unknown"
  | .noUser => "Unknown"
  | .user username displayName =>
    if username ≠ "" then username else if displayName ≠ "" then displayName else "Player"

/-- The entry pushed on `allStats` for one storage object. -/
def entryOf (usersGetId : UserId → UserLookup) (obj : StorageObject) : LeaderboardEntry :=
  { odId := obj.userId
    username := resolveUsername (usersGetId obj.userId)
    wins := orDefault obj.value.wins 0
    losses := orDefault obj.value.losses 0
    draws := orDefault obj.value.draws 0
    totalGames := orDefault obj.value.totalGames 0
    winStreak := orDefault obj.value.winStreak 0
    rating := orDefault obj.value.rating 1200
    rank := none }

/-- The step of a stable sort: `a` goes before the first element it does not
have to follow. -/
def insertByCompare {α : Type} (compare : α → α → Int) (a : α) : List α → List α
  | [] => [a]
  | b :: rest =>
    if compare a b ≤ 0 then a :: b :: rest else b :: insertByCompare compare a rest

/-- The method `Array.prototype.sort(compareFn)`, which is a stable sort: the
elements in the order of `compareFn`, those it does not separate in their
former order. -/
def sortByCompare {α : Type} (compare : α → α → Int) : List α → List α
  | [] => []
  | a :: rest => insertByCompare compare a (sortByCompare compare rest)

/-- The comparison function of the leaderboard, `b.rating - a.rating`. -/
def compareRating (a b : LeaderboardEntry) : Int :=
  b.rating - a.rating

/-- The loop that writes `allStats[j].rank = j + 1`, from index `j` on. -/
def assignRanks : Nat → List LeaderboardEntry → List LeaderboardEntry
  | _, [] => []
  | j, e :: rest => { e with rank := some (j + 1) } :: assignRanks (j + 1) rest

/-- The function `rpcGetLeaderboard`; `storageList` is the result of
`nk.storageList` for a limit (`none` when it has no `objects`). -/
def rpcGetLeaderboard (storageList : Nat → Option (List StorageObject))
    (usersGetId : UserId → UserLookup) (payload : LeaderboardPayload) : LeaderboardResponse :=
  match payload with
  | .throws => { success := false, leaderboard := [], count := none }
  | _ =>
    let limit :=
      match payload with
      | .parsed (some n) => if n = 0 then 50 else n
      | _ => 50
    let allStats :=
      match storageList limit with
      | some objects => objects.map (entryOf usersGetId)
      | none => []
    let sorted := sortByCompare compareRating allStats
    let ranked := assignRanks 0 sorted
    { success := true, leaderboard := ranked, count := some ranked.length }

/-- An entry without its rank. -/
def LeaderboardEntry.unranked (e : LeaderboardEntry) : LeaderboardEntry :=
  { e with rank := none }

/-- A stored record with a given rating. -/
def statsRated (rating : Int) : Stats :=
  { defaultStats with rating := rating }

/-- Three scanned records with the ratings 1200, 1250 and 1150. -/
def scannedThree : List StorageObject :=
  [{ userId := "alice-id", value := statsRated 1200 },
   { userId := "bob-id", value := statsRated 1250 },
   { userId := "carol-id", value := statsRated 1150 }]

/-- Two scanned records: `alice` at the floor rating 0 and `bob` at 100. -/
def scannedFloor : List StorageObject :=
  [{ userId := "alice-id", value := statsRated 0 },
   { userId := "bob-id", value := statsRated 100 }]

/-- A lookup that finds nobody. -/
def nobody : UserId → UserLookup :=
  fun _ => UserLookup.noUser

/-- The states after consecutive ticks, one batch of messages per tick; `none`
once a tick has returned `null`. -/
def runTicks : State → List (List Message) → Option State
  | state, [] => some state
  | state, messages :: rest =>
    match (matchLoop state messages).1 with
    | none => none
    | some next => runTicks next rest

/-- The number of cells that hold `X`. -/
def countX (board : List Val) : Nat :=
  board.countP (fun v => decide (v = Val.X))

/-- The number of cells that hold `O`. -/
def countO (board : List Val) : Nat :=
  board.countP (fun v => decide (v = Val.O))

/-- The facts about the balance of the board and the turn that hold in every
state of a running match. -/
structure TurnInv (s : State) : Prop where
  counts : countX s.board = countO s.board ∨ countX s.board = countO s.board + 1
  fresh : s.gameStarted = false → countX s.board = 0 ∧ countO s.board = 0
  turn : s.gameStarted = true → s.gameOver = false →
    (s.currentSymbol = Sym.X ∧ countX s.board = countO s.board ∧
      ∃ kv, s.players[0]? = some kv ∧ s.currentTurn = some kv.1) ∨
    (s.currentSymbol = Sym.O ∧ countX s.board = countO s.board + 1 ∧
      ∃ kv, s.players[1]? = some kv ∧ s.currentTurn = some kv.1)

/-- The board X,O,X / O,X,O / O,X,O. -/
def claimedDrawBoard : List Val :=
  [Val.X, Val.O, Val.X, Val.O, Val.X, Val.O, Val.O, Val.X, Val.O]

/-- The board O,X,O / X,O,X / X,O,X. -/
def drawBoard : List Val :=
  [Val.O, Val.X, Val.O, Val.X, Val.O, Val.X, Val.X, Val.O, Val.X]

/-- Nine moves, `alice` (who holds `X`) first: 1, 0, 3, 2, 5, 4, 6, 7, 8. -/
def drawMoves : List (Presence × Nat) :=
  [(alice, 1), (bob, 0), (alice, 3), (bob, 2), (alice, 5), (bob, 4), (alice, 6), (bob, 7),
    (alice, 8)]

/-- Every move of the list is accepted when its turn comes. -/
def movesAccepted : State → List (Presence × Nat) → Bool
  | _, [] => true
  | state, (sender, n) :: rest =>
    decide (MoveOk state (moveMsg sender n) n) &&
      movesAccepted (processMove state (moveMsg sender n)).1 rest

/-- The state after the moves of the list. -/
def playMoves : State → List (Presence × Nat) → State
  | state, [] => state
  | state, (sender, n) :: rest => playMoves (processMove state (moveMsg sender n)).1 rest

/-- The shape of `state.presences`: one entry per key, and each entry is
stored under the user id of the presence it holds. -/
structure PresInv (s : State) : Prop where
  keys_nodup : (objKeys s.presences).Nodup
  keyed : ∀ kv ∈ s.presences, kv.2.userId = kv.1

/-- The label the runtime holds for a match after a list of effects: the
argument of the last `matchLabelUpdate` call, or else the label it held
before. -/
def currentLabel (label : Label) : List Effect → Label
  | [] => label
  | Effect.labelUpdate next :: rest => currentLabel next rest
  | Effect.broadcast _ _ _ :: rest => currentLabel label rest
  | Effect.stats _ _ :: rest => currentLabel label rest

/-- Whether an effect is a `matchLabelUpdate` call. -/
def Effect.isLabel : Effect → Bool
  | Effect.labelUpdate _ => true
  | _ => false

/-- The part of the label that follows the session: the open flag is set
exactly while the game is not started, and the mode is the mode of the
session. -/
def LabelSync (label : Label) (s : State) : Prop :=
  label.isOpen = !s.gameStarted ∧ label.mode = s.mode

/-- The session once `alice` alone has joined. -/
def waitingState : State :=
  (matchJoin lobbyState [alice]).1

/-- The effects of the join of `alice` alone. -/
def waitingEffects : List Effect :=
  (matchJoin lobbyState [alice]).2

/-! ## Lemmas -/

theorem objGet_isSome_iff {β : Type} (l : List (UserId × β)) (k : UserId) :
    (objGet l k).isSome = true ↔ k ∈ objKeys l := by
  induction l with
  | nil => simp [objGet, objKeys]
  | cons hd tl ih =>
    obtain ⟨k0, v0⟩ := hd
    by_cases h : k0 = k
    · simp [objGet, objKeys, h]
    · have h2 : ¬ k = k0 := fun e => h e.symm
      simp only [objGet, if_neg h, ih, objKeys, List.map_cons, List.mem_cons, h2, false_or]

theorem objKeys_objSet {β : Type} (l : List (UserId × β)) (k : UserId) (v : β) :
    objKeys (objSet l k v) = if k ∈ objKeys l then objKeys l else objKeys l ++ [k] := by
  induction l with
  | nil => simp [objSet, objKeys]
  | cons hd tl ih =>
    obtain ⟨k0, v0⟩ := hd
    by_cases h : k0 = k
    · simp [objSet, objKeys, h]
    · have h2 : ¬ k = k0 := fun e => h e.symm
      simp only [objKeys] at ih
      simp only [objSet, if_neg h, objKeys, List.map_cons, List.mem_cons, h2, false_or, ih]
      split <;> simp

theorem objGet_objSet {β : Type} (l : List (UserId × β)) (k : UserId) (v : β) (k2 : UserId) :
    objGet (objSet l k v) k2 = if k = k2 then some v else objGet l k2 := by
  induction l with
  | nil => simp [objSet, objGet]
  | cons hd tl ih =>
    obtain ⟨k0, v0⟩ := hd
    by_cases h : k0 = k
    · subst h
      by_cases h3 : k0 = k2
      · simp [objSet, objGet, h3]
      · simp [objSet, objGet, h3]
    · by_cases h3 : k0 = k2
      · subst h3
        have h4 : ¬ k = k0 := fun e => h e.symm
        simp [objSet, objGet, h, h4]
      · simp [objSet, objGet, h, h3, ih]

theorem cell_set_self (l : List Val) (i : Nat) (v : Val) (h : i < l.length) :
    cell (l.set i v) i = v := by
  simp [cell, List.getD_eq_getElem?_getD, h]

theorem cell_set_other (l : List Val) (i j : Nat) (v : Val) (h : j ≠ i) :
    cell (l.set i v) j = cell l j := by
  simp [cell, List.getD_eq_getElem?_getD, List.getElem?_set_ne (Ne.symm h)]

theorem cell_null_lt (l : List Val) (i : Nat) (h : cell l i = Val.null) : i < l.length := by
  by_contra hc
  simp [cell, List.getD_eq_getElem?_getD, List.getElem?_eq_none (not_lt.mp hc)] at h

theorem filledCells_set (l : List Val) (i : Nat) (v : Val) (h : cell l i = Val.null)
    (hv : v ≠ Val.null) : filledCells (l.set i v) = filledCells l + 1 := by
  induction l generalizing i with
  | nil => simp [cell] at h
  | cons hd tl ih =>
    cases i with
    | zero =>
      simp [cell] at h
      subst h
      simp [filledCells, List.countP_cons, hv]
    | succ i =>
      have h2 : cell tl i = Val.null := by simpa [cell] using h
      have := ih i h2
      simp only [filledCells, List.set_cons_succ, List.countP_cons] at this ⊢
      omega

theorem filledCells_le (l : List Val) : filledCells l ≤ l.length := by
  unfold filledCells; exact List.countP_le_length _

theorem checkWin_won_iff (board : List Val) (symbol : Val) :
    (checkWin board symbol).won = true ↔ ∃ c ∈ WIN_CONDITIONS, lineHolds board symbol c = true := by
  unfold checkWin
  cases hf : WIN_CONDITIONS.find? (lineHolds board symbol) with
  | none =>
    simp only [Bool.false_eq_true, false_iff, not_exists, not_and]
    intro c hc
    have := List.find?_eq_none.mp hf c hc
    simpa using this
  | some c =>
    simp only [true_iff]
    exact ⟨c, List.mem_of_find?_eq_some hf, List.find?_some hf⟩

theorem lineHolds_iff (board : List Val) (symbol : Val) (c : Nat × Nat × Nat) :
    lineHolds board symbol c = true ↔
      cell board c.1 = symbol ∧ cell board c.2.1 = symbol ∧ cell board c.2.2 = symbol := by
  simp [lineHolds, and_assoc]

theorem index_natCast (n : Nat) : (Position.num (n : ℚ)).index = some n := by
  simp [Position.index]

theorem position_of_guards (board : List Val) (position : Position)
    (h1 : ¬ (¬ position.isNumber = true ∨ position.ltZero = true ∨ position.gtEight = true))
    (h2 : ¬ boardAt board position ≠ Val.null) :
    ∃ n : Nat, n ≤ 8 ∧ position = Position.num (n : ℚ) ∧ cell board n = Val.null := by
  cases position with
  | notNumber => simp [Position.isNumber] at h1
  | posInf => simp [Position.gtEight] at h1
  | negInf => simp [Position.ltZero] at h1
  | num q =>
    simp only [Position.isNumber, Position.ltZero, Position.gtEight, not_true_eq_false,
      false_or, decide_eq_true_eq, not_or, not_lt] at h1
    simp only [boardAt, Position.index, ne_eq, not_not] at h2
    split at h2
    · rename_i i hi
      split at hi
      · rename_i hq
        have hiq : q.num.toNat = i := by simpa using hi
        have hq1 : q = (q.num : ℚ) := (Rat.coe_int_num_of_den_eq_one hq.1).symm
        have hq2 : (q.num : ℤ) = ((q.num.toNat : ℕ) : ℤ) := (Int.toNat_of_nonneg hq.2).symm
        have hq3 : q = ((i : ℕ) : ℚ) := by
          rw [hq1, hq2, hiq]; simp
        refine ⟨i, ?_, ?_, h2⟩
        · have := h1.2
          rw [hq3] at this
          exact_mod_cast this
        · rw [hq3]
      · simp at hi
    · simp at h2

theorem processMove_reject (state : State) (message : Message)
    (h : ¬ ∃ n, MoveOk state message n) :
    ∃ text, processMove state message = (state, sendError message.sender text) := by
  unfold processMove
  cases hd : message.data with
  | throws => exact ⟨_, rfl⟩
  | parsed position =>
    dsimp only
    split
    · exact ⟨_, rfl⟩
    split
    · exact ⟨_, rfl⟩
    split
    · exact ⟨_, rfl⟩
    split
    · exact ⟨_, rfl⟩
    split
    · exact ⟨_, rfl⟩
    rename_i g1 g2 g3 g4 g5
    exfalso
    obtain ⟨n, hn, hp, hc⟩ := position_of_guards state.board position g4 g5
    apply h
    refine ⟨n, ?_, hn, ?_, ?_, ?_, hc⟩
    · rw [hd, hp]
    · simpa using g2
    · simpa using g1
    · simpa using g3

theorem boardAt_natCast (board : List Val) (n : Nat) :
    boardAt board (Position.num (n : ℚ)) = cell board n := by
  simp [boardAt, index_natCast]

theorem boardWrite_natCast (board : List Val) (n : Nat) (v : Val) :
    boardWrite board (Position.num (n : ℚ)) v = board.set n v := by
  simp [boardWrite, index_natCast]

theorem guards_natCast (n : Nat) (h : n ≤ 8) :
    ¬ (¬ (Position.num (n : ℚ)).isNumber = true ∨ (Position.num (n : ℚ)).ltZero = true ∨
      (Position.num (n : ℚ)).gtEight = true) := by
  simp only [Position.isNumber, Position.ltZero, Position.gtEight, not_true_eq_false,
    false_or, decide_eq_true_eq, not_or, not_lt]
  constructor
  · exact_mod_cast Nat.zero_le n
  · exact_mod_cast h

theorem processMove_accept (state : State) (message : Message) (n : Nat)
    (h : MoveOk state message n) :
    processMove state message = makeMove state message (Position.num (n : ℚ)) := by
  obtain ⟨hd, hn, hs, ho, ht, hc⟩ := h
  unfold processMove
  rw [hd]
  dsimp only
  rw [if_neg (by simp [ho]), if_neg (by simp [hs]), if_neg (by simp [ht]),
    if_neg (guards_natCast n hn), if_neg (by simp [boardAt_natCast, hc])]

theorem runBatch_preserves {α : Type} (P : State → Prop)
    (body : State → α → State × List Effect)
    (hbody : ∀ s x, P s → P (body s x).1) :
    ∀ (l : List α) (s : State), P s → P (runBatch body s l).1 := by
  intro l
  induction l with
  | nil => intro s hs; simpa [runBatch] using hs
  | cons x rest ih =>
    intro s hs
    simp only [runBatch]
    exact ih _ (hbody s x hs)

theorem inv_init (params : Params) (now : Nat) : Inv (matchInit params now).state := by
  constructor
  · simp [matchInit]
  · simp [matchInit]
  · simp [matchInit, filledCells]
  · simp [matchInit]
  · intro _ c hc
    simp only [WIN_CONDITIONS, List.mem_cons, List.mem_singleton, List.not_mem_nil, or_false] at hc
    rcases hc with h | h | h | h | h | h | h | h <;> subst h <;>
      simp [matchInit, lineFilled, cell]
  · simp [matchInit]
  · simp [matchInit, objKeys]
  · simp [matchInit, objKeys]

theorem findX_mem (l : List (UserId × Sym)) (id : UserId) (h : findX l = some id) :
    id ∈ objKeys l := by
  induction l with
  | nil => simp [findX] at h
  | cons hd tl ih =>
    obtain ⟨k, s⟩ := hd
    simp only [findX] at h
    split at h
    · simp only [Option.some.injEq] at h
      simp [objKeys, h]
    · have := ih h
      simp only [objKeys] at this
      simp [objKeys, this]

theorem inv_startGame (s : State) (h : Inv s) : Inv (startGame s).1 := by
  unfold startGame
  dsimp only
  cases hx : findX s.playerSymbols with
  | none =>
    exact { h with }
  | some id =>
    refine { h with turn_key := ?_ }
    intro id2 hid
    simp only [Option.some.injEq] at hid
    subst hid
    exact findX_mem _ _ hx

theorem mem_objKeys_objSet {β : Type} (l : List (UserId × β)) (k : UserId) (v : β)
    (id : UserId) (h : id ∈ objKeys l) : id ∈ objKeys (objSet l k v) := by
  rw [objKeys_objSet]
  split
  · exact h
  · exact List.mem_append_left _ h

theorem inv_matchJoinOne (s : State) (p : Presence) (h : Inv s) : Inv (matchJoinOne s p).1 := by
  unfold matchJoinOne
  dsimp only
  split
  · exact { h with }
  · rename_i hnew
    have hk : ¬ p.userId ∈ objKeys s.players := by
      intro hc
      exact hnew ((objGet_isSome_iff _ _).mpr hc)
    have hk2 : ¬ p.userId ∈ objKeys s.playerSymbols := by rw [h.keys_eq]; exact hk
    have hinv2 : ∀ (pl : Player) (sym : Sym), Inv { s with
        presences := objSet s.presences p.userId p
        players := objSet s.players p.userId pl
        playerSymbols := objSet s.playerSymbols p.userId sym } := by
      intro pl sym
      refine { h with turn_key := ?_, keys_eq := ?_, keys_nodup := ?_ }
      · intro id hid
        exact mem_objKeys_objSet _ _ _ _ (h.turn_key id hid)
      · show objKeys (objSet s.playerSymbols p.userId sym) = objKeys (objSet s.players p.userId pl)
        rw [objKeys_objSet, objKeys_objSet, if_neg hk, if_neg hk2, h.keys_eq]
      · show (objKeys (objSet s.players p.userId pl)).Nodup
        rw [objKeys_objSet, if_neg hk]
        exact List.Nodup.append h.keys_nodup (List.nodup_singleton _) (by simpa using hk)
    split_ifs <;> first | exact inv_startGame _ (hinv2 _ _) | exact hinv2 _ _

theorem inv_emptyTicks (s : State) (n : Nat) (h : Inv s) : Inv { s with emptyTicks := n } :=
  { h with }

theorem inv_matchJoin (s : State) (ps : List Presence) (h : Inv s) : Inv (matchJoin s ps).1 := by
  unfold matchJoin
  exact inv_emptyTicks _ _ (runBatch_preserves Inv matchJoinOne inv_matchJoinOne ps s h)

theorem inv_matchLeaveOne (s : State) (p : Presence) (h : Inv s) : Inv (matchLeaveOne s p).1 := by
  unfold matchLeaveOne
  dsimp only
  split
  · split
    · refine { h with no_line := ?_, winner_null := ?_ }
      · intro hc
        simp at hc
      · intro hc
        simp at hc
    · exact { h with }
  · exact { h with }

theorem inv_matchLeave (s : State) (ps : List Presence) (h : Inv s) : Inv (matchLeave s ps).1 :=
  runBatch_preserves Inv matchLeaveOne inv_matchLeaveOne ps s h

theorem symbolOf_of_mem (s : State) (id : UserId) (h : id ∈ objKeys s.playerSymbols) :
    symbolOf s id = Val.X ∨ symbolOf s id = Val.O := by
  have h2 := (objGet_isSome_iff s.playerSymbols id).mpr h
  unfold symbolOf
  cases hg : objGet s.playerSymbols id with
  | none => simp [hg] at h2
  | some sym => cases sym <;> simp [Sym.toVal]

theorem firstOther_mem (l : List UserId) (senderId id : UserId)
    (h : firstOther l senderId = some id) : id ∈ l ∧ id ≠ senderId := by
  induction l with
  | nil => simp [firstOther] at h
  | cons k rest ih =>
    simp only [firstOther] at h
    split at h
    · rename_i hk
      simp only [Option.some.injEq] at h
      subst h
      exact ⟨List.mem_cons_self _ _, hk⟩
    · exact ⟨List.mem_cons_of_mem _ (ih h).1, (ih h).2⟩

/-- A line filled on the board after a write either holds the written value
or was filled before the write. -/
theorem lineFilled_set (board : List Val) (n : Nat) (v : Val) (c : Nat × Nat × Nat)
    (hn : n < board.length) (h : lineFilled (board.set n v) c) :
    lineHolds (board.set n v) v c = true ∨ lineFilled board c := by
  obtain ⟨h1, h2, h3, h4⟩ := h
  by_cases e1 : c.1 = n
  · left
    have hv : cell (board.set n v) c.1 = v := by rw [e1]; exact cell_set_self _ _ _ hn
    rw [lineHolds_iff]
    exact ⟨hv, by rw [← h3, hv], by rw [← h4, hv]⟩
  by_cases e2 : c.2.1 = n
  · left
    have hv : cell (board.set n v) c.2.1 = v := by rw [e2]; exact cell_set_self _ _ _ hn
    rw [lineHolds_iff]
    exact ⟨by rw [h3, hv], hv, by rw [← h4, h3, hv]⟩
  by_cases e3 : c.2.2 = n
  · left
    have hv : cell (board.set n v) c.2.2 = v := by rw [e3]; exact cell_set_self _ _ _ hn
    rw [lineHolds_iff]
    exact ⟨by rw [h4, hv], by rw [← h3, h4, hv], hv⟩
  right
  rw [cell_set_other _ _ _ _ e1] at h1 h2 h3 h4
  rw [cell_set_other _ _ _ _ e2] at h3
  rw [cell_set_other _ _ _ _ e3] at h4
  exact ⟨h1, h2, h3, h4⟩

theorem inv_switchTurn (s : State) (senderId : UserId) (symbol : Val) (h : Inv s) :
    Inv (switchTurn s senderId symbol) := by
  unfold switchTurn
  dsimp only
  cases hf : firstOther (objKeys s.playerSymbols) senderId with
  | none =>
    exact { h with }
  | some id =>
    refine { h with turn_key := ?_ }
    intro id2 hid
    simp only [Option.some.injEq] at hid
    subst hid
    exact (firstOther_mem _ _ _ hf).1

theorem inv_makeMove (s : State) (m : Message) (n : Nat) (h : Inv s)
    (hok : MoveOk s m n) : Inv (makeMove s m (Position.num (n : ℚ))).1 := by
  obtain ⟨hd, hn, hs, ho, ht, hc⟩ := hok
  have hlt : n < s.board.length := cell_null_lt _ _ hc
  have hsym := symbolOf_of_mem s m.sender.userId (h.turn_key _ ht)
  have hne : symbolOf s m.sender.userId ≠ Val.null := by
    rcases hsym with e | e <;> rw [e] <;> simp
  have hbase : Inv { s with
      board := s.board.set n (symbolOf s m.sender.userId)
      moveCount := s.moveCount + 1
      gameOver := true } := by
    refine { h with
      board_len := ?_, board_cells := ?_, count := ?_, no_line := ?_, winner_null := ?_ }
    · simp [h.board_len]
    · intro v hv
      rcases List.mem_or_eq_of_mem_set hv with hv | hv
      · exact h.board_cells v hv
      · rw [hv]; exact Or.inr hsym
    · show s.moveCount + 1 = filledCells (s.board.set n (symbolOf s m.sender.userId))
      rw [filledCells_set _ _ _ hc hne, h.count]
    · intro hc2
      simp at hc2
    · intro hc2
      simp at hc2
  unfold makeMove
  dsimp only
  rw [boardWrite_natCast]
  split
  · exact { hbase with
      no_line := fun hc2 => by simp at hc2
      winner_null := fun hc2 => by simp at hc2 }
  · rename_i hw
    split
    · exact { hbase with
        no_line := fun hc2 => by simp at hc2
        winner_null := fun hc2 => by simp at hc2 }
    · apply inv_switchTurn
      refine { hbase with no_line := ?_, winner_null := ?_ }
      · intro _ c hcm hfilled
        rcases lineFilled_set _ _ _ _ hlt hfilled with hl | hl
        · exact hw ((checkWin_won_iff _ _).mpr ⟨c, hcm, hl⟩)
        · exact h.no_line ho c hcm hl
      · intro _
        exact h.winner_null ho

theorem inv_processMove (s : State) (m : Message) (h : Inv s) : Inv (processMove s m).1 := by
  by_cases hok : ∃ n, MoveOk s m n
  · obtain ⟨n, hn⟩ := hok
    rw [processMove_accept s m n hn]
    exact inv_makeMove s m n h hn
  · obtain ⟨text, ht⟩ := processMove_reject s m hok
    rw [ht]
    exact h

theorem inv_matchLoopOne (s : State) (m : Message) (h : Inv s) : Inv (matchLoopOne s m).1 := by
  unfold matchLoopOne
  split
  · exact inv_processMove s m h
  · exact h

theorem matchJoinAttempt_state (state : State) (presence : Presence) :
    (matchJoinAttempt state presence).state = state := by
  unfold matchJoinAttempt
  dsimp only
  split_ifs <;> rfl

theorem matchLoop_some (s : State) (ms : List Message) (next : State)
    (hn : (matchLoop s ms).1 = some next) :
    ∃ k, next = (runBatch matchLoopOne { s with emptyTicks := k } ms).1 := by
  unfold matchLoop at hn
  dsimp only at hn
  by_cases hp : (objKeys s.presences).length = 0
  · rw [if_pos hp] at hn
    split_ifs at hn
    · exact ⟨_, (Option.some.inj hn).symm⟩
  · rw [if_neg hp] at hn
    split_ifs at hn
    · exact ⟨_, (Option.some.inj hn).symm⟩

theorem inv_matchLoop (s : State) (ms : List Message) (next : State) (h : Inv s)
    (hn : (matchLoop s ms).1 = some next) : Inv next := by
  obtain ⟨k, hk⟩ := matchLoop_some s ms next hn
  rw [hk]
  exact runBatch_preserves Inv matchLoopOne inv_matchLoopOne ms _ (inv_emptyTicks s k h)

theorem inv_reachableFrom (start s : State) (h0 : Inv start) (h : ReachableFrom start s) :
    Inv s := by
  induction h with
  | refl => exact h0
  | joinAttempt state presence _ ih =>
    rw [matchJoinAttempt_state]; exact ih
  | join state presences _ ih => exact inv_matchJoin state presences ih
  | leave state presences _ ih => exact inv_matchLeave state presences ih
  | loop state messages next _ hn ih => exact inv_matchLoop state messages next ih hn

theorem inv_reachable (s : State) (h : Reachable s) : Inv s := by
  obtain ⟨params, now, hr⟩ := h
  exact inv_reachableFrom _ s (inv_init params now) hr

theorem reachable_lobbyState : Reachable lobbyState :=
  ⟨noParams, 0, ReachableFrom.refl⟩

theorem reachable_startedState : Reachable startedState :=
  ⟨noParams, 0, ReachableFrom.join lobbyState [alice, bob] ReachableFrom.refl⟩

theorem reachable_midState : Reachable midState :=
  ⟨noParams, 0, ReachableFrom.loop startedState
    [moveMsg alice 0, moveMsg bob 3, moveMsg alice 1, moveMsg bob 4] midState
    (ReachableFrom.join lobbyState [alice, bob] ReachableFrom.refl) (by decide)⟩

theorem makeMove_board (s : State) (m : Message) (n : Nat) :
    (makeMove s m (Position.num (n : ℚ))).1.board =
      s.board.set n (symbolOf s m.sender.userId) := by
  unfold makeMove
  dsimp only
  rw [boardWrite_natCast]
  split_ifs
  · rfl
  · rfl
  · unfold switchTurn
    dsimp only
    split <;> rfl

theorem makeMove_moveCount (s : State) (m : Message) (p : Position) :
    (makeMove s m p).1.moveCount = s.moveCount + 1 := by
  unfold makeMove
  dsimp only
  split_ifs
  · rfl
  · rfl
  · unfold switchTurn
    dsimp only
    split <;> rfl

theorem makeMove_players (s : State) (m : Message) (p : Position) :
    (makeMove s m p).1.players = s.players := by
  unfold makeMove
  dsimp only
  split_ifs
  · rfl
  · rfl
  · unfold switchTurn
    dsimp only
    split <;> rfl

/-! ## C1: `checkWin` on the mover's symbol finds every win -/

/-- C1: in every reachable state, when a move is accepted, `checkWin` on the
new board and the mover's symbol reports a win exactly when one of the lines
of `WIN_CONDITIONS` holds three equal non-empty cells; `WIN_CONDITIONS` is the
list of the eight row, column and diagonal triples. -/
theorem checkWin_iff_lineFilled (s : State) (m : Message) (n : Nat)
    (hr : Reachable s) (hok : MoveOk s m n) :
    ((checkWin (processMove s m).1.board (symbolOf s m.sender.userId)).won = true ↔
      ∃ c ∈ WIN_CONDITIONS, lineFilled (processMove s m).1.board c) ∧
    WIN_CONDITIONS = [(0, 1, 2), (3, 4, 5), (6, 7, 8), (0, 3, 6), (1, 4, 7), (2, 5, 8),
      (0, 4, 8), (2, 4, 6)] := by
  refine ⟨?_, rfl⟩
  have h := inv_reachable s hr
  have hlt : n < s.board.length := cell_null_lt _ _ hok.2.2.2.2.2
  have hsym := symbolOf_of_mem s m.sender.userId (h.turn_key _ hok.2.2.2.2.1)
  rw [processMove_accept s m n hok, makeMove_board, checkWin_won_iff]
  constructor
  · rintro ⟨c, hc, hl⟩
    refine ⟨c, hc, ?_⟩
    obtain ⟨h1, h2, h3⟩ := (lineHolds_iff _ _ _).mp hl
    refine ⟨?_, ?_, by rw [h1, h2], by rw [h1, h3]⟩
    · rw [h1]; rcases hsym with e | e <;> rw [e] <;> simp
    · rw [h1]; rcases hsym with e | e <;> rw [e] <;> simp
  · rintro ⟨c, hc, hf⟩
    rcases lineFilled_set _ _ _ _ hlt hf with hl | hl
    · exact ⟨c, hc, hl⟩
    · exact absurd hl (h.no_line hok.2.2.2.1 c hc)

/-- C1 at the move that completes the top row for `alice`. -/
theorem checkWin_iff_lineFilled_witness :
    Reachable midState ∧ MoveOk midState (moveMsg alice 2) 2 ∧
    (checkWin (processMove midState (moveMsg alice 2)).1.board
        (symbolOf midState (moveMsg alice 2).sender.userId)).won = true ∧
    ∃ c ∈ WIN_CONDITIONS, lineFilled (processMove midState (moveMsg alice 2)).1.board c :=
  ⟨reachable_midState, by decide, by decide,
    ((checkWin_iff_lineFilled midState (moveMsg alice 2) 2 reachable_midState
      (by decide)).1).mp (by decide)⟩

theorem processMove_reject_text (state : State) (message : Message)
    (h : ¬ ∃ n, MoveOk state message n) :
    ∃ text ∈ moveErrors, processMove state message = (state, sendError message.sender text) := by
  unfold processMove
  cases hd : message.data with
  | throws => exact ⟨_, by simp [moveErrors], rfl⟩
  | parsed position =>
    dsimp only
    split
    · exact ⟨_, by simp [moveErrors], rfl⟩
    split
    · exact ⟨_, by simp [moveErrors], rfl⟩
    split
    · exact ⟨_, by simp [moveErrors], rfl⟩
    split
    · exact ⟨_, by simp [moveErrors], rfl⟩
    split
    · exact ⟨_, by simp [moveErrors], rfl⟩
    rename_i g1 g2 g3 g4 g5
    exfalso
    obtain ⟨n, hn, hp, hc⟩ := position_of_guards state.board position g4 g5
    apply h
    refine ⟨n, ?_, hn, ?_, ?_, ?_, hc⟩
    · rw [hd, hp]
    · simpa using g2
    · simpa using g1
    · simpa using g3

/-! ## C2: when a move is applied and what it changes -/

/-- C2: `processMove` changes the state exactly when the payload carries an
integer position `n` in 0..8, the session is started and not over, the sender
holds the turn and cell `n` is empty; then cell `n` holds the sender's symbol,
every other cell and the length of the board are unchanged, `moveCount` is one
more and `players` is unchanged. -/
theorem processMove_applies_iff (s : State) (m : Message) :
    ((processMove s m).1 ≠ s ↔ ∃ n, MoveOk s m n) ∧
    ∀ n, MoveOk s m n →
      cell (processMove s m).1.board n = symbolOf s m.sender.userId ∧
      (∀ i, i ≠ n → cell (processMove s m).1.board i = cell s.board i) ∧
      (processMove s m).1.board.length = s.board.length ∧
      (processMove s m).1.moveCount = s.moveCount + 1 ∧
      (processMove s m).1.players = s.players := by
  constructor
  · constructor
    · intro hne
      by_contra hno
      obtain ⟨text, _, ht⟩ := processMove_reject_text s m hno
      exact hne (by rw [ht])
    · rintro ⟨n, hok⟩ heq
      have hc := makeMove_moveCount s m (Position.num (n : ℚ))
      rw [← processMove_accept s m n hok, heq] at hc
      omega
  · intro n hok
    have hlt : n < s.board.length := cell_null_lt _ _ hok.2.2.2.2.2
    rw [processMove_accept s m n hok, makeMove_board, makeMove_moveCount, makeMove_players]
    refine ⟨cell_set_self _ _ _ hlt, ?_, by simp, rfl, rfl⟩
    intro i hi
    exact cell_set_other _ _ _ _ hi

/-- C2 at the first move of a started session. -/
theorem processMove_applies_iff_witness :
    (processMove startedState (moveMsg alice 4)).1 ≠ startedState ∧
    cell (processMove startedState (moveMsg alice 4)).1.board 4 = Val.X ∧
    (processMove startedState (moveMsg alice 4)).1.moveCount = 1 :=
  ⟨((processMove_applies_iff startedState (moveMsg alice 4)).1).mpr ⟨4, by decide⟩,
    ((processMove_applies_iff startedState (moveMsg alice 4)).2 4 (by decide)).1,
    ((processMove_applies_iff startedState (moveMsg alice 4)).2 4 (by decide)).2.2.2.1⟩

/-! ## C3: a rejected move changes nothing and sends one error -/

/-- C3: when the conditions for applying a move do not hold (the payload does
not parse, the game is over or not started, the sender does not hold the turn,
the position is not an integer in 0..8, or the cell is taken), `processMove`
returns the state it was given, records no stats update, and sends exactly one
message: an error, to the sender alone. -/
theorem processMove_rejected_unchanged (s : State) (m : Message)
    (h : ¬ ∃ n, MoveOk s m n) :
    (processMove s m).1 = s ∧
    (∃ text ∈ moveErrors,
      (processMove s m).2 = [Effect.broadcast OpCode.ERROR (Msg.error text) [m.sender]]) ∧
    ∀ id result, Effect.stats id result ∉ (processMove s m).2 := by
  obtain ⟨text, hmem, ht⟩ := processMove_reject_text s m h
  rw [ht]
  refine ⟨rfl, ⟨text, hmem, rfl⟩, ?_⟩
  intro id result hin
  simp [sendError] at hin

/-- C3 at a move sent by the player who does not hold the turn. -/
theorem processMove_rejected_unchanged_witness :
    (¬ ∃ n, MoveOk startedState (moveMsg bob 0) n) ∧
    (processMove startedState (moveMsg bob 0)).1 = startedState ∧
    (processMove startedState (moveMsg bob 0)).2 =
      [Effect.broadcast OpCode.ERROR (Msg.error "Not your turn") [bob]] :=
  ⟨fun ⟨_, hn⟩ => absurd hn.2.2.2.2.1 (by decide),
    (processMove_rejected_unchanged startedState (moveMsg bob 0)
      (fun ⟨_, hn⟩ => absurd hn.2.2.2.2.1 (by decide))).1,
    by decide⟩

/-! ## C5: the board and the move counter -/

/-- C5: in every reachable state `moveCount` is the number of non-empty cells,
it is at most 9, and the board has 9 cells, each empty, `X` or `O`. -/
theorem reachable_moveCount_board (s : State) (hr : Reachable s) :
    s.moveCount = filledCells s.board ∧ 0 ≤ s.moveCount ∧ s.moveCount ≤ 9 ∧
    s.board.length = 9 ∧ ∀ v ∈ s.board, v = Val.null ∨ v = Val.X ∨ v = Val.O := by
  have h := inv_reachable s hr
  refine ⟨h.count, Nat.zero_le _, ?_, h.board_len, h.board_cells⟩
  rw [h.count, ← h.board_len]
  exact filledCells_le _

/-- C5 at the session after four moves. -/
theorem reachable_moveCount_board_witness :
    Reachable midState ∧ midState.moveCount = 4 ∧ filledCells midState.board = 4 ∧
    midState.board.length = 9 :=
  ⟨reachable_midState,
    (reachable_moveCount_board midState reachable_midState).1.trans (by decide),
    by decide, (reachable_moveCount_board midState reachable_midState).2.2.2.1⟩

theorem makeMove_gameOver (s : State) (m : Message) (n : Nat) (ho : s.gameOver = false) :
    (makeMove s m (Position.num (n : ℚ))).1.gameOver = true ↔
      (checkWin (s.board.set n (symbolOf s m.sender.userId)) (symbolOf s m.sender.userId)).won
        = true ∨ s.moveCount + 1 ≥ 9 := by
  unfold makeMove
  dsimp only
  rw [boardWrite_natCast]
  split_ifs with h1 h2
  · simp [h1]
  · simp [h1, h2]
  · have : (switchTurn { s with
        board := s.board.set n (symbolOf s m.sender.userId)
        moveCount := s.moveCount + 1 } m.sender.userId (symbolOf s m.sender.userId)).gameOver
        = false := by
      unfold switchTurn
      dsimp only
      split <;> exact ho
    simp only [this, h1, Bool.false_eq_true, false_or, false_iff]
    exact h2

theorem makeMove_winner (s : State) (m : Message) (n : Nat) :
    (makeMove s m (Position.num (n : ℚ))).1.winner =
      if (checkWin (s.board.set n (symbolOf s m.sender.userId))
        (symbolOf s m.sender.userId)).won = true then symbolOf s m.sender.userId
      else if s.moveCount + 1 ≥ 9 then Val.draw else s.winner := by
  unfold makeMove
  dsimp only
  rw [boardWrite_natCast]
  split_ifs with h1 h2
  · rfl
  · rfl
  · unfold switchTurn
    dsimp only
    split <;> rfl

/-- On a board without a filled line, a line that holds the written value
after the write goes through the written cell. -/
theorem lineHolds_set_through (board : List Val) (n : Nat) (v : Val) (c : Nat × Nat × Nat)
    (hv : v ≠ Val.null) (hu : v ≠ Val.undefined) (hno : ¬ lineFilled board c)
    (h : lineHolds (board.set n v) v c = true) : c.1 = n ∨ c.2.1 = n ∨ c.2.2 = n := by
  by_contra hc
  simp only [not_or] at hc
  obtain ⟨e1, e2, e3⟩ := hc
  obtain ⟨h1, h2, h3⟩ := (lineHolds_iff _ _ _).mp h
  rw [cell_set_other _ _ _ _ e1] at h1
  rw [cell_set_other _ _ _ _ e2] at h2
  rw [cell_set_other _ _ _ _ e3] at h3
  exact hno ⟨by rw [h1]; exact hv, by rw [h1]; exact hu, by rw [h1, h2], by rw [h1, h3]⟩

/-! ## C6: the end of the game after an accepted move -/

/-- C6: after an accepted move in a reachable state, `gameOver` is set exactly
when the mover completed one of the eight lines or `moveCount` reached 9; when
a line was completed the winner is the mover's symbol (also on the ninth
move), and the winner is `"draw"` exactly when `moveCount` is 9 and no line
was completed. -/
theorem processMove_gameOver_iff (s : State) (m : Message) (n : Nat)
    (hr : Reachable s) (hok : MoveOk s m n) :
    ((processMove s m).1.gameOver = true ↔
      (∃ c ∈ WIN_CONDITIONS,
        completesLine (processMove s m).1.board n (symbolOf s m.sender.userId) c) ∨
      (processMove s m).1.moveCount = 9) ∧
    ((∃ c ∈ WIN_CONDITIONS,
        completesLine (processMove s m).1.board n (symbolOf s m.sender.userId) c) →
      (processMove s m).1.winner = symbolOf s m.sender.userId) ∧
    ((processMove s m).1.winner = Val.draw ↔
      (processMove s m).1.moveCount = 9 ∧
      ¬ ∃ c ∈ WIN_CONDITIONS,
        completesLine (processMove s m).1.board n (symbolOf s m.sender.userId) c) := by
  have h := inv_reachable s hr
  have ho : s.gameOver = false := hok.2.2.2.1
  have hcell : cell s.board n = Val.null := hok.2.2.2.2.2
  have hsym := symbolOf_of_mem s m.sender.userId (h.turn_key _ hok.2.2.2.2.1)
  have hv : symbolOf s m.sender.userId ≠ Val.null := by
    rcases hsym with e | e <;> rw [e] <;> simp
  have hu : symbolOf s m.sender.userId ≠ Val.undefined := by
    rcases hsym with e | e <;> rw [e] <;> simp
  have hd : symbolOf s m.sender.userId ≠ Val.draw := by
    rcases hsym with e | e <;> rw [e] <;> simp
  have hwon : (checkWin (s.board.set n (symbolOf s m.sender.userId))
      (symbolOf s m.sender.userId)).won = true ↔
      ∃ c ∈ WIN_CONDITIONS,
        completesLine (s.board.set n (symbolOf s m.sender.userId)) n
          (symbolOf s m.sender.userId) c := by
    rw [checkWin_won_iff]
    constructor
    · rintro ⟨c, hc, hl⟩
      exact ⟨c, hc, lineHolds_set_through _ _ _ _ hv hu (h.no_line ho c hc) hl, hl⟩
    · rintro ⟨c, hc, _, hl⟩
      exact ⟨c, hc, hl⟩
  have hle : s.moveCount + 1 ≤ 9 := by
    have h1 := filledCells_set s.board n _ hcell hv
    have h2 := filledCells_le (s.board.set n (symbolOf s m.sender.userId))
    rw [List.length_set, h.board_len] at h2
    rw [h.count]
    omega
  have h9 : s.moveCount + 1 ≥ 9 ↔ s.moveCount + 1 = 9 := by omega
  rw [processMove_accept s m n hok, makeMove_board, makeMove_moveCount, makeMove_winner,
    makeMove_gameOver s m n ho]
  refine ⟨or_congr hwon h9, ?_, ?_⟩
  · intro hw
    rw [if_pos (hwon.mpr hw)]
  · by_cases hw : (checkWin (s.board.set n (symbolOf s m.sender.userId))
        (symbolOf s m.sender.userId)).won = true
    · rw [if_pos hw]
      constructor
      · intro e; exact absurd e hd
      · intro hc; exact absurd (hwon.mp hw) hc.2
    · rw [if_neg hw]
      have hnw := fun x => hw (hwon.mpr x)
      by_cases hm : s.moveCount + 1 = 9
      · rw [if_pos (h9.mpr hm)]
        exact ⟨fun _ => ⟨hm, hnw⟩, fun _ => rfl⟩
      · rw [if_neg (fun x => hm (h9.mp x))]
        constructor
        · intro e
          rw [h.winner_null ho] at e
          exact absurd e (by simp)
        · intro hc; exact absurd hc.1 hm

/-- C6 at the move that completes the top row for `alice`. -/
theorem processMove_gameOver_iff_witness :
    Reachable midState ∧ MoveOk midState (moveMsg alice 2) 2 ∧
    (processMove midState (moveMsg alice 2)).1.gameOver = true ∧
    (processMove midState (moveMsg alice 2)).1.winner = Val.X :=
  ⟨reachable_midState, by decide,
    ((processMove_gameOver_iff midState (moveMsg alice 2) 2 reachable_midState
      (by decide)).1).mpr (Or.inl ⟨(0, 1, 2), by decide, by decide⟩),
    ((processMove_gameOver_iff midState (moveMsg alice 2) 2 reachable_midState
      (by decide)).2.1 ⟨(0, 1, 2), by decide, by decide⟩).trans (by decide)⟩

theorem makeMove_next (s : State) (m : Message) (n : Nat)
    (hw : ¬ (checkWin (s.board.set n (symbolOf s m.sender.userId))
      (symbolOf s m.sender.userId)).won = true)
    (h9 : ¬ s.moveCount + 1 ≥ 9) :
    (makeMove s m (Position.num (n : ℚ))).1 =
      switchTurn { s with
        board := s.board.set n (symbolOf s m.sender.userId)
        moveCount := s.moveCount + 1 } m.sender.userId (symbolOf s m.sender.userId) := by
  unfold makeMove
  dsimp only
  rw [boardWrite_natCast, if_neg hw, if_neg h9]

theorem switchTurn_currentSymbol (s : State) (senderId : UserId) (symbol : Val) :
    (switchTurn s senderId symbol).currentSymbol = if symbol = Val.X then Sym.O else Sym.X := by
  unfold switchTurn
  dsimp only
  split <;> rfl

theorem switchTurn_currentTurn (s : State) (senderId : UserId) (symbol : Val) (id : UserId)
    (h : firstOther (objKeys s.playerSymbols) senderId = some id) :
    (switchTurn s senderId symbol).currentTurn = some id := by
  unfold switchTurn
  dsimp only
  rw [h]

/-- Among two distinct keys, the loop finds the one that is not the sender. -/
theorem firstOther_pair (l : List UserId) (senderId : UserId) (hl : l.length = 2)
    (hnd : l.Nodup) (hs : senderId ∈ l) :
    ∃ other, other ∈ l ∧ other ≠ senderId ∧ firstOther l senderId = some other := by
  match l, hl with
  | [a, b], _ =>
    have hab : a ≠ b := by
      intro e
      simp [e] at hnd
    simp only [List.mem_cons, List.mem_singleton, List.not_mem_nil, or_false] at hs
    rcases hs with e | e
    · subst e
      have hba : ¬ b = senderId := fun e => hab e.symm
      refine ⟨b, by simp, hba, ?_⟩
      simp [firstOther, hba]
    · subst e
      exact ⟨a, by simp, hab, by simp [firstOther, hab]⟩

/-! ## C7: the turn alternates -/

/-- C7: in a reachable state with two participants, after an accepted move
that does not end the game the turn belongs to the other participant and
`currentSymbol` is the other symbol. -/
theorem processMove_turn_alternates (s : State) (m : Message) (n : Nat)
    (hr : Reachable s) (h2 : (objKeys s.players).length = 2) (hok : MoveOk s m n)
    (hgo : (processMove s m).1.gameOver = false) :
    m.sender.userId ∈ objKeys s.players ∧
    (∃ other, other ∈ objKeys s.players ∧ other ≠ m.sender.userId ∧
      (processMove s m).1.currentTurn = some other) ∧
    ((symbolOf s m.sender.userId = Val.X ∧ (processMove s m).1.currentSymbol = Sym.O) ∨
     (symbolOf s m.sender.userId = Val.O ∧ (processMove s m).1.currentSymbol = Sym.X)) := by
  have h := inv_reachable s hr
  have ho : s.gameOver = false := hok.2.2.2.1
  have hmem : m.sender.userId ∈ objKeys s.playerSymbols := h.turn_key _ hok.2.2.2.2.1
  have hsym := symbolOf_of_mem s m.sender.userId hmem
  rw [processMove_accept s m n hok] at hgo ⊢
  have hng : ¬ (makeMove s m (Position.num (n : ℚ))).1.gameOver = true := by simp [hgo]
  rw [makeMove_gameOver s m n ho, not_or] at hng
  rw [makeMove_next s m n hng.1 hng.2]
  obtain ⟨other, hom, hne, hf⟩ := firstOther_pair (objKeys s.playerSymbols) m.sender.userId
    (by rw [h.keys_eq]; exact h2) (by rw [h.keys_eq]; exact h.keys_nodup) hmem
  refine ⟨by rw [← h.keys_eq]; exact hmem, ⟨other, by rw [← h.keys_eq]; exact hom, hne, ?_⟩, ?_⟩
  · exact switchTurn_currentTurn _ _ _ _ hf
  · rw [switchTurn_currentSymbol]
    rcases hsym with e | e
    · left; exact ⟨e, by rw [e]; rfl⟩
    · right; exact ⟨e, by rw [e]; rfl⟩

/-- C7 at the first move of a started session: the turn goes from `alice` to
`bob` and the symbol from `X` to `O`. -/
theorem processMove_turn_alternates_witness :
    Reachable startedState ∧ (objKeys startedState.players).length = 2 ∧
    MoveOk startedState (moveMsg alice 4) 4 ∧
    (processMove startedState (moveMsg alice 4)).1.gameOver = false ∧
    (processMove startedState (moveMsg alice 4)).1.currentTurn = some bob.userId ∧
    ((symbolOf startedState (moveMsg alice 4).sender.userId = Val.X ∧
        (processMove startedState (moveMsg alice 4)).1.currentSymbol = Sym.O) ∨
     (symbolOf startedState (moveMsg alice 4).sender.userId = Val.O ∧
        (processMove startedState (moveMsg alice 4)).1.currentSymbol = Sym.X)) :=
  ⟨reachable_startedState, by decide, by decide, by decide, by decide,
    (processMove_turn_alternates startedState (moveMsg alice 4) 4 reachable_startedState
      (by decide) (by decide) (by decide)).2.2⟩

theorem objSet_objSet_same {β : Type} (l : List (UserId × β)) (k : UserId) (v : β) :
    objSet (objSet l k v) k v = objSet l k v := by
  induction l with
  | nil => simp [objSet]
  | cons hd tl ih =>
    obtain ⟨k0, v0⟩ := hd
    by_cases h : k0 = k
    · simp [objSet, h]
    · simp [objSet, h, ih]

theorem matchJoinOne_reconnect (s : State) (p : Presence) (h : p.userId ∈ objKeys s.players) :
    matchJoinOne s p =
      ({ s with presences := objSet s.presences p.userId p }, sendGameState s p) := by
  unfold matchJoinOne
  dsimp only
  rw [if_pos ((objGet_isSome_iff _ _).mpr h)]
  rfl

theorem matchJoin_single_reconnect (s : State) (p : Presence)
    (h : p.userId ∈ objKeys s.players) :
    (matchJoin s [p]).1 = { s with
      presences := objSet s.presences p.userId p, emptyTicks := 0 } := by
  simp only [matchJoin, runBatch, matchJoinOne_reconnect s p h]

/-! ## C8: a reconnection changes nothing of the game -/

/-- C8: `matchJoin` on a presence whose user id is a key of `players` returns
the state with that presence recorded in `presences` and `emptyTicks` reset,
nothing else changed; it sends one message, the current state, to that
presence; and running it a second time returns the same state. -/
theorem matchJoin_reconnect (s : State) (p : Presence) (h : p.userId ∈ objKeys s.players) :
    (matchJoin s [p]).1 = { s with
      presences := objSet s.presences p.userId p, emptyTicks := 0 } ∧
    (matchJoin s [p]).2 =
      [Effect.broadcast OpCode.GAME_STATE
        (Msg.gameStateSync s.board s.currentTurn s.currentSymbol
          (objGet s.playerSymbols p.userId) (decide (s.currentTurn = some p.userId))
          (formatPlayers s) s.gameOver s.winner s.gameStarted) [p]] ∧
    (matchJoin (matchJoin s [p]).1 [p]).1 = (matchJoin s [p]).1 ∧
    (matchJoin s [p]).1.players = s.players ∧
    (matchJoin s [p]).1.playerSymbols = s.playerSymbols ∧
    (matchJoin s [p]).1.board = s.board ∧
    (matchJoin s [p]).1.moveCount = s.moveCount ∧
    (matchJoin s [p]).1.currentTurn = s.currentTurn ∧
    (matchJoin s [p]).1.currentSymbol = s.currentSymbol ∧
    (matchJoin s [p]).1.gameStarted = s.gameStarted ∧
    (matchJoin s [p]).1.gameOver = s.gameOver ∧
    (matchJoin s [p]).1.winner = s.winner := by
  have h1 := matchJoin_single_reconnect s p h
  have h2 : (matchJoin s [p]).2 = sendGameState s p := by
    simp only [matchJoin, runBatch, matchJoinOne_reconnect s p h, List.append_nil]
  refine ⟨h1, h2, ?_, ?_⟩
  · rw [h1]
    have h3 := matchJoin_single_reconnect { s with
      presences := objSet s.presences p.userId p, emptyTicks := 0 } p h
    rw [h3]
    simp only [objSet_objSet_same]
  · rw [h1]
    exact ⟨rfl, rfl, rfl, rfl, rfl, rfl, rfl, rfl, rfl⟩

/-- C8 at `bob` joining again a session in which four moves were played. -/
theorem matchJoin_reconnect_witness :
    bob.userId ∈ objKeys midState.players ∧
    (matchJoin midState [bob]).1 = midState ∧
    (matchJoin (matchJoin midState [bob]).1 [bob]).1 = (matchJoin midState [bob]).1 :=
  ⟨by decide, by decide, (matchJoin_reconnect midState bob (by decide)).2.2.1⟩

/-! ## C9: admission -/

/-- C9: `matchJoinAttempt` returns the state it was given, and accepts exactly
when the requester is a key of `players`, or `players` has fewer than 2
entries and the game has not started or the requester is in `invited`; a
requester who is not a participant of a session with 2 or more participants
is rejected with "Match is full". -/
theorem matchJoinAttempt_accept_iff (s : State) (p : Presence) :
    (matchJoinAttempt s p).state = s ∧
    ((matchJoinAttempt s p).accept = true ↔
      p.userId ∈ objKeys s.players ∨
      ((objKeys s.players).length < 2 ∧ (s.gameStarted = false ∨ p.userId ∈ s.invited))) ∧
    (p.userId ∉ objKeys s.players → 2 ≤ (objKeys s.players).length →
      (matchJoinAttempt s p).accept = false ∧
      (matchJoinAttempt s p).rejectMessage = some "Match is full") := by
  refine ⟨matchJoinAttempt_state s p, ?_, ?_⟩
  · unfold matchJoinAttempt
    dsimp only
    by_cases hk : p.userId ∈ objKeys s.players
    · rw [if_pos ((objGet_isSome_iff _ _).mpr hk)]
      simp [hk]
    · rw [if_neg (fun hc => hk ((objGet_isSome_iff _ _).mp hc))]
      by_cases hfull : (objKeys s.players).length ≥ 2
      · rw [if_pos hfull]
        simp only [Bool.false_eq_true, hk, false_or, false_iff, not_and]
        intro hlt
        omega
      · rw [if_neg hfull]
        by_cases hst : s.gameStarted = true ∧ ¬ p.userId ∈ s.invited
        · rw [if_pos hst]
          simp only [Bool.false_eq_true, hk, false_or, false_iff, not_and, not_or]
          intro _
          exact ⟨by simp [hst.1], hst.2⟩
        · rw [if_neg hst]
          simp only [hk, false_or, true_iff]
          refine ⟨by omega, ?_⟩
          by_cases hg : s.gameStarted = true
          · right
            by_contra hni
            exact hst ⟨hg, hni⟩
          · left
            simpa using hg
  · intro hk hfull
    unfold matchJoinAttempt
    dsimp only
    rw [if_neg (fun hc => hk ((objGet_isSome_iff _ _).mp hc)), if_pos hfull]
    exact ⟨rfl, rfl⟩

/-! ## C4: the order of the validations -/

/-- The errors of `processMove` on a parsed payload, guard by guard, in the
order of the source. -/
theorem processMove_error_order (s : State) (m : Message) (position : Position)
    (hd : m.data = MoveData.parsed position) :
    (s.gameOver = true →
      processMove s m = (s, sendError m.sender "Game is already over")) ∧
    (s.gameOver = false → s.gameStarted = false →
      processMove s m = (s, sendError m.sender "Game hasn't started")) ∧
    (s.gameOver = false → s.gameStarted = true → s.currentTurn ≠ some m.sender.userId →
      processMove s m = (s, sendError m.sender "Not your turn")) ∧
    (s.gameOver = false → s.gameStarted = true → s.currentTurn = some m.sender.userId →
      (position.isNumber = false ∨ position.ltZero = true ∨ position.gtEight = true) →
      processMove s m = (s, sendError m.sender "Invalid position")) ∧
    (s.gameOver = false → s.gameStarted = true → s.currentTurn = some m.sender.userId →
      ¬ (position.isNumber = false ∨ position.ltZero = true ∨ position.gtEight = true) →
      boardAt s.board position ≠ Val.null →
      processMove s m = (s, sendError m.sender "Cell already taken")) := by
  unfold processMove
  rw [hd]
  dsimp only
  refine ⟨?_, ?_, ?_, ?_, ?_⟩
  · intro ho
    rw [if_pos ho]
  · intro ho hs
    rw [if_neg (by simp [ho]), if_pos (by simp [hs])]
  · intro ho hs ht
    rw [if_neg (by simp [ho]), if_neg (by simp [hs]), if_pos ht]
  · intro ho hs ht hp
    rw [if_neg (by simp [ho]), if_neg (by simp [hs]), if_neg (by simp [ht]),
      if_pos (by simpa using hp)]
  · intro ho hs ht hp hb
    rw [if_neg (by simp [ho]), if_neg (by simp [hs]), if_neg (by simp [ht]),
      if_neg (by simpa using hp), if_pos hb]

/-- A number in the range 0..8 that is not an integer names no cell, and the
read of the board at it is `undefined`. -/
theorem boardAt_fraction (board : List Val) (q : ℚ) (hden : q.den ≠ 1) :
    boardAt board (Position.num q) = Val.undefined := by
  simp [boardAt, Position.index, hden]

/-- C4: in a started session that is not over, a move by the turn holder whose
position is the number 1.5 breaks the third rule only (the position is a
number in the range, not an integer), and `processMove` answers with the
error of the fourth rule, "Cell already taken", not with "Invalid position". -/
theorem processMove_fractional_position :
    startedState.gameStarted = true ∧ startedState.gameOver = false ∧
    startedState.currentTurn = some fractionalMove.sender.userId ∧
    fractionalMove.data = MoveData.parsed (Position.num (3 / 2)) ∧
    (¬ ∃ n : ℤ, ((3 : ℚ) / 2) = n) ∧
    (∀ v ∈ startedState.board, v = Val.null) ∧
    processMove startedState fractionalMove =
      (startedState, sendError alice "Cell already taken") := by
  refine ⟨by decide, by decide, by decide, rfl, ?_, by decide, ?_⟩
  · rintro ⟨n, hn⟩
    have h1 : (2 : ℚ) * n = 3 := by rw [← hn]; norm_num
    have h2 : (2 : ℤ) * n = 3 := by exact_mod_cast h1
    omega
  · refine (processMove_error_order startedState fractionalMove (Position.num (3 / 2))
      rfl).2.2.2.2 (by decide) (by decide) (by decide) ?_ ?_
    · simp only [Position.isNumber, Position.ltZero, Position.gtEight, Bool.true_eq_false,
        decide_eq_true_eq, false_or, not_or, not_lt]
      constructor <;> norm_num
    · rw [boardAt_fraction _ _ (by norm_num)]
      simp

theorem startGame_invited (s : State) : (startGame s).1.invited = s.invited := by
  unfold startGame
  dsimp only
  split <;> rfl

theorem matchJoinOne_invited (s : State) (p : Presence) :
    (matchJoinOne s p).1.invited = s.invited := by
  unfold matchJoinOne
  dsimp only
  split
  · rfl
  · split_ifs <;> first | rfl | exact startGame_invited _

theorem matchLeaveOne_invited (s : State) (p : Presence) :
    (matchLeaveOne s p).1.invited = s.invited := by
  unfold matchLeaveOne
  dsimp only
  split
  · split <;> rfl
  · rfl

theorem makeMove_invited (s : State) (m : Message) (p : Position) :
    (makeMove s m p).1.invited = s.invited := by
  unfold makeMove
  dsimp only
  split_ifs
  · rfl
  · rfl
  · unfold switchTurn
    dsimp only
    split <;> rfl

theorem processMove_invited (s : State) (m : Message) :
    (processMove s m).1.invited = s.invited := by
  by_cases hok : ∃ n, MoveOk s m n
  · obtain ⟨n, hn⟩ := hok
    rw [processMove_accept s m n hn, makeMove_invited]
  · obtain ⟨text, ht⟩ := processMove_reject s m hok
    rw [ht]

theorem matchLoopOne_invited (s : State) (m : Message) :
    (matchLoopOne s m).1.invited = s.invited := by
  unfold matchLoopOne
  split
  · exact processMove_invited s m
  · rfl

/-- The list `invited` is fixed by `matchInit`: no callback changes it. -/
theorem reachableFrom_invited (start s : State) (h : ReachableFrom start s) :
    s.invited = start.invited := by
  induction h with
  | refl => rfl
  | joinAttempt state presence _ ih => rw [matchJoinAttempt_state]; exact ih
  | join state presences _ ih =>
    unfold matchJoin
    exact runBatch_preserves (fun st => st.invited = start.invited) matchJoinOne
      (fun st x hst => (matchJoinOne_invited st x).trans hst) presences state ih
  | leave state presences _ ih =>
    unfold matchLeave
    exact runBatch_preserves (fun st => st.invited = start.invited) matchLeaveOne
      (fun st x hst => (matchLeaveOne_invited st x).trans hst) presences state ih
  | loop state messages next _ hn ih =>
    obtain ⟨k, hk⟩ := matchLoop_some state messages next hn
    rw [hk]
    exact runBatch_preserves (fun st => st.invited = start.invited) matchLoopOne
      (fun st x hst => (matchLoopOne_invited st x).trans hst) messages _ ih

/-! ## C10: pre-declared identifiers at admission -/

/-- C10, as stated, fails: in the session that `matchmakerMatched` creates for
three matched entries, once `alice` and `bob` have joined, the pre-declared
`carol` is rejected with "Match is full". -/
theorem invited_rejected_when_full :
    ReachableFrom (matchInit (matchmakerMatched threeEntries) 0).state matchmadeState ∧
    carol.userId ∈ (matchmakerMatched threeEntries).invited.getD [] ∧
    carol.userId ∈ matchmadeState.invited ∧
    (objKeys matchmadeState.players).length = 2 ∧
    (matchJoinAttempt matchmadeState carol).accept = false ∧
    (matchJoinAttempt matchmadeState carol).rejectMessage = some "Match is full" :=
  ⟨ReachableFrom.join _ [alice, bob] ReachableFrom.refl, by decide, by decide, by decide,
    by decide, by decide⟩

/-- C10, amended: in every state of a session created by `matchmakerMatched`,
a pre-declared identifier is accepted by `matchJoinAttempt` exactly when it is
already a participant or the session has fewer than 2 participants, whether
the game has started or not; when it is rejected the reason is "Match is
full". -/
theorem invited_accept_iff (entries : List MatchmakerEntry) (now : Nat) (s : State)
    (p : Presence)
    (hr : ReachableFrom (matchInit (matchmakerMatched entries) now).state s)
    (hp : p.userId ∈ entries.map (fun entry => entry.presence.userId)) :
    p.userId ∈ s.invited ∧
    ((matchJoinAttempt s p).accept = true ↔
      p.userId ∈ objKeys s.players ∨ (objKeys s.players).length < 2) ∧
    ((matchJoinAttempt s p).accept = false →
      (matchJoinAttempt s p).rejectMessage = some "Match is full") := by
  have hinv : p.userId ∈ s.invited := by
    rw [reachableFrom_invited _ s hr]
    simpa [matchInit, matchmakerMatched] using hp
  refine ⟨hinv, ?_, ?_⟩
  · unfold matchJoinAttempt
    dsimp only
    by_cases hk : p.userId ∈ objKeys s.players
    · rw [if_pos ((objGet_isSome_iff _ _).mpr hk)]
      simp [hk]
    · rw [if_neg (fun hc => hk ((objGet_isSome_iff _ _).mp hc))]
      by_cases hfull : (objKeys s.players).length ≥ 2
      · rw [if_pos hfull]
        simp only [Bool.false_eq_true, hk, false_or, false_iff]
        omega
      · rw [if_neg hfull, if_neg (fun hc => hc.2 hinv)]
        simp only [hk, false_or, true_iff]
        omega
  · unfold matchJoinAttempt
    dsimp only
    split_ifs with h1 h2 h3
    · simp
    · simp
    · exact absurd hinv h3.2
    · simp

/-- C10, amended, at a pre-declared player asking to join a session with a free
place: the matchmaker session of `alice`, `bob` and `carol` in which only
`alice` has joined. -/
theorem invited_accept_iff_witness :
    (matchJoinAttempt (matchJoin (matchInit (matchmakerMatched threeEntries) 0).state
      [alice]).1 carol).accept = true :=
  ((invited_accept_iff threeEntries 0
    (matchJoin (matchInit (matchmakerMatched threeEntries) 0).state [alice]).1 carol
    (ReachableFrom.join _ [alice] ReachableFrom.refl) (by decide)).2.1).mpr
    (Or.inr (by decide))

theorem objSet_of_not_mem {β : Type} (l : List (UserId × β)) (k : UserId) (v : β)
    (h : ¬ k ∈ objKeys l) : objSet l k v = l ++ [(k, v)] := by
  induction l with
  | nil => simp [objSet]
  | cons hd tl ih =>
    obtain ⟨k0, v0⟩ := hd
    have h0 : ¬ k0 = k := by
      intro e
      apply h
      simp [objKeys, e]
    have h1 : ¬ k ∈ objKeys tl := by
      intro e
      apply h
      simp only [objKeys] at e
      simp [objKeys, e]
    simp [objSet, h0, ih h1]

theorem objGet_append_of_mem {β : Type} (l : List (UserId × β)) (x : UserId × β)
    (id : UserId) (h : id ∈ objKeys l) : objGet (l ++ [x]) id = objGet l id := by
  induction l with
  | nil => simp [objKeys] at h
  | cons hd tl ih =>
    obtain ⟨k0, v0⟩ := hd
    by_cases h0 : k0 = id
    · simp [objGet, h0]
    · have h1 : id ∈ objKeys tl := by
        simp only [objKeys, List.map_cons, List.mem_cons] at h
        rcases h with e | e
        · exact absurd e.symm h0
        · exact e
      simp [objGet, h0, ih h1]

theorem startInv_init (params : Params) (now : Nat) :
    StartInv (matchInit params now).state := by
  constructor <;> simp [matchInit]

theorem startInv_emptyTicks (s : State) (n : Nat) (h : StartInv s) :
    StartInv { s with emptyTicks := n } :=
  { h with }

/-- In a session whose first participant holds `X`, the loop of `startGame`
stops at the first participant. -/
theorem findX_first (players : List (UserId × Player))
    (ho : players.map (fun kv => kv.2.symbol) = (List.range players.length).map symbolAt)
    (hl : 0 < players.length) :
    ∃ id pl rest, players = (id, pl) :: rest ∧ pl.symbol = Sym.X ∧
      findX (players.map (fun kv => (kv.1, kv.2.symbol))) = some id := by
  match players, hl with
  | (id, pl) :: rest, _ =>
    have hx : pl.symbol = Sym.X := by
      have := congrArg List.head? ho
      simpa [List.range_succ_eq_map, symbolAt] using this
    exact ⟨id, pl, rest, rfl, hx, by simp [findX, hx]⟩

theorem symbolAt_append (players : List (UserId × Player)) (k : UserId) (pl : Player)
    (ho : players.map (fun kv => kv.2.symbol) = (List.range players.length).map symbolAt)
    (hs : pl.symbol = symbolAt players.length) :
    (players ++ [(k, pl)]).map (fun kv => kv.2.symbol) =
      (List.range (players ++ [(k, pl)]).length).map symbolAt := by
  simp only [List.map_append, List.map_cons, List.map_nil, List.length_append,
    List.length_singleton, List.range_succ, ho, hs]

theorem matchJoinOne_new (s : State) (p : Presence) (hk : ¬ p.userId ∈ objKeys s.players) :
    (matchJoinOne s p).1 =
      if (objKeys (enrol s p).players).length = 2 then (startGame (enrol s p)).1
      else enrol s p := by
  have hnew : ¬ (objGet s.players p.userId).isSome = true :=
    fun hc => hk ((objGet_isSome_iff _ _).mp hc)
  unfold matchJoinOne
  dsimp only
  rw [if_neg hnew]
  unfold enrol playerOf
  dsimp only
  split_ifs <;> rfl

theorem startGame_state (s : State) :
    (startGame s).1 = { s with
      gameStarted := true
      currentSymbol := Sym.X
      currentTurn := match findX s.playerSymbols with
        | some id => some id
        | none => s.currentTurn } := by
  unfold startGame
  dsimp only
  split <;> rfl

theorem enrol_players (s : State) (p : Presence) (hk : ¬ p.userId ∈ objKeys s.players) :
    (enrol s p).players = s.players ++ [(p.userId, playerOf s p)] := by
  unfold enrol
  dsimp only
  rw [objSet_of_not_mem _ _ _ hk]

theorem enrol_playerSymbols (s : State) (p : Presence)
    (hk : ¬ p.userId ∈ objKeys s.playerSymbols) :
    (enrol s p).playerSymbols = s.playerSymbols ++ [(p.userId, (playerOf s p).symbol)] := by
  unfold enrol
  dsimp only
  rw [objSet_of_not_mem _ _ _ hk]

theorem playerOf_symbol (s : State) (p : Presence) :
    (playerOf s p).symbol = symbolAt s.players.length := by
  simp [playerOf, symbolAt, objKeys]

/-- The facts about symbols survive the enrolment of a new presence. -/
theorem enrol_symbols (s : State) (p : Presence) (hi : Inv s) (h : StartInv s)
    (hk : ¬ p.userId ∈ objKeys s.players) :
    (enrol s p).playerSymbols = (enrol s p).players.map (fun kv => (kv.1, kv.2.symbol)) ∧
    (enrol s p).players.map (fun kv => kv.2.symbol) =
      (List.range (enrol s p).players.length).map symbolAt ∧
    (enrol s p).players.length = s.players.length + 1 := by
  have hk2 : ¬ p.userId ∈ objKeys s.playerSymbols := by rw [hi.keys_eq]; exact hk
  rw [enrol_players s p hk, enrol_playerSymbols s p hk2]
  refine ⟨?_, symbolAt_append _ _ _ h.symbols_order (playerOf_symbol s p), by simp⟩
  rw [h.symbols_eq]
  simp

theorem startInv_matchJoinOne (s : State) (p : Presence) (hi : Inv s) (h : StartInv s) :
    StartInv (matchJoinOne s p).1 := by
  by_cases hk : p.userId ∈ objKeys s.players
  · rw [matchJoinOne_reconnect s p hk]
    exact { h with }
  · rw [matchJoinOne_new s p hk]
    obtain ⟨heq, hord, hlen⟩ := enrol_symbols s p hi h hk
    have hlen2 : (objKeys (enrol s p).players).length = s.players.length + 1 := by
      rw [← hlen]; simp [objKeys]
    rw [hlen2]
    have hbase : StartInv (enrol s p) ∨ s.players.length + 1 = 2 := by
      by_cases h2 : s.players.length + 1 = 2
      · exact Or.inr h2
      · left
        refine ⟨heq, hord, ?_, h.over_started, h.turn_none, h.turn_some⟩
        rw [hlen]
        have := h.started_iff
        constructor
        · intro hs
          have := this.mp hs
          omega
        · intro hs
          apply this.mpr
          omega
    by_cases h2 : s.players.length + 1 = 2
    · rw [if_pos h2, startGame_state]
      obtain ⟨id, pl0, rest, hp, hx, hf⟩ :=
        findX_first (enrol s p).players hord (by rw [hlen]; omega)
      have hfx : findX (enrol s p).playerSymbols = some id := by rw [heq]; exact hf
      rw [hfx]
      refine ⟨heq, hord, ?_, fun _ => rfl, ?_, fun _ => ⟨id, rfl⟩⟩
      · show true = true ↔ 2 ≤ (enrol s p).players.length
        rw [hlen]
        simp only [true_iff]
        omega
      · intro hc
        simp at hc
    · rw [if_neg h2]
      rcases hbase with hb | hb
      · exact hb
      · exact absurd hb h2

theorem startInv_matchLeaveOne (s : State) (p : Presence) (h : StartInv s) :
    StartInv (matchLeaveOne s p).1 := by
  unfold matchLeaveOne
  dsimp only
  split
  · rename_i hc
    split
    · exact { h with over_started := fun _ => hc.2 }
    · exact { h with }
  · exact { h with }

theorem startInv_switchTurn (s : State) (senderId : UserId) (symbol : Val) (h : StartInv s)
    (hs : s.gameStarted = true) :
    StartInv (switchTurn s senderId symbol) := by
  unfold switchTurn
  dsimp only
  cases hf : firstOther (objKeys s.playerSymbols) senderId with
  | none => exact { h with }
  | some id =>
    refine { h with turn_none := ?_, turn_some := fun _ => ⟨id, rfl⟩ }
    intro hc
    rw [hs] at hc
    simp at hc

theorem startInv_makeMove (s : State) (m : Message) (p : Position) (h : StartInv s)
    (hs : s.gameStarted = true) : StartInv (makeMove s m p).1 := by
  unfold makeMove
  dsimp only
  split_ifs
  · exact { h with over_started := fun _ => hs }
  · exact { h with over_started := fun _ => hs }
  · exact startInv_switchTurn _ _ _ { h with } hs

theorem startInv_processMove (s : State) (m : Message) (h : StartInv s) :
    StartInv (processMove s m).1 := by
  by_cases hok : ∃ n, MoveOk s m n
  · obtain ⟨n, hn⟩ := hok
    rw [processMove_accept s m n hn]
    exact startInv_makeMove s m _ h hn.2.2.1
  · obtain ⟨text, ht⟩ := processMove_reject s m hok
    rw [ht]
    exact h

theorem startInv_matchLoopOne (s : State) (m : Message) (h : StartInv s) :
    StartInv (matchLoopOne s m).1 := by
  unfold matchLoopOne
  split
  · exact startInv_processMove s m h
  · exact h

/-- Both sets of facts hold after a batch of joins. -/
theorem allInv_matchJoin (s : State) (ps : List Presence) (h : Inv s ∧ StartInv s) :
    Inv (matchJoin s ps).1 ∧ StartInv (matchJoin s ps).1 := by
  unfold matchJoin
  have := runBatch_preserves (fun st => Inv st ∧ StartInv st) matchJoinOne
    (fun st x hst => ⟨inv_matchJoinOne st x hst.1, startInv_matchJoinOne st x hst.1 hst.2⟩)
    ps s h
  exact ⟨inv_emptyTicks _ _ this.1, startInv_emptyTicks _ _ this.2⟩

theorem allInv_reachableFrom (start s : State) (h0 : Inv start ∧ StartInv start)
    (h : ReachableFrom start s) : Inv s ∧ StartInv s := by
  induction h with
  | refl => exact h0
  | joinAttempt state presence _ ih =>
    rw [matchJoinAttempt_state]; exact ih
  | join state presences _ ih => exact allInv_matchJoin state presences ih
  | leave state presences _ ih =>
    exact ⟨inv_matchLeave state presences ih.1,
      runBatch_preserves StartInv matchLeaveOne startInv_matchLeaveOne presences state ih.2⟩
  | loop state messages next _ hn ih =>
    refine ⟨inv_matchLoop state messages next ih.1 hn, ?_⟩
    obtain ⟨k, hk⟩ := matchLoop_some state messages next hn
    rw [hk]
    exact runBatch_preserves StartInv matchLoopOne startInv_matchLoopOne messages _
      (startInv_emptyTicks state k ih.2)

theorem startInv_reachable (s : State) (h : Reachable s) : StartInv s := by
  obtain ⟨params, now, hr⟩ := h
  exact (allInv_reachableFrom _ s ⟨inv_init params now, startInv_init params now⟩ hr).2

theorem objGet_of_index {β : Type} (l : List (UserId × β)) (i : Nat) (kv : UserId × β)
    (hnd : (objKeys l).Nodup) (h : l[i]? = some kv) : objGet l kv.1 = some kv.2 := by
  induction l generalizing i with
  | nil => simp at h
  | cons hd tl ih =>
    obtain ⟨k0, v0⟩ := hd
    simp only [objKeys, List.map_cons, List.nodup_cons] at hnd
    cases i with
    | zero =>
      simp only [List.getElem?_cons_zero, Option.some.injEq] at h
      subst h
      simp [objGet]
    | succ j =>
      simp only [List.getElem?_cons_succ] at h
      have hmem : kv.1 ∈ tl.map Prod.fst :=
        List.mem_map.mpr ⟨kv, List.getElem?_mem h, rfl⟩
      have hne : ¬ k0 = kv.1 := by
        intro e
        exact hnd.1 (e ▸ hmem)
      simp only [objGet, if_neg hne]
      exact ih j hnd.2 h

theorem symbol_of_index (players : List (UserId × Player)) (i : Nat) (kv : UserId × Player)
    (ho : players.map (fun kv => kv.2.symbol) = (List.range players.length).map symbolAt)
    (h : players[i]? = some kv) : kv.2.symbol = symbolAt i := by
  have hlt : i < players.length := by
    by_contra hc
    rw [List.getElem?_eq_none (not_lt.mp hc)] at h
    simp at h
  have := congrArg (fun l => l[i]?) ho
  simp only [List.getElem?_map, h, Option.map_some', List.getElem?_range hlt] at this
  exact Option.some.inj this

theorem objGet_symbols (players : List (UserId × Player)) (id : UserId) :
    objGet (players.map (fun kv => (kv.1, kv.2.symbol))) id =
      (objGet players id).map (fun pl => pl.symbol) := by
  induction players with
  | nil => simp [objGet]
  | cons hd tl ih =>
    obtain ⟨k, pl⟩ := hd
    by_cases hk : k = id
    · simp [objGet, hk]
    · simp [objGet, hk, ih]

/-- The symbol read for the participant at position `i` of `players`. -/
theorem symbolOf_index (s : State) (hi : Inv s) (h : StartInv s) (i : Nat)
    (kv : UserId × Player) (hkv : s.players[i]? = some kv) :
    kv.2.symbol = symbolAt i ∧ symbolOf s kv.1 = (symbolAt i).toVal := by
  have h1 := symbol_of_index s.players i kv h.symbols_order hkv
  refine ⟨h1, ?_⟩
  have h2 := objGet_of_index s.players i kv hi.keys_nodup hkv
  unfold symbolOf
  rw [h.symbols_eq, objGet_symbols, h2]
  simp [h1]

/-! ## C11: symbols follow the order of enrolment -/

/-- C11: in every state of a session, whatever the parameters it was created
with, and so in every session created without a pre-declared list, the first
participant enrolled holds `X` and the second holds `O`; when there are two
participants their symbols differ; and `playerSymbols[id]` is
`players[id].symbol` for every identifier. -/
theorem symbols_by_enrolment (params : Params) (now : Nat) (s : State)
    (hr : ReachableFrom (matchInit params now).state s) :
    (∀ kv, s.players[0]? = some kv → kv.2.symbol = Sym.X ∧ symbolOf s kv.1 = Val.X) ∧
    (∀ kv, s.players[1]? = some kv → kv.2.symbol = Sym.O ∧ symbolOf s kv.1 = Val.O) ∧
    (∀ a b, objKeys s.players = [a, b] → symbolOf s a ≠ symbolOf s b) ∧
    (∀ id, objGet s.playerSymbols id = (objGet s.players id).map (fun pl => pl.symbol)) := by
  obtain ⟨hi, h⟩ := allInv_reachableFrom _ s ⟨inv_init params now, startInv_init params now⟩ hr
  refine ⟨fun kv hkv => symbolOf_index s hi h 0 kv hkv,
    fun kv hkv => symbolOf_index s hi h 1 kv hkv, ?_, ?_⟩
  · intro a b hab
    match hp : s.players, hab with
    | [(k0, p0), (k1, p1)], hab =>
      simp only [objKeys, List.map_cons, List.map_nil, List.cons.injEq, and_true] at hab
      have h0 := (symbolOf_index s hi h 0 (k0, p0) (by rw [hp]; rfl)).2
      have h1 := (symbolOf_index s hi h 1 (k1, p1) (by rw [hp]; rfl)).2
      rw [← hab.1, ← hab.2, h0, h1]
      simp [symbolAt, Sym.toVal]
  · intro id
    rw [h.symbols_eq, objGet_symbols]

/-- C11 at the session `alice` and `bob` joined in that order. -/
theorem symbols_by_enrolment_witness :
    symbolOf startedState alice.userId = Val.X ∧ symbolOf startedState bob.userId = Val.O ∧
    symbolOf startedState alice.userId ≠ symbolOf startedState bob.userId :=
  ⟨by decide, by decide,
    (symbols_by_enrolment noParams 0 startedState
      (ReachableFrom.join lobbyState [alice, bob] ReachableFrom.refl)).2.2.1
      alice.userId bob.userId (by decide)⟩

/-! ## C12: symbols and the pre-declared list -/

/-- C12, as stated, fails: in the session created for the list `alice`, `bob`,
when the join of `bob` is processed first, `bob` holds `X` and `alice` holds
`O`. -/
theorem list_order_not_followed :
    (matchmakerMatched twoEntries).invited = some [alice.userId, bob.userId] ∧
    ReachableFrom (matchInit (matchmakerMatched twoEntries) 0).state swappedState ∧
    objKeys swappedState.players = [bob.userId, alice.userId] ∧
    symbolOf swappedState alice.userId = Val.O ∧
    symbolOf swappedState bob.userId = Val.X :=
  ⟨by decide,
    ReachableFrom.join _ [alice] (ReachableFrom.join _ [bob] ReachableFrom.refl),
    by decide, by decide, by decide⟩

/-- C12, amended: in every state of a session created by `matchmakerMatched`,
symbols follow the order in which the joins were processed, not the list: the
first participant enrolled holds `X` and the second holds `O`. -/
theorem matchmade_symbols_by_enrolment (entries : List MatchmakerEntry) (now : Nat)
    (s : State) (hr : ReachableFrom (matchInit (matchmakerMatched entries) now).state s) :
    (∀ kv, s.players[0]? = some kv → kv.2.symbol = Sym.X ∧ symbolOf s kv.1 = Val.X) ∧
    (∀ kv, s.players[1]? = some kv → kv.2.symbol = Sym.O ∧ symbolOf s kv.1 = Val.O) := by
  obtain ⟨hi, h⟩ := allInv_reachableFrom _ s ⟨inv_init _ now, startInv_init _ now⟩ hr
  exact ⟨fun kv hkv => symbolOf_index s hi h 0 kv hkv,
    fun kv hkv => symbolOf_index s hi h 1 kv hkv⟩

/-- C12, amended, at the session in which `bob` joined before `alice`. -/
theorem matchmade_symbols_by_enrolment_witness :
    swappedState.players[0]?.map Prod.fst = some bob.userId ∧
    symbolOf swappedState bob.userId = Val.X :=
  ⟨by decide,
    ((matchmade_symbols_by_enrolment twoEntries 0 swappedState
      (ReachableFrom.join _ [alice] (ReachableFrom.join _ [bob] ReachableFrom.refl))).1
      (bob.userId, playerOf (matchInit (matchmakerMatched twoEntries) 0).state bob)
      (by decide)).2⟩

theorem statsOf_append (l1 l2 : List Effect) : statsOf (l1 ++ l2) = statsOf l1 ++ statsOf l2 := by
  induction l1 with
  | nil => rfl
  | cons e rest ih =>
    cases e <;> simp [statsOf, ih]

theorem statsOf_broadcastToAll (s : State) (opCode : Nat) (msg : Msg) :
    statsOf (broadcastToAll s opCode msg) = [] := by
  unfold broadcastToAll
  dsimp only
  split <;> rfl

/-- Once the game is over a leave only removes the presence. -/
theorem matchLeaveOne_over (s : State) (p : Presence) (ho : s.gameOver = true) :
    (matchLeaveOne s p).1 = { s with presences := objDelete s.presences p.userId } ∧
    statsOf (matchLeaveOne s p).2 = [] := by
  unfold matchLeaveOne
  dsimp only
  rw [if_neg (by simp [ho])]
  exact ⟨rfl, by simp [statsOf_broadcastToAll]⟩

theorem matchLeave_over (ps : List Presence) (s : State) (ho : s.gameOver = true) :
    (matchLeave s ps).1.gameOver = true ∧
    (matchLeave s ps).1.winner = s.winner ∧
    (matchLeave s ps).1.board = s.board ∧
    (matchLeave s ps).1.moveCount = s.moveCount ∧
    (matchLeave s ps).1.players = s.players ∧
    (matchLeave s ps).1.playerSymbols = s.playerSymbols ∧
    (matchLeave s ps).1.currentTurn = s.currentTurn ∧
    (matchLeave s ps).1.currentSymbol = s.currentSymbol ∧
    statsOf (matchLeave s ps).2 = [] := by
  induction ps generalizing s with
  | nil => exact ⟨ho, rfl, rfl, rfl, rfl, rfl, rfl, rfl, rfl⟩
  | cons p rest ih =>
    obtain ⟨h1, h2⟩ := matchLeaveOne_over s p ho
    have hrec := ih (matchLeaveOne s p).1 (by rw [h1]; exact ho)
    simp only [matchLeave, runBatch] at hrec ⊢
    rw [statsOf_append, h2]
    rw [h1] at hrec ⊢
    exact hrec

/-- The leave of one of two participants in a running game. -/
theorem matchLeaveOne_forfeit (s : State) (p : Presence) (other : UserId)
    (hs : s.gameStarted = true) (ho : s.gameOver = false)
    (hrem : (objKeys s.players).filter (fun id => decide (id ≠ p.userId)) = [other]) :
    (matchLeaveOne s p).1 = { s with
      presences := objDelete s.presences p.userId
      gameOver := true
      winner := symbolOf s other } ∧
    statsOf (matchLeaveOne s p).2 = [(other, "win"), (p.userId, "loss")] := by
  unfold matchLeaveOne
  dsimp only
  rw [if_pos ⟨by simp [ho], hs⟩, hrem]
  dsimp only
  refine ⟨rfl, ?_⟩
  rw [statsOf_append, statsOf_broadcastToAll, statsOf_append, List.append_nil]
  cases objGet (objDelete s.presences p.userId) other <;> rfl

/-! ## C13: forfeit -/

/-- C13: in a started session that is not over and has exactly the two
participants `a` and `b`, a `matchLeave` batch that begins with one of them
(alone, followed by the other one, or followed by anything) sets `gameOver`,
makes the other participant's symbol the winner, leaves `board`, `moveCount`
and `players` unchanged, and makes exactly two record updates: "win" for the
other participant and "loss" for the leaver. -/
theorem matchLeave_forfeit (s : State) (p : Presence) (rest : List Presence) (a b : UserId)
    (hs : s.gameStarted = true) (ho : s.gameOver = false)
    (hk : objKeys s.players = [a, b]) (hab : a ≠ b)
    (hp : p.userId = a ∨ p.userId = b) :
    (matchLeave s (p :: rest)).1.gameOver = true ∧
    (matchLeave s (p :: rest)).1.winner = symbolOf s (if p.userId = a then b else a) ∧
    (matchLeave s (p :: rest)).1.board = s.board ∧
    (matchLeave s (p :: rest)).1.moveCount = s.moveCount ∧
    (matchLeave s (p :: rest)).1.players = s.players ∧
    statsOf (matchLeave s (p :: rest)).2 =
      [(if p.userId = a then b else a, "win"), (p.userId, "loss")] := by
  have hrem : (objKeys s.players).filter (fun id => decide (id ≠ p.userId)) =
      [if p.userId = a then b else a] := by
    rw [hk]
    rcases hp with e | e
    · have hba : ¬ b = a := fun x => hab x.symm
      simp [e, List.filter, hba]
    · have hba : ¬ b = a := fun x => hab x.symm
      simp [e, List.filter, hab, hba]
  obtain ⟨h1, h2⟩ := matchLeaveOne_forfeit s p _ hs ho hrem
  have hrec := matchLeave_over rest (matchLeaveOne s p).1 (by rw [h1])
  simp only [matchLeave, runBatch] at hrec ⊢
  rw [statsOf_append, h2, hrec.2.2.2.2.2.2.2.2, List.append_nil]
  rw [h1] at hrec
  rw [h1]
  exact ⟨hrec.1, hrec.2.1, hrec.2.2.1, hrec.2.2.2.1, hrec.2.2.2.2.1, rfl⟩

/-- C13 at `alice` and `bob` leaving in one batch after four moves: `bob`
wins with `O`, and the updates are one "win" and one "loss". -/
theorem matchLeave_forfeit_witness :
    (matchLeave midState [alice, bob]).1.gameOver = true ∧
    (matchLeave midState [alice, bob]).1.winner = Val.O ∧
    (matchLeave midState [alice, bob]).1.board = midState.board ∧
    statsOf (matchLeave midState [alice, bob]).2 =
      [(bob.userId, "win"), (alice.userId, "loss")] :=
  ⟨(matchLeave_forfeit midState alice [bob] alice.userId bob.userId (by decide) (by decide)
      (by decide) (by decide) (Or.inl rfl)).1,
    by decide,
    (matchLeave_forfeit midState alice [bob] alice.userId bob.userId (by decide) (by decide)
      (by decide) (by decide) (Or.inl rfl)).2.2.1,
    by decide⟩

theorem SameGame.refl (s : State) : SameGame s s :=
  ⟨rfl, rfl, rfl, rfl, rfl, rfl⟩

theorem SameGame.trans {s t u : State} (h1 : SameGame s t) (h2 : SameGame t u) :
    SameGame s u :=
  ⟨h2.1.trans h1.1, h2.2.1.trans h1.2.1, h2.2.2.1.trans h1.2.2.1,
    h2.2.2.2.1.trans h1.2.2.2.1, h2.2.2.2.2.1.trans h1.2.2.2.2.1,
    h2.2.2.2.2.2.trans h1.2.2.2.2.2⟩

/-- A join into a session with two or more participants starts nothing. -/
theorem matchJoinOne_full (s : State) (p : Presence) (h2 : 2 ≤ s.players.length) :
    SameGame s (matchJoinOne s p).1 ∧ (matchJoinOne s p).1.gameStarted = s.gameStarted := by
  by_cases hk : p.userId ∈ objKeys s.players
  · rw [matchJoinOne_reconnect s p hk]
    exact ⟨SameGame.refl s, rfl⟩
  · rw [matchJoinOne_new s p hk]
    have hlen : (objKeys (enrol s p).players).length = s.players.length + 1 := by
      rw [enrol_players s p hk]; simp [objKeys]
    rw [hlen, if_neg (by omega)]
    exact ⟨SameGame.refl s, rfl⟩

theorem processMove_over (s : State) (m : Message) (ho : s.gameOver = true) :
    (processMove s m).1 = s ∧ statsOf (processMove s m).2 = [] := by
  have hno : ¬ ∃ n, MoveOk s m n := by
    rintro ⟨n, hn⟩
    rw [hn.2.2.2.1] at ho
    simp at ho
  obtain ⟨text, ht⟩ := processMove_reject s m hno
  rw [ht]
  exact ⟨rfl, rfl⟩

theorem matchLoopOne_over (s : State) (m : Message) (ho : s.gameOver = true) :
    (matchLoopOne s m).1 = s ∧ statsOf (matchLoopOne s m).2 = [] := by
  unfold matchLoopOne
  split
  · exact processMove_over s m ho
  · exact ⟨rfl, rfl⟩

theorem runBatch_matchLoopOne_over (ms : List Message) (s : State) (ho : s.gameOver = true) :
    (runBatch matchLoopOne s ms).1 = s ∧ statsOf (runBatch matchLoopOne s ms).2 = [] := by
  induction ms with
  | nil => exact ⟨rfl, rfl⟩
  | cons m rest ih =>
    obtain ⟨h1, h2⟩ := matchLoopOne_over s m ho
    simp only [runBatch]
    rw [statsOf_append, h2, h1]
    exact ih

/-- After the end of the game a batch of joins shows the same game. -/
theorem matchJoin_over (s : State) (ps : List Presence) (hi : Inv s) (h : StartInv s)
    (ho : s.gameOver = true) : SameGame s (matchJoin s ps).1 := by
  have key := runBatch_preserves
    (fun st => Inv st ∧ StartInv st ∧ st.gameOver = true ∧ SameGame s st) matchJoinOne
    (fun st x hst => by
      obtain ⟨h1, h2, h3, h4⟩ := hst
      have hfull := matchJoinOne_full st x (h2.started_iff.mp (h2.over_started h3))
      exact ⟨inv_matchJoinOne st x h1, startInv_matchJoinOne st x h1 h2,
        hfull.1.1.trans h3, h4.trans hfull.1⟩)
    ps s ⟨hi, h, ho, SameGame.refl s⟩
  unfold matchJoin
  exact key.2.2.2

/-! ## C14: the end of the game is final -/

/-- C14: from a reachable state in which `gameOver` is set, whatever calls of
`matchJoinAttempt`, `matchJoin`, `matchLeave` and `matchLoop` follow, with
whatever arguments, `gameOver` stays set and `board`, `moveCount`, `winner`,
`currentTurn` and `currentSymbol` keep their values. -/
theorem gameOver_final (s t : State) (hr : Reachable s) (ho : s.gameOver = true)
    (ht : ReachableFrom s t) :
    t.gameOver = true ∧ t.board = s.board ∧ t.moveCount = s.moveCount ∧
    t.winner = s.winner ∧ t.currentTurn = s.currentTurn ∧
    t.currentSymbol = s.currentSymbol := by
  have h0 : Inv s ∧ StartInv s := ⟨inv_reachable s hr, startInv_reachable s hr⟩
  have key : SameGame s t := by
    induction ht with
    | refl => exact SameGame.refl s
    | joinAttempt state presence _ ih =>
      rw [matchJoinAttempt_state]; exact ih
    | join state presences hst ih =>
      obtain ⟨hi, h⟩ := allInv_reachableFrom s state h0 hst
      exact ih.trans (matchJoin_over state presences hi h (ih.1.trans ho))
    | leave state presences _ ih =>
      have hl := matchLeave_over presences state (ih.1.trans ho)
      exact ih.trans ⟨hl.1.trans (ih.1.trans ho).symm, hl.2.2.1, hl.2.2.2.1, hl.2.1,
        hl.2.2.2.2.2.2.1, hl.2.2.2.2.2.2.2.1⟩
    | loop state messages next _ hn ih =>
      obtain ⟨k, hk⟩ := matchLoop_some state messages next hn
      have hb := (runBatch_matchLoopOne_over messages { state with emptyTicks := k }
        (ih.1.trans ho)).1
      rw [hk, hb]
      exact ih
  exact ⟨key.1.trans ho, key.2.1, key.2.2.1, key.2.2.2.1, key.2.2.2.2.1, key.2.2.2.2.2⟩

theorem reachable_wonState : Reachable wonState :=
  ⟨noParams, 0, ReachableFrom.loop startedState
    [moveMsg alice 0, moveMsg bob 3, moveMsg alice 1, moveMsg bob 4, moveMsg alice 2] wonState
    (ReachableFrom.join lobbyState [alice, bob] ReachableFrom.refl) (by decide)⟩

/-- C14 at the won session: a late join of `carol`, a move of `bob` and the
leave of `alice` change nothing of the game. -/
theorem gameOver_final_witness :
    Reachable wonState ∧ wonState.gameOver = true ∧
    (matchLeave (runBatch matchLoopOne (matchJoin wonState [carol]).1 [moveMsg bob 5]).1
      [alice]).1.board = wonState.board ∧
    (matchLeave (runBatch matchLoopOne (matchJoin wonState [carol]).1 [moveMsg bob 5]).1
      [alice]).1.winner = Val.X :=
  ⟨reachable_wonState, by decide,
    (gameOver_final wonState _ reachable_wonState (by decide)
      (ReachableFrom.leave _ [alice]
        (ReachableFrom.loop (matchJoin wonState [carol]).1 [moveMsg bob 5]
          (runBatch matchLoopOne (matchJoin wonState [carol]).1 [moveMsg bob 5]).1
          (ReachableFrom.join wonState [carol] ReachableFrom.refl) (by decide)))).2.1,
    by decide⟩

theorem matchJoinOne_players (s : State) (p : Presence) :
    (matchJoinOne s p).1.players =
      if p.userId ∈ objKeys s.players then s.players
      else s.players ++ [(p.userId, playerOf s p)] := by
  by_cases hk : p.userId ∈ objKeys s.players
  · rw [matchJoinOne_reconnect s p hk, if_pos hk]
  · rw [matchJoinOne_new s p hk, if_neg hk, ← enrol_players s p hk]
    split
    · rw [startGame_state]
    · rfl

theorem matchLeaveOne_players (s : State) (p : Presence) :
    (matchLeaveOne s p).1.players = s.players := by
  unfold matchLeaveOne
  dsimp only
  split
  · split <;> rfl
  · rfl

theorem processMove_players (s : State) (m : Message) :
    (processMove s m).1.players = s.players := by
  by_cases hok : ∃ n, MoveOk s m n
  · obtain ⟨n, hn⟩ := hok
    rw [processMove_accept s m n hn, makeMove_players]
  · obtain ⟨text, ht⟩ := processMove_reject s m hok
    rw [ht]

theorem matchLoopOne_players (s : State) (m : Message) :
    (matchLoopOne s m).1.players = s.players := by
  unfold matchLoopOne
  split
  · exact processMove_players s m
  · rfl

theorem matchLeave_players (s : State) (ps : List Presence) :
    (matchLeave s ps).1.players = s.players :=
  runBatch_preserves (fun st => st.players = s.players) matchLeaveOne
    (fun st x hst => (matchLeaveOne_players st x).trans hst) ps s rfl

theorem matchLoop_players (s : State) (ms : List Message) (next : State)
    (hn : (matchLoop s ms).1 = some next) : next.players = s.players := by
  obtain ⟨k, hk⟩ := matchLoop_some s ms next hn
  rw [hk]
  exact runBatch_preserves (fun st => st.players = s.players) matchLoopOne
    (fun st x hst => (matchLoopOne_players st x).trans hst) ms _ rfl

/-- When every accepted attempt is followed at once by its join, `players`
never holds more than 2 entries. -/
theorem sequential_players_le_two (params : Params) (now : Nat) (s : State)
    (h : Sequential (matchInit params now).state s) : (objKeys s.players).length ≤ 2 := by
  induction h with
  | refl => simp [matchInit, objKeys]
  | enter state presence _ hacc ih =>
    rw [matchJoinAttempt_state]
    have hp : (matchJoin state [presence]).1.players = (matchJoinOne state presence).1.players := by
      simp only [matchJoin, runBatch]
    simp only [objKeys, List.length_map] at ih ⊢
    rw [hp, matchJoinOne_players]
    by_cases hk : presence.userId ∈ objKeys state.players
    · rw [if_pos hk]; exact ih
    · rw [if_neg hk]
      have hlt : (objKeys state.players).length < 2 := by
        by_contra hge
        unfold matchJoinAttempt at hacc
        dsimp only at hacc
        rw [if_neg (fun hc => hk ((objGet_isSome_iff _ _).mp hc)),
          if_pos (not_lt.mp hge)] at hacc
        simp at hacc
      simp only [objKeys, List.length_map] at hlt
      simp only [List.length_append, List.length_singleton]
      omega
  | reject state presence _ _ ih => rw [matchJoinAttempt_state]; exact ih
  | leave state presences _ ih => rw [matchLeave_players]; exact ih
  | loop state messages next _ hn ih => rw [matchLoop_players state messages next hn]; exact ih

/-! ## C15: the number of participants -/

/-- C15: three join attempts made on the empty session are all accepted, and
the join of the three accepted presences enrols three participants, two of
whom hold `O`. -/
theorem admitted_three_players :
    (matchJoinAttempt lobbyState alice).accept = true ∧
    (matchJoinAttempt lobbyState bob).accept = true ∧
    (matchJoinAttempt lobbyState carol).accept = true ∧
    Admitted lobbyState crowdedState [] ∧
    objKeys crowdedState.players = [alice.userId, bob.userId, carol.userId] ∧
    (objKeys crowdedState.players).length = 3 ∧
    symbolOf crowdedState bob.userId = Val.O ∧
    symbolOf crowdedState carol.userId = Val.O := by
  refine ⟨by decide, by decide, by decide, ?_, by decide, by decide, by decide, by decide⟩
  have h1 : Admitted lobbyState lobbyState [alice] :=
    Admitted.accepted lobbyState [] alice Admitted.refl (by decide)
  have h2 : Admitted lobbyState lobbyState [alice, bob] :=
    Admitted.accepted lobbyState [alice] bob h1 (by decide)
  have h3 : Admitted lobbyState lobbyState [alice, bob, carol] :=
    Admitted.accepted lobbyState [alice, bob] carol h2 (by decide)
  exact Admitted.join lobbyState [alice, bob, carol] [alice, bob, carol] h3
    (fun p hp => hp)

theorem openingTurn_matchJoinOne (s : State) (p : Presence) (hi : Inv s) (h : StartInv s)
    (hq : OpeningTurn s) : OpeningTurn (matchJoinOne s p).1 := by
  by_cases hst : s.gameStarted = true
  · have h2 : 2 ≤ s.players.length := h.started_iff.mp hst
    obtain ⟨hsame, _⟩ := matchJoinOne_full s p h2
    obtain ⟨hx, kv, hkv, hturn⟩ := hq hst
    intro _
    refine ⟨hsame.2.2.2.2.2.trans hx, kv, ?_, hsame.2.2.2.2.1.trans hturn⟩
    rw [matchJoinOne_players]
    split
    · exact hkv
    · rw [List.getElem?_append_left (by omega)]
      exact hkv
  · by_cases hk : p.userId ∈ objKeys s.players
    · rw [matchJoinOne_reconnect s p hk]
      intro hc
      exact absurd hc hst
    · rw [matchJoinOne_new s p hk]
      obtain ⟨heq, hord, hlen⟩ := enrol_symbols s p hi h hk
      split
      · rw [startGame_state]
        obtain ⟨id, pl0, rest, hp, hx, hf⟩ :=
          findX_first (enrol s p).players hord (by rw [hlen]; omega)
        have hfx : findX (enrol s p).playerSymbols = some id := by rw [heq]; exact hf
        rw [hfx]
        intro _
        exact ⟨rfl, (id, pl0), by show (enrol s p).players[0]? = _; rw [hp]; simp, rfl⟩
      · intro hc
        exact absurd hc hst

theorem openingTurn_matchJoin (s : State) (ps : List Presence) (hi : Inv s) (h : StartInv s)
    (hq : OpeningTurn s) : OpeningTurn (matchJoin s ps).1 := by
  have key := runBatch_preserves (fun st => Inv st ∧ StartInv st ∧ OpeningTurn st) matchJoinOne
    (fun st x hst => ⟨inv_matchJoinOne st x hst.1, startInv_matchJoinOne st x hst.1 hst.2.1,
      openingTurn_matchJoinOne st x hst.1 hst.2.1 hst.2.2⟩)
    ps s ⟨hi, h, hq⟩
  unfold matchJoin
  exact key.2.2

/-! ## C16: the holder of the turn -/

/-- C16: in every reachable state `currentTurn` is unset while there are fewer
than 2 participants and is a key of `players` once there are 2; and when a
`matchJoin` starts the game, `currentTurn` is the participant who holds `X`
and `currentSymbol` is `X`. -/
theorem currentTurn_participant (s : State) (hr : Reachable s) :
    ((objKeys s.players).length < 2 → s.currentTurn = none) ∧
    (2 ≤ (objKeys s.players).length →
      ∃ id, s.currentTurn = some id ∧ id ∈ objKeys s.players) ∧
    (∀ ps, s.gameStarted = false → (matchJoin s ps).1.gameStarted = true →
      (matchJoin s ps).1.currentSymbol = Sym.X ∧
      ∃ id, (matchJoin s ps).1.currentTurn = some id ∧
        id ∈ objKeys (matchJoin s ps).1.players ∧
        symbolOf (matchJoin s ps).1 id = Val.X) := by
  have hi := inv_reachable s hr
  have h := startInv_reachable s hr
  have hlen : (objKeys s.players).length = s.players.length := by simp [objKeys]
  refine ⟨?_, ?_, ?_⟩
  · intro hlt
    apply h.turn_none
    cases hg : s.gameStarted with
    | false => rfl
    | true =>
      have := h.started_iff.mp hg
      omega
  · intro hge
    obtain ⟨id, hid⟩ := h.turn_some (h.started_iff.mpr (by omega))
    exact ⟨id, hid, by rw [← hi.keys_eq]; exact hi.turn_key id hid⟩
  · intro ps hns hst
    have hq : OpeningTurn s := fun hc => by rw [hns] at hc; simp at hc
    obtain ⟨hi2, h2⟩ := allInv_matchJoin s ps ⟨hi, h⟩
    obtain ⟨hx, kv, hkv, hturn⟩ := openingTurn_matchJoin s ps hi h hq hst
    refine ⟨hx, kv.1, hturn, ?_, (symbolOf_index _ hi2 h2 0 kv hkv).2⟩
    exact List.mem_map.mpr ⟨kv, List.getElem?_mem hkv, rfl⟩

/-- C16 at the empty session, which `alice` and `bob` start by joining. -/
theorem currentTurn_participant_witness :
    Reachable lobbyState ∧ lobbyState.currentTurn = none ∧
    (matchJoin lobbyState [alice, bob]).1.currentSymbol = Sym.X ∧
    (matchJoin lobbyState [alice, bob]).1.currentTurn = some alice.userId :=
  ⟨reachable_lobbyState,
    (currentTurn_participant lobbyState reachable_lobbyState).1 (by decide),
    ((currentTurn_participant lobbyState reachable_lobbyState).2.2 [alice, bob]
      (by decide) (by decide)).1,
    by decide⟩

theorem readStats_update (storage : Storage) (odId : UserId) (result : Option String) :
    readStats (updatePlayerStats storage odId result) odId =
      applyResult (readStats storage odId) result := by
  simp [readStats, updatePlayerStats, objGet_objSet]

theorem readStats_update_other (storage : Storage) (odId other : UserId)
    (result : Option String) (h : odId ≠ other) :
    objGet (updatePlayerStats storage odId result) other = objGet storage other := by
  simp [updatePlayerStats, objGet_objSet, h]

/-! ## C17: the update of a record -/

/-- C17: for every storage and user, `updatePlayerStats` writes, for "win",
"loss" and "draw", the record that the update rules give from the stored
record (or from the default one when none is stored), every field the rules do
not name being unchanged; the records of other users are not touched. -/
theorem updatePlayerStats_rules (storage : Storage) (odId : UserId) :
    objGet (updatePlayerStats storage odId (some "win")) odId = some
      { wins := (readStats storage odId).wins + 1
        losses := (readStats storage odId).losses
        draws := (readStats storage odId).draws
        totalGames := (readStats storage odId).totalGames + 1
        winStreak := max (readStats storage odId).winStreak
          ((readStats storage odId).currentStreak + 1)
        currentStreak := (readStats storage odId).currentStreak + 1
        rating := (readStats storage odId).rating + 25 } ∧
    objGet (updatePlayerStats storage odId (some "loss")) odId = some
      { wins := (readStats storage odId).wins
        losses := (readStats storage odId).losses + 1
        draws := (readStats storage odId).draws
        totalGames := (readStats storage odId).totalGames + 1
        winStreak := (readStats storage odId).winStreak
        currentStreak := 0
        rating := max 0 ((readStats storage odId).rating - 20) } ∧
    objGet (updatePlayerStats storage odId (some "draw")) odId = some
      { wins := (readStats storage odId).wins
        losses := (readStats storage odId).losses
        draws := (readStats storage odId).draws + 1
        totalGames := (readStats storage odId).totalGames + 1
        winStreak := (readStats storage odId).winStreak
        currentStreak := (readStats storage odId).currentStreak
        rating := (readStats storage odId).rating + 5 } ∧
    (objGet storage odId = none → readStats storage odId = defaultStats) ∧
    (∀ stats, objGet storage odId = some stats → readStats storage odId = stats) ∧
    ∀ other result, odId ≠ other →
      objGet (updatePlayerStats storage odId result) other = objGet storage other := by
  refine ⟨?_, ?_, ?_, ?_, ?_, ?_⟩
  · simp [updatePlayerStats, objGet_objSet, applyResult]
  · simp [updatePlayerStats, objGet_objSet, applyResult]
  · simp [updatePlayerStats, objGet_objSet, applyResult]
  · intro h; simp [readStats, h]
  · intro stats h; simp [readStats, h]
  · intro other result h
    exact readStats_update_other storage odId other result h

theorem statsOk_default : StatsOk defaultStats := by decide

/-- The three outcomes keep the invariant of a record. -/
theorem statsOk_applyResult (stats : Stats) (result : String) (h : StatsOk stats)
    (hr : result = "win" ∨ result = "loss" ∨ result = "draw") :
    StatsOk (applyResult stats (some result)) := by
  obtain ⟨h1, h2, h3, h4, h5, h6⟩ := h
  rcases hr with e | e | e <;> subst e <;>
    simp only [applyResult, StatsOk, Option.some.injEq, String.reduceEq, if_true, if_false] <;>
    refine ⟨by omega, by omega, by omega, by omega, by omega, ?_⟩
  · omega
  · exact le_max_left _ _
  · omega

/-- The updates a match makes keep the invariant of every record they read. -/
theorem statsOk_updatePlayerStats (storage : Storage) (odId : UserId) (result : String)
    (hr : result = "win" ∨ result = "loss" ∨ result = "draw")
    (h : ∀ id, StatsOk (readStats storage id)) :
    ∀ id, StatsOk (readStats (updatePlayerStats storage odId (some result)) id) := by
  intro id
  by_cases e : odId = id
  · subst e
    rw [readStats_update]
    exact statsOk_applyResult _ _ (h odId) hr
  · have := readStats_update_other storage odId id (some result) e
    unfold readStats at *
    rw [this]
    exact h id

/-! ## C18: the invariant of a record -/

/-- C18: on an empty storage, `rpcUpdateStats` with a payload whose `result`
is none of "win", "loss" and "draw" succeeds and stores a record with
`totalGames` 1 and `wins`, `losses` and `draws` 0, so that `totalGames` is not
their sum; the same holds for a payload without a `result`. -/
theorem rpcUpdateStats_unknown_result :
    rpcUpdateStats [] "alice-id" (StatsPayload.parsed (some "abandoned")) =
      ([("alice-id", { defaultStats with totalGames := 1 })], true) ∧
    rpcUpdateStats [] "alice-id" (StatsPayload.parsed none) =
      ([("alice-id", { defaultStats with totalGames := 1 })], true) ∧
    ¬ StatsOk (readStats
      (rpcUpdateStats [] "alice-id" (StatsPayload.parsed (some "abandoned"))).1 "alice-id") := by
  refine ⟨by decide, by decide, by decide⟩

/-! ## C19: the longest streak -/

theorem applyResult_streak (stats : Stats) (result : Option String)
    (h1 : stats.currentStreak ≤ stats.winStreak) (h0 : 0 ≤ stats.winStreak) :
    (applyResult stats result).winStreak =
        max stats.winStreak (applyResult stats result).currentStreak ∧
      (applyResult stats result).currentStreak ≤ (applyResult stats result).winStreak ∧
      0 ≤ (applyResult stats result).winStreak := by
  unfold applyResult
  dsimp only
  split_ifs
  · refine ⟨rfl, le_max_right _ _, le_trans h0 (le_max_left _ _)⟩
  · exact ⟨(max_eq_left h0).symm, h0, h0⟩
  · exact ⟨(max_eq_left h1).symm, h1, h0⟩
  · exact ⟨(max_eq_left h1).symm, h1, h0⟩

theorem updateAll_streak (odId : UserId) (results : List (Option String)) (storage : Storage)
    (h1 : (readStats storage odId).currentStreak ≤ (readStats storage odId).winStreak)
    (h0 : 0 ≤ (readStats storage odId).winStreak) :
    (readStats (updateAll odId storage results) odId).winStreak =
        (streakHistory odId storage results).foldl max (readStats storage odId).winStreak ∧
      (readStats (updateAll odId storage results) odId).currentStreak ≤
        (readStats (updateAll odId storage results) odId).winStreak := by
  induction results generalizing storage with
  | nil => exact ⟨rfl, h1⟩
  | cons r rest ih =>
    obtain ⟨e1, e2, e3⟩ := applyResult_streak (readStats storage odId) r h1 h0
    rw [← readStats_update] at e1 e2 e3
    have := ih (updatePlayerStats storage odId r) e2 e3
    simp only [updateAll, List.foldl_cons, streakHistory] at this ⊢
    rw [← e1]
    exact this

/-- C19: after any sequence of updates of an absent record, `winStreak` is the
largest value `currentStreak` had after an update of the sequence, 0 when the
sequence is empty, and `currentStreak` is at most `winStreak`. -/
theorem winStreak_is_max (odId : UserId) (results : List (Option String)) :
    (readStats (updateAll odId [] results) odId).winStreak =
        (streakHistory odId [] results).foldl max 0 ∧
      (readStats (updateAll odId [] results) odId).currentStreak ≤
        (readStats (updateAll odId [] results) odId).winStreak :=
  updateAll_streak odId results [] (by simp [readStats, objGet, defaultStats])
    (by simp [readStats, objGet, defaultStats])

theorem statsOf_map_broadcast {α : Type} (l : List α) (o : α → Nat) (m : α → Msg)
    (r : α → List Presence) :
    statsOf (l.map (fun x => Effect.broadcast (o x) (m x) (r x))) = [] := by
  induction l with
  | nil => rfl
  | cons x rest ih => simpa [statsOf] using ih

theorem statsOf_startGame (s : State) : statsOf (startGame s).2 = [] := by
  unfold startGame
  dsimp only
  rw [statsOf_append, statsOf_map_broadcast]
  rfl

theorem statsOf_matchJoinOne (s : State) (p : Presence) :
    statsOf (matchJoinOne s p).2 = [] := by
  unfold matchJoinOne
  dsimp only
  split
  · rfl
  · split_ifs <;> first | rfl | exact statsOf_startGame _

theorem matchJoinOne_gameOver (s : State) (p : Presence) :
    (matchJoinOne s p).1.gameOver = s.gameOver := by
  by_cases hk : p.userId ∈ objKeys s.players
  · rw [matchJoinOne_reconnect s p hk]
  · rw [matchJoinOne_new s p hk]
    split
    · rw [startGame_state]; rfl
    · rfl

theorem matchJoinOne_length (s : State) (p : Presence) :
    s.players.length ≤ (matchJoinOne s p).1.players.length := by
  rw [matchJoinOne_players]
  split
  · exact le_refl _
  · simp

/-- The record updates of a match, through the join of one presence. -/
theorem ledger_matchJoinOne (s : State) (p : Presence) (updates : List (UserId × String))
    (hl : Ledger s updates) (h2 : (matchJoinOne s p).1.players.length ≤ 2) :
    Ledger (matchJoinOne s p).1 (updates ++ statsOf (matchJoinOne s p).2) := by
  rw [statsOf_matchJoinOne, List.append_nil]
  by_cases hk : p.userId ∈ objKeys s.players
  · rw [matchJoinOne_reconnect s p hk]
    exact hl
  · cases ho : s.gameOver with
    | true =>
      obtain ⟨a, b, hab, _⟩ := hl.2 ho
      rw [matchJoinOne_players, if_neg hk] at h2
      have : s.players.length = 2 := by
        have := congrArg List.length hab
        simpa [objKeys] using this
      simp only [List.length_append, List.length_singleton] at h2
      omega
    | false =>
      have hg := matchJoinOne_gameOver s p
      rw [ho] at hg
      refine ⟨fun _ => hl.1 ho, fun hc => ?_⟩
      rw [hg] at hc
      simp at hc

theorem matchLeaveOne_stay (s : State) (p : Presence)
    (h : ¬ (s.gameOver = false ∧ s.gameStarted = true) ∨
      ∀ other, (objKeys s.players).filter (fun id => decide (id ≠ p.userId)) ≠ [other]) :
    (matchLeaveOne s p).1 = { s with presences := objDelete s.presences p.userId } ∧
    statsOf (matchLeaveOne s p).2 = [] := by
  unfold matchLeaveOne
  dsimp only
  split
  · rename_i hc
    split
    · rename_i winnerId hw
      rcases h with h | h
      · exact absurd ⟨by simpa using hc.1, hc.2⟩ h
      · exact absurd hw (h winnerId)
    · exact ⟨rfl, by simp [statsOf_broadcastToAll]⟩
  · exact ⟨rfl, by simp [statsOf_broadcastToAll]⟩

theorem symbolOf_mem_ne_draw (s : State) (id : UserId) (h : id ∈ objKeys s.playerSymbols) :
    symbolOf s id ≠ Val.draw := by
  rcases symbolOf_of_mem s id h with e | e <;> rw [e] <;> simp

/-- The record updates of a match, through the leave of one presence. -/
theorem ledger_matchLeaveOne (s : State) (p : Presence) (updates : List (UserId × String))
    (hi : Inv s) (h : StartInv s) (hl : Ledger s updates)
    (h2 : (matchLeaveOne s p).1.players.length ≤ 2) :
    Ledger (matchLeaveOne s p).1 (updates ++ statsOf (matchLeaveOne s p).2) := by
  rw [matchLeaveOne_players] at h2
  by_cases hact : s.gameOver = false ∧ s.gameStarted = true
  · by_cases hrem : ∃ other,
        (objKeys s.players).filter (fun id => decide (id ≠ p.userId)) = [other]
    · obtain ⟨other, hother⟩ := hrem
      obtain ⟨e1, e2⟩ := matchLeaveOne_forfeit s p other hact.2 hact.1 hother
      rw [e2, hl.1 hact.1, e1]
      have hlen : s.players.length = 2 := by
        have := h.started_iff.mp hact.2
        omega
      have hnd := hi.keys_nodup
      match hp : objKeys s.players, hnd with
      | [a, b], hnd =>
        have hab : a ≠ b := by
          intro e
          simp [e] at hnd
        have hba : ¬ b = a := fun x => hab x.symm
        rw [hp] at hother
        have hcases : (other = b ∧ p.userId = a) ∨ (other = a ∧ p.userId = b) := by
          by_cases ea : a = p.userId
          · by_cases eb : b = p.userId
            · exact absurd (ea.trans eb.symm) hab
            · left
              simp [List.filter, ea, eb] at hother
              exact ⟨hother.symm, ea.symm⟩
          · by_cases eb : b = p.userId
            · right
              simp [List.filter, ea, eb] at hother
              exact ⟨hother.symm, eb.symm⟩
            · simp [List.filter, ea, eb] at hother
        have hmem : other ∈ objKeys s.playerSymbols := by
          rw [hi.keys_eq, hp]
          rcases hcases with c | c <;> simp [c.1]
        refine ⟨fun hc => by simp at hc, fun _ => ⟨a, b, hp, hab, Or.inr ?_⟩⟩
        refine ⟨other, p.userId, ?_, rfl, symbolOf_mem_ne_draw s other hmem, Or.inl rfl⟩
        rcases hcases with c | c
        · exact Or.inr c
        · exact Or.inl c
      | [], _ => simp [objKeys] at hp; rw [hp] at hlen; simp at hlen
      | [_], _ =>
        have := congrArg List.length hp
        simp [objKeys] at this
        omega
      | _ :: _ :: _ :: _, _ =>
        have := congrArg List.length hp
        simp [objKeys] at this
        omega
    · obtain ⟨e1, e2⟩ := matchLeaveOne_stay s p
        (Or.inr (fun other hc => hrem ⟨other, hc⟩))
      rw [e2, List.append_nil, e1]
      exact hl
  · obtain ⟨e1, e2⟩ := matchLeaveOne_stay s p (Or.inl hact)
    rw [e2, List.append_nil, e1]
    exact hl

theorem statsOf_map_stats {α : Type} (l : List α) (u : α → UserId) (r : α → String) :
    statsOf (l.map (fun x => Effect.stats (u x) (r x))) = l.map (fun x => (u x, r x)) := by
  induction l with
  | nil => rfl
  | cons x rest ih => simp [statsOf, ih]

/-- The record updates `makeMove` makes. -/
theorem statsOf_makeMove (s : State) (m : Message) (n : Nat) :
    statsOf (makeMove s m (Position.num (n : ℚ))).2 =
      if (checkWin (s.board.set n (symbolOf s m.sender.userId))
          (symbolOf s m.sender.userId)).won = true then
        (objKeys s.players).map (fun pid =>
          (pid, if symbolOf s pid = symbolOf s m.sender.userId then "win" else "loss"))
      else if s.moveCount + 1 ≥ 9 then (objKeys s.players).map (fun pid => (pid, "draw"))
      else [] := by
  unfold makeMove
  dsimp only
  rw [boardWrite_natCast]
  split_ifs with h1 h2
  · rw [statsOf_append, statsOf_broadcastToAll, List.append_nil]
    have : (fun pid => if symbolOf { s with
          board := s.board.set n (symbolOf s m.sender.userId)
          moveCount := s.moveCount + 1
          gameOver := true
          winner := symbolOf s m.sender.userId } pid = symbolOf s m.sender.userId
        then Effect.stats pid "win" else Effect.stats pid "loss") =
        (fun pid => Effect.stats pid
          (if symbolOf s pid = symbolOf s m.sender.userId then "win" else "loss")) := by
      funext pid
      show (if symbolOf s pid = symbolOf s m.sender.userId
        then Effect.stats pid "win" else Effect.stats pid "loss") = _
      split <;> rfl
    rw [this]
    exact statsOf_map_stats _ _ _
  · rw [statsOf_append, statsOf_broadcastToAll, List.append_nil]
    exact statsOf_map_stats _ (fun pid => pid) (fun _ => "draw")
  · unfold sendUpdates
    exact statsOf_map_broadcast _ _ _ _

theorem makeMove_playerSymbols (s : State) (m : Message) (p : Position) :
    (makeMove s m p).1.playerSymbols = s.playerSymbols := by
  unfold makeMove
  dsimp only
  split_ifs
  · rfl
  · rfl
  · unfold switchTurn
    dsimp only
    split <;> rfl

theorem two_keys (s : State) (hi : Inv s) (h : StartInv s) (hlen : s.players.length = 2) :
    ∃ a b, objKeys s.players = [a, b] ∧ a ≠ b ∧
      symbolOf s a = Val.X ∧ symbolOf s b = Val.O := by
  match hp : s.players with
  | [(a, pa), (b, pb)] =>
    have hnd := hi.keys_nodup
    rw [hp] at hnd
    have hab : a ≠ b := by
      intro e
      simp [objKeys, e] at hnd
    refine ⟨a, b, by simp [objKeys], hab, ?_, ?_⟩
    · exact (symbolOf_index s hi h 0 (a, pa) (by rw [hp]; simp)).2
    · exact (symbolOf_index s hi h 1 (b, pb) (by rw [hp]; simp)).2
  | [] => rw [hp] at hlen; simp at hlen
  | [_] => rw [hp] at hlen; simp at hlen
  | _ :: _ :: _ :: _ => rw [hp] at hlen; simp at hlen

/-- The record updates of a match, through one move. -/
theorem ledger_processMove (s : State) (m : Message) (updates : List (UserId × String))
    (hi : Inv s) (h : StartInv s) (hl : Ledger s updates)
    (h2 : (processMove s m).1.players.length ≤ 2) :
    Ledger (processMove s m).1 (updates ++ statsOf (processMove s m).2) := by
  rw [processMove_players] at h2
  by_cases hok : ∃ n, MoveOk s m n
  · obtain ⟨n, hn⟩ := hok
    have ho : s.gameOver = false := hn.2.2.2.1
    have hlen : s.players.length = 2 := by
      have := h.started_iff.mp hn.2.2.1
      omega
    obtain ⟨a, b, hkeys, hab, hxa, hob⟩ := two_keys s hi h hlen
    have hsender : m.sender.userId = a ∨ m.sender.userId = b := by
      have := hi.turn_key _ hn.2.2.2.2.1
      rw [hi.keys_eq, hkeys] at this
      simpa using this
    have hsym : ∀ id, symbolOf (processMove s m).1 id = symbolOf s id := by
      intro id
      unfold symbolOf
      rw [processMove_accept s m n hn, makeMove_playerSymbols]
    have hkeys2 : objKeys (processMove s m).1.players = [a, b] := by
      rw [processMove_players]; exact hkeys
    have hover := makeMove_gameOver s m n ho
    have hwin := makeMove_winner s m n
    have hstats := statsOf_makeMove s m n
    rw [← processMove_accept s m n hn] at hover hwin hstats
    rw [hl.1 ho, List.nil_append, hstats]
    by_cases hw : (checkWin (s.board.set n (symbolOf s m.sender.userId))
        (symbolOf s m.sender.userId)).won = true
    · rw [if_pos hw] at hwin ⊢
      refine ⟨fun hc => ?_, fun _ => ⟨a, b, hkeys2, hab, Or.inr ?_⟩⟩
      · have := hover.mpr (Or.inl hw)
        rw [this] at hc
        simp at hc
      · rw [hkeys]
        rcases hsender with e | e
        · refine ⟨a, b, Or.inl ⟨rfl, rfl⟩, ?_, ?_, Or.inl ?_⟩
          · rw [hsym, hwin, e]
          · rw [hwin, e, hxa]; simp
          · simp [e, hxa, hob]
        · refine ⟨b, a, Or.inr ⟨rfl, rfl⟩, ?_, ?_, Or.inr ?_⟩
          · rw [hsym, hwin, e]
          · rw [hwin, e, hob]; simp
          · simp [e, hxa, hob]
    · rw [if_neg hw] at hwin ⊢
      by_cases h9 : s.moveCount + 1 ≥ 9
      · rw [if_pos h9] at hwin ⊢
        refine ⟨fun hc => ?_, fun _ => ⟨a, b, hkeys2, hab, Or.inl ⟨hwin, ?_⟩⟩⟩
        · have := hover.mpr (Or.inr h9)
          rw [this] at hc
          simp at hc
        · rw [hkeys]; rfl
      · rw [if_neg h9]
        refine ⟨fun _ => rfl, fun hc => ?_⟩
        have := hover.mp hc
        rcases this with x | x
        · exact absurd x hw
        · exact absurd x h9
  · obtain ⟨text, ht⟩ := processMove_reject s m hok
    rw [ht]
    simpa [sendError, statsOf] using hl

theorem ledger_matchLoopOne (s : State) (m : Message) (updates : List (UserId × String))
    (hi : Inv s) (h : StartInv s) (hl : Ledger s updates)
    (h2 : (matchLoopOne s m).1.players.length ≤ 2) :
    Ledger (matchLoopOne s m).1 (updates ++ statsOf (matchLoopOne s m).2) := by
  unfold matchLoopOne at h2 ⊢
  split
  · rename_i hc
    rw [if_pos hc] at h2
    exact ledger_processMove s m updates hi h hl h2
  · simpa [statsOf] using hl

theorem runBatch_length {α : Type} (body : State → α → State × List Effect)
    (hmono : ∀ st x, st.players.length ≤ (body st x).1.players.length) :
    ∀ (xs : List α) (st : State), st.players.length ≤ (runBatch body st xs).1.players.length := by
  intro xs
  induction xs with
  | nil => intro st; exact le_refl _
  | cons x rest ih =>
    intro st
    simp only [runBatch]
    exact le_trans (hmono st x) (ih _)

/-- The record updates of a match, through a batch. -/
theorem ledger_runBatch {α : Type} (body : State → α → State × List Effect)
    (hinv : ∀ st x, Inv st ∧ StartInv st → Inv (body st x).1 ∧ StartInv (body st x).1)
    (hmono : ∀ st x, st.players.length ≤ (body st x).1.players.length)
    (hstep : ∀ st x updates, Inv st → StartInv st → Ledger st updates →
      (body st x).1.players.length ≤ 2 →
      Ledger (body st x).1 (updates ++ statsOf (body st x).2)) :
    ∀ (xs : List α) (st : State) (updates : List (UserId × String)),
      Inv st ∧ StartInv st → Ledger st updates →
      (runBatch body st xs).1.players.length ≤ 2 →
      Ledger (runBatch body st xs).1 (updates ++ statsOf (runBatch body st xs).2) := by
  intro xs
  induction xs with
  | nil =>
    intro st updates _ hl _
    simpa [runBatch, statsOf] using hl
  | cons x rest ih =>
    intro st updates hgood hl h2
    simp only [runBatch] at h2 ⊢
    have hmid : (body st x).1.players.length ≤ 2 :=
      le_trans (runBatch_length body hmono rest _) h2
    have h1 := hstep st x updates hgood.1 hgood.2 hl hmid
    have := ih (body st x).1 _ (hinv st x hgood) h1 h2
    rw [statsOf_append, ← List.append_assoc]
    exact this

theorem matchLoop_some_effects (s : State) (ms : List Message) (next : State)
    (hn : (matchLoop s ms).1 = some next) :
    ∃ k, next = (runBatch matchLoopOne { s with emptyTicks := k } ms).1 ∧
      (matchLoop s ms).2 = (runBatch matchLoopOne { s with emptyTicks := k } ms).2 := by
  unfold matchLoop at hn ⊢
  dsimp only at hn ⊢
  by_cases hp : (objKeys s.presences).length = 0
  · rw [if_pos hp] at hn ⊢
    split_ifs at hn ⊢
    · exact ⟨_, (Option.some.inj hn).symm, rfl⟩
  · rw [if_neg hp] at hn ⊢
    split_ifs at hn ⊢
    · exact ⟨_, (Option.some.inj hn).symm, rfl⟩

/-- The record updates of a whole run, as long as no third participant is
enrolled. -/
theorem ledger_run (start s : State) (effects : List Effect)
    (h0 : Inv start ∧ StartInv start) (hl0 : Ledger start [])
    (hrun : Run start s effects) :
    (Inv s ∧ StartInv s) ∧ start.players.length ≤ s.players.length ∧
      (s.players.length ≤ 2 → Ledger s (statsOf effects)) := by
  induction hrun with
  | refl => exact ⟨h0, le_refl _, fun _ => hl0⟩
  | joinAttempt state effects presence _ ih =>
    rw [matchJoinAttempt_state]; exact ih
  | join state effects presences _ ih =>
    obtain ⟨hgood, hlen, hled⟩ := ih
    have hmono := runBatch_length matchJoinOne matchJoinOne_length presences state
    refine ⟨allInv_matchJoin state presences hgood, le_trans hlen hmono, fun h2 => ?_⟩
    rw [statsOf_append]
    exact ledger_runBatch matchJoinOne
      (fun st x hst => ⟨inv_matchJoinOne st x hst.1, startInv_matchJoinOne st x hst.1 hst.2⟩)
      matchJoinOne_length
      (fun st x updates _ _ hl h => ledger_matchJoinOne st x updates hl h)
      presences state _ hgood (hled (le_trans hmono h2)) h2
  | leave state effects presences _ ih =>
    obtain ⟨hgood, hlen, hled⟩ := ih
    have hp := matchLeave_players state presences
    refine ⟨⟨inv_matchLeave state presences hgood.1,
      runBatch_preserves StartInv matchLeaveOne startInv_matchLeaveOne presences state hgood.2⟩,
      by rw [hp]; exact hlen, fun h2 => ?_⟩
    rw [statsOf_append]
    exact ledger_runBatch matchLeaveOne
      (fun st x hst => ⟨inv_matchLeaveOne st x hst.1, startInv_matchLeaveOne st x hst.2⟩)
      (fun st x => by rw [matchLeaveOne_players])
      ledger_matchLeaveOne
      presences state _ hgood (hled (by rw [hp] at h2; exact h2)) h2
  | loop state effects messages next _ hn ih =>
    obtain ⟨hgood, hlen, hled⟩ := ih
    have hp := matchLoop_players state messages next hn
    obtain ⟨k, hk, he⟩ := matchLoop_some_effects state messages next hn
    have hgoodk : Inv { state with emptyTicks := k } ∧ StartInv { state with emptyTicks := k } :=
      ⟨inv_emptyTicks state k hgood.1, startInv_emptyTicks state k hgood.2⟩
    refine ⟨⟨inv_matchLoop state messages next hgood.1 hn, ?_⟩,
      by rw [hp]; exact hlen, fun h2 => ?_⟩
    · rw [hk]
      exact runBatch_preserves StartInv matchLoopOne startInv_matchLoopOne messages _ hgoodk.2
    · rw [statsOf_append, he, hk]
      rw [hk] at h2
      exact ledger_runBatch matchLoopOne
        (fun st x hst => ⟨inv_matchLoopOne st x hst.1, startInv_matchLoopOne st x hst.2⟩)
        (fun st x => by rw [matchLoopOne_players])
        ledger_matchLoopOne
        messages _ _ hgoodk (hled (by rw [← hp, hk]; exact h2)) h2

/-! ## C20: the record updates of a session -/

/-- C20: along every run of a match in which no more than two participants
are enrolled, no record is updated while the game is not over; once it is
over there are two participants and each got exactly one update, "draw" for
both when the winner is `"draw"`, and otherwise "win" for the owner of the
winning symbol and "loss" for the other; no identifier is ever updated
twice. -/
theorem records_updated_once (params : Params) (now : Nat) (s : State)
    (effects : List Effect) (hrun : Run (matchInit params now).state s effects)
    (h2 : (objKeys s.players).length ≤ 2) :
    (s.gameOver = false → statsOf effects = []) ∧
    (s.gameOver = true → ∃ a b, objKeys s.players = [a, b] ∧ a ≠ b ∧
      ((s.winner = Val.draw ∧ statsOf effects = [(a, "draw"), (b, "draw")]) ∨
       (∃ w l, ((w = a ∧ l = b) ∨ (w = b ∧ l = a)) ∧ symbolOf s w = s.winner ∧
          s.winner ≠ Val.draw ∧
          (statsOf effects = [(w, "win"), (l, "loss")] ∨
            statsOf effects = [(l, "loss"), (w, "win")])))) ∧
    ∀ id, ((statsOf effects).filter (fun u => decide (u.1 = id))).length ≤ 1 := by
  have hl0 : Ledger (matchInit params now).state [] :=
    ⟨fun _ => rfl, fun hc => by simp [matchInit] at hc⟩
  have hled := (ledger_run _ s effects ⟨inv_init params now, startInv_init params now⟩ hl0
    hrun).2.2 (by simpa [objKeys] using h2)
  refine ⟨hled.1, hled.2, ?_⟩
  intro id
  cases ho : s.gameOver with
  | false => rw [hled.1 ho]; simp
  | true =>
    obtain ⟨a, b, _, hab, hcase⟩ := hled.2 ho
    have hba : ¬ b = a := fun x => hab x.symm
    rcases hcase with ⟨_, hs⟩ | ⟨w, l, hwl, _, _, hs⟩
    · rw [hs]
      by_cases e1 : a = id
      · have e2 : ¬ b = id := fun x => hab (e1.trans x.symm)
        simp [List.filter, e1, e2]
      · by_cases e2 : b = id <;> simp [List.filter, e1, e2]
    · have hwl2 : w ≠ l := by
        rcases hwl with c | c
        · rw [c.1, c.2]; exact hab
        · rw [c.1, c.2]; exact hba
      rcases hs with hs | hs <;> rw [hs]
      · by_cases e1 : w = id
        · have e2 : ¬ l = id := fun x => hwl2 (e1.trans x.symm)
          simp [List.filter, e1, e2]
        · by_cases e2 : l = id <;> simp [List.filter, e1, e2]
      · by_cases e1 : w = id
        · have e2 : ¬ l = id := fun x => hwl2 (e1.trans x.symm)
          simp [List.filter, e1, e2]
        · by_cases e2 : l = id <;> simp [List.filter, e1, e2]

/-- C20 at the session `alice` wins with the top row: one "win" for `alice`
and one "loss" for `bob`. -/
theorem records_updated_once_witness :
    Run (matchInit noParams 0).state wonState wonEffects ∧
    (objKeys wonState.players).length ≤ 2 ∧ wonState.gameOver = true ∧
    statsOf wonEffects = [(alice.userId, "win"), (bob.userId, "loss")] ∧
    ∀ id, ((statsOf wonEffects).filter (fun u => decide (u.1 = id))).length ≤ 1 :=
  ⟨Run.loop startedState _
      [moveMsg alice 0, moveMsg bob 3, moveMsg alice 1, moveMsg bob 4, moveMsg alice 2] wonState
      (Run.join lobbyState [] [alice, bob] Run.refl) (by decide),
    by decide, by decide, by decide,
    (records_updated_once noParams 0 wonState wonEffects
      (Run.loop startedState _
        [moveMsg alice 0, moveMsg bob 3, moveMsg alice 1, moveMsg bob 4, moveMsg alice 2]
        wonState (Run.join lobbyState [] [alice, bob] Run.refl) (by decide))
      (by decide)).2.2⟩

theorem insertByCompare_perm {α : Type} (compare : α → α → Int) (a : α) (l : List α) :
    (insertByCompare compare a l).Perm (a :: l) := by
  induction l with
  | nil => exact List.Perm.refl _
  | cons b rest ih =>
    simp only [insertByCompare]
    split
    · exact List.Perm.refl _
    · exact (List.Perm.cons b ih).trans (List.Perm.swap a b rest)

theorem sortByCompare_perm {α : Type} (compare : α → α → Int) (l : List α) :
    (sortByCompare compare l).Perm l := by
  induction l with
  | nil => exact List.Perm.refl _
  | cons a rest ih =>
    simp only [sortByCompare]
    exact (insertByCompare_perm compare a _).trans (List.Perm.cons a ih)

theorem insertByCompare_sorted (a : LeaderboardEntry) (l : List LeaderboardEntry)
    (h : l.Pairwise (fun x y => y.rating ≤ x.rating)) :
    (insertByCompare compareRating a l).Pairwise (fun x y => y.rating ≤ x.rating) := by
  induction l with
  | nil => simp [insertByCompare]
  | cons b rest ih =>
    simp only [insertByCompare]
    rw [List.pairwise_cons] at h
    split
    · rename_i hc
      simp only [compareRating] at hc
      refine List.pairwise_cons.mpr ⟨?_, List.pairwise_cons.mpr h⟩
      intro y hy
      rcases List.mem_cons.mp hy with e | e
      · rw [e]; omega
      · have := h.1 y e
        omega
    · rename_i hc
      simp only [compareRating] at hc
      refine List.pairwise_cons.mpr ⟨?_, ih h.2⟩
      intro y hy
      rcases List.mem_cons.mp ((insertByCompare_perm compareRating a rest).mem_iff.mp hy)
        with e | e
      · rw [e]; omega
      · exact h.1 y e

theorem sortByCompare_sorted (l : List LeaderboardEntry) :
    (sortByCompare compareRating l).Pairwise (fun x y => y.rating ≤ x.rating) := by
  induction l with
  | nil => simp [sortByCompare]
  | cons a rest ih => exact insertByCompare_sorted a _ ih

/-- The sort is stable: the entries of one rating come out in the order they
came in. -/
theorem insertByCompare_filter (a : LeaderboardEntry) (l : List LeaderboardEntry) (r : Int) :
    (insertByCompare compareRating a l).filter (fun e => decide (e.rating = r)) =
      (a :: l).filter (fun e => decide (e.rating = r)) := by
  induction l with
  | nil => rfl
  | cons b rest ih =>
    simp only [insertByCompare]
    split
    · rfl
    · rename_i hc
      simp only [compareRating] at hc
      by_cases ha : a.rating = r
      · have hb : ¬ b.rating = r := by omega
        simp only [List.filter_cons, ha, hb, decide_True, decide_False, if_true] at ih ⊢
        simpa using ih
      · simp only [List.filter_cons, ha, decide_False] at ih ⊢
        split <;> simp [ih]

theorem sortByCompare_filter (l : List LeaderboardEntry) (r : Int) :
    (sortByCompare compareRating l).filter (fun e => decide (e.rating = r)) =
      l.filter (fun e => decide (e.rating = r)) := by
  induction l with
  | nil => rfl
  | cons a rest ih =>
    simp only [sortByCompare]
    rw [insertByCompare_filter, List.filter_cons, List.filter_cons, ih]

theorem assignRanks_unranked (l : List LeaderboardEntry) (j : Nat) :
    (assignRanks j l).map LeaderboardEntry.unranked = l.map LeaderboardEntry.unranked := by
  induction l generalizing j with
  | nil => rfl
  | cons e rest ih => simp [assignRanks, LeaderboardEntry.unranked, ih]

theorem assignRanks_rank (l : List LeaderboardEntry) (j i : Nat) (e : LeaderboardEntry)
    (h : (assignRanks j l)[i]? = some e) : e.rank = some (j + i + 1) := by
  induction l generalizing j i with
  | nil => simp [assignRanks] at h
  | cons x rest ih =>
    cases i with
    | zero =>
      simp only [assignRanks, List.getElem?_cons_zero, Option.some.injEq] at h
      rw [← h]
    | succ k =>
      simp only [assignRanks, List.getElem?_cons_succ] at h
      have := ih (j + 1) k h
      rw [this]
      congr 1
      omega

theorem assignRanks_pairwise (l : List LeaderboardEntry) (j : Nat)
    (h : l.Pairwise (fun x y => y.rating ≤ x.rating)) :
    (assignRanks j l).Pairwise (fun x y => y.rating ≤ x.rating) := by
  have hmap : ∀ (l : List LeaderboardEntry) (j : Nat),
      (assignRanks j l).map (fun e => e.rating) = l.map (fun e => e.rating) := by
    intro l
    induction l with
    | nil => intro j; rfl
    | cons e rest ih => intro j; simp [assignRanks, ih]
  have h1 : (l.map (fun e => e.rating)).Pairwise (fun x y => y ≤ x) :=
    List.pairwise_map.mpr h
  rw [← hmap l j] at h1
  exact List.pairwise_map.mp h1

theorem assignRanks_filter (l : List LeaderboardEntry) (j : Nat) (r : Int) :
    ((assignRanks j l).filter (fun e => decide (e.rating = r))).map LeaderboardEntry.unranked =
      (l.filter (fun e => decide (e.rating = r))).map LeaderboardEntry.unranked := by
  induction l generalizing j with
  | nil => rfl
  | cons e rest ih =>
    simp only [assignRanks, List.filter_cons]
    split <;> simp [LeaderboardEntry.unranked, ih]

theorem unranked_entryOf (usersGetId : UserId → UserLookup) (l : List StorageObject) :
    (l.map (entryOf usersGetId)).map LeaderboardEntry.unranked = l.map (entryOf usersGetId) := by
  induction l with
  | nil => rfl
  | cons x rest _ => simp [LeaderboardEntry.unranked, entryOf]

theorem rpcGetLeaderboard_ok (storageList : Nat → Option (List StorageObject))
    (usersGetId : UserId → UserLookup) (payload : LeaderboardPayload)
    (objects : List StorageObject) (hp : payload ≠ LeaderboardPayload.throws)
    (hs : ∀ limit, storageList limit = some objects) :
    rpcGetLeaderboard storageList usersGetId payload =
      { success := true
        leaderboard := assignRanks 0 (sortByCompare compareRating
          (objects.map (entryOf usersGetId)))
        count := some (assignRanks 0 (sortByCompare compareRating
          (objects.map (entryOf usersGetId)))).length } := by
  cases payload with
  | throws => exact absurd rfl hp
  | absent => simp [rpcGetLeaderboard, hs]
  | parsed limit => simp [rpcGetLeaderboard, hs]

/-! ## C21: the leaderboard is sorted, stable and ranked -/

/-- C21: when the scan returns `objects`, the leaderboard holds the entries
built from them, each once; it is in non-increasing order of rating; the
entries of one rating are in scan order; and the entry at position `j` has
rank `j + 1`. -/
theorem rpcGetLeaderboard_sorted (storageList : Nat → Option (List StorageObject))
    (usersGetId : UserId → UserLookup) (payload : LeaderboardPayload)
    (objects : List StorageObject) (hp : payload ≠ LeaderboardPayload.throws)
    (hs : ∀ limit, storageList limit = some objects) :
    (((rpcGetLeaderboard storageList usersGetId payload).leaderboard.map
        LeaderboardEntry.unranked).Perm (objects.map (entryOf usersGetId))) ∧
    (rpcGetLeaderboard storageList usersGetId payload).leaderboard.Pairwise
      (fun x y => y.rating ≤ x.rating) ∧
    (∀ r : Int,
      ((rpcGetLeaderboard storageList usersGetId payload).leaderboard.filter
          (fun e => decide (e.rating = r))).map LeaderboardEntry.unranked =
        (objects.map (entryOf usersGetId)).filter (fun e => decide (e.rating = r))) ∧
    (∀ j e, (rpcGetLeaderboard storageList usersGetId payload).leaderboard[j]? = some e →
      e.rank = some (j + 1)) := by
  rw [rpcGetLeaderboard_ok storageList usersGetId payload objects hp hs]
  dsimp only
  refine ⟨?_, ?_, ?_, ?_⟩
  · rw [assignRanks_unranked]
    have h1 := (sortByCompare_perm compareRating (objects.map (entryOf usersGetId))).map
      LeaderboardEntry.unranked
    rw [unranked_entryOf] at h1
    exact h1
  · exact assignRanks_pairwise _ _ (sortByCompare_sorted _)
  · intro r
    rw [assignRanks_filter, sortByCompare_filter]
    have : ∀ l : List StorageObject,
        ((l.map (entryOf usersGetId)).filter (fun e => decide (e.rating = r))).map
          LeaderboardEntry.unranked =
        (l.map (entryOf usersGetId)).filter (fun e => decide (e.rating = r)) := by
      intro l
      induction l with
      | nil => rfl
      | cons x rest ih =>
        simp only [List.map_cons, List.filter_cons]
        split
        · simp only [List.map_cons, ih]
          rfl
        · exact ih
    exact this objects
  · intro j e h
    have := assignRanks_rank _ 0 j e h
    rw [this]
    congr 1
    omega

/-- C21 at the ratings 1200, 1250, 1150: they come back as 1250, 1200, 1150
with the ranks 1, 2, 3. -/
theorem rpcGetLeaderboard_sorted_witness :
    (rpcGetLeaderboard (fun _ => some scannedThree) nobody
      LeaderboardPayload.absent).leaderboard.map (fun e => (e.odId, e.rating, e.rank)) =
      [("bob-id", 1250, some 1), ("alice-id", 1200, some 2), ("carol-id", 1150, some 3)] ∧
    (rpcGetLeaderboard (fun _ => some scannedThree) nobody
      LeaderboardPayload.absent).leaderboard.Pairwise (fun x y => y.rating ≤ x.rating) :=
  ⟨by decide,
    (rpcGetLeaderboard_sorted (fun _ => some scannedThree) nobody LeaderboardPayload.absent
      scannedThree (by decide) (fun _ => rfl)).2.1⟩

/-- The rating after `n` losses in a row. -/
theorem rating_after_losses (odId : UserId) (n : Nat) (storage : Storage)
    (h0 : 0 ≤ (readStats storage odId).rating) :
    (readStats (updateAll odId storage (List.replicate n (some "loss"))) odId).rating =
      max 0 ((readStats storage odId).rating - 20 * n) := by
  induction n generalizing storage with
  | zero => simp [updateAll, max_eq_right h0]
  | succ k ih =>
    have hstep : (readStats (updatePlayerStats storage odId (some "loss")) odId).rating =
        max 0 ((readStats storage odId).rating - 20) := by
      rw [readStats_update]
      simp [applyResult]
    have h1 : 0 ≤ (readStats (updatePlayerStats storage odId (some "loss")) odId).rating := by
      rw [hstep]; exact le_max_left _ _
    have := ih (updatePlayerStats storage odId (some "loss")) h1
    simp only [updateAll, List.replicate_succ, List.foldl_cons] at this ⊢
    rw [this, hstep]
    push_cast
    omega

/-! ## C22: the rating a leaderboard entry reports -/

/-- C22: sixty losses in a row bring a new record to the rating 0; and for a
scan of `alice` with the persisted rating 0 and `bob` with 100, the
leaderboard reports 1200 for `alice` and puts her first, with rank 1, before
`bob`. -/
theorem rpcGetLeaderboard_floor_rating :
    (readStats (updateAll "alice-id" [] (List.replicate 60 (some "loss"))) "alice-id").rating
      = 0 ∧
    scannedFloor.map (fun obj => (obj.userId, obj.value.rating)) =
      [("alice-id", 0), ("bob-id", 100)] ∧
    (rpcGetLeaderboard (fun _ => some scannedFloor) nobody
      LeaderboardPayload.absent).leaderboard.map (fun e => (e.odId, e.rating, e.rank)) =
      [("alice-id", 1200, some 1), ("bob-id", 100, some 2)] := by
  refine ⟨?_, by decide, by decide⟩
  rw [rating_after_losses "alice-id" 60 [] (by decide)]
  decide

theorem makeMove_idle (s : State) (m : Message) (p : Position) :
    (makeMove s m p).1.presences = s.presences ∧
    (makeMove s m p).1.emptyTicks = s.emptyTicks := by
  unfold makeMove
  dsimp only
  split_ifs
  · exact ⟨rfl, rfl⟩
  · exact ⟨rfl, rfl⟩
  · unfold switchTurn
    dsimp only
    split <;> exact ⟨rfl, rfl⟩

theorem processMove_idle (s : State) (m : Message) :
    (processMove s m).1.presences = s.presences ∧
    (processMove s m).1.emptyTicks = s.emptyTicks := by
  by_cases hok : ∃ n, MoveOk s m n
  · obtain ⟨n, hn⟩ := hok
    rw [processMove_accept s m n hn]
    exact makeMove_idle s m _
  · obtain ⟨text, ht⟩ := processMove_reject s m hok
    rw [ht]
    exact ⟨rfl, rfl⟩

theorem matchLoopOne_idle (s : State) (m : Message) :
    (matchLoopOne s m).1.presences = s.presences ∧
    (matchLoopOne s m).1.emptyTicks = s.emptyTicks := by
  unfold matchLoopOne
  split
  · exact processMove_idle s m
  · exact ⟨rfl, rfl⟩

theorem runBatch_matchLoopOne_idle (ms : List Message) (s : State) :
    (runBatch matchLoopOne s ms).1.presences = s.presences ∧
    (runBatch matchLoopOne s ms).1.emptyTicks = s.emptyTicks :=
  runBatch_preserves
    (fun st => st.presences = s.presences ∧ st.emptyTicks = s.emptyTicks) matchLoopOne
    (fun st x hst => ⟨(matchLoopOne_idle st x).1.trans hst.1,
      (matchLoopOne_idle st x).2.trans hst.2⟩) ms s ⟨rfl, rfl⟩

/-- A tick without a connected presence. -/
theorem matchLoop_empty (s : State) (ms : List Message)
    (he : (objKeys s.presences).length = 0) :
    ((matchLoop s ms).1 = none ↔ 60 ≤ s.emptyTicks) ∧
    ∀ next, (matchLoop s ms).1 = some next →
      next.emptyTicks = s.emptyTicks + 1 ∧ next.presences = s.presences := by
  unfold matchLoop
  dsimp only
  rw [if_pos he]
  by_cases h60 : 60 ≤ s.emptyTicks
  · rw [if_pos ⟨he, by show s.emptyTicks + 1 > 60; omega⟩]
    exact ⟨⟨fun _ => h60, fun _ => rfl⟩, fun next hn => by simp at hn⟩
  · rw [if_neg (fun hc => h60 (by
      have h := hc.2
      change s.emptyTicks + 1 > 60 at h
      omega))]
    refine ⟨⟨fun hc => by simp at hc, fun hc => absurd hc h60⟩, ?_⟩
    intro next hn
    have := Option.some.inj hn
    rw [← this]
    have hidle := runBatch_matchLoopOne_idle ms { s with emptyTicks := s.emptyTicks + 1 }
    exact ⟨hidle.2, hidle.1⟩

/-- A tick with a connected presence. -/
theorem matchLoop_connected (s : State) (ms : List Message)
    (hc : (objKeys s.presences).length ≠ 0) :
    ∃ next, (matchLoop s ms).1 = some next ∧ next.emptyTicks = 0 := by
  unfold matchLoop
  dsimp only
  rw [if_neg hc, if_neg (fun h => hc h.1)]
  exact ⟨_, rfl, (runBatch_matchLoopOne_idle ms { s with emptyTicks := 0 }).2⟩

theorem runTicks_empty (batches : List (List Message)) (s : State)
    (he : (objKeys s.presences).length = 0) (hle : s.emptyTicks ≤ 60) :
    (runTicks s batches = none ↔ 60 < s.emptyTicks + batches.length) ∧
    ∀ t, runTicks s batches = some t → t.emptyTicks = s.emptyTicks + batches.length := by
  induction batches generalizing s with
  | nil =>
    simp only [runTicks, List.length_nil, Nat.add_zero]
    refine ⟨⟨fun hc => by simp at hc, fun hc => ?_⟩, fun t ht => ?_⟩
    · omega
    · rw [← Option.some.inj ht]
  | cons ms rest ih =>
    obtain ⟨h1, h2⟩ := matchLoop_empty s ms he
    simp only [runTicks, List.length_cons]
    cases hm : (matchLoop s ms).1 with
    | none =>
      have := h1.mp hm
      exact ⟨⟨fun _ => by omega, fun _ => rfl⟩, fun t ht => by simp at ht⟩
    | some next =>
      obtain ⟨e1, e2⟩ := h2 next hm
      have hne : (objKeys next.presences).length = 0 := by rw [e2]; exact he
      have hlt : ¬ 60 ≤ s.emptyTicks := fun hc => by
        have := h1.mpr hc
        rw [hm] at this
        simp at this
      obtain ⟨i1, i2⟩ := ih next hne (by rw [e1]; omega)
      dsimp only
      refine ⟨?_, fun t ht => ?_⟩
      · rw [i1, e1]
        constructor <;> intro <;> omega
      · rw [i2 t ht, e1]
        omega

/-! ## C23: the idle sweep -/

/-- C23: a tick with no connected presence adds one to `emptyTicks` and
returns `null` exactly when the counter was already at 60 or more; a tick with
a connected presence sets the counter to 0 and does not return `null`; and
from a counter of 0, consecutive ticks with no connected presence return `null`
exactly when their number exceeds 60, so on the 61st tick and on no earlier
one. -/
theorem matchLoop_idle_sweep (s : State) (ms : List Message)
    (batches : List (List Message)) :
    ((objKeys s.presences).length = 0 →
      ((matchLoop s ms).1 = none ↔ 60 ≤ s.emptyTicks) ∧
      ∀ next, (matchLoop s ms).1 = some next → next.emptyTicks = s.emptyTicks + 1) ∧
    ((objKeys s.presences).length ≠ 0 →
      ∃ next, (matchLoop s ms).1 = some next ∧ next.emptyTicks = 0) ∧
    ((objKeys s.presences).length = 0 → s.emptyTicks = 0 →
      (runTicks s batches = none ↔ 61 ≤ batches.length) ∧
      ∀ t, runTicks s batches = some t → t.emptyTicks = batches.length) := by
  refine ⟨fun he => ?_, fun hc => matchLoop_connected s ms hc, fun he h0 => ?_⟩
  · obtain ⟨h1, h2⟩ := matchLoop_empty s ms he
    exact ⟨h1, fun next hn => (h2 next hn).1⟩
  · obtain ⟨h1, h2⟩ := runTicks_empty batches s he (by omega)
    rw [h0] at h1 h2
    refine ⟨?_, fun t ht => by rw [h2 t ht]; omega⟩
    rw [h1]
    constructor <;> intro <;> omega

/-- The line `checkWin` returns is the first line of `WIN_CONDITIONS` that
holds the symbol. -/
theorem checkWin_line (board : List Val) (symbol : Val)
    (h : (checkWin board symbol).won = true) :
    ∃ c, (checkWin board symbol).line = some c ∧ lineHolds board symbol c = true ∧
      ∃ before after, WIN_CONDITIONS = before ++ c :: after ∧
        ∀ c2 ∈ before, lineHolds board symbol c2 = false := by
  unfold checkWin at h ⊢
  cases hf : WIN_CONDITIONS.find? (lineHolds board symbol) with
  | none => rw [hf] at h; simp at h
  | some c =>
    obtain ⟨hc, before, after, hsplit, hbefore⟩ := List.find?_eq_some.mp hf
    refine ⟨c, rfl, hc, before, after, hsplit, ?_⟩
    intro c2 hc2
    have := hbefore c2 hc2
    simpa using this

/-- The effects of a winning move. -/
theorem makeMove_win_effects (s : State) (m : Message) (n : Nat)
    (hw : (checkWin (s.board.set n (symbolOf s m.sender.userId))
      (symbolOf s m.sender.userId)).won = true) :
    ∃ updates, statsOf updates = updates.filterMap (fun e =>
        match e with
        | Effect.stats u r => some (u, r)
        | _ => none) ∧
      (∀ e ∈ updates, ∃ u r, e = Effect.stats u r) ∧
      (makeMove s m (Position.num (n : ℚ))).2 = updates ++
        broadcastToAll (makeMove s m (Position.num (n : ℚ))).1 OpCode.GAME_OVER
          (Msg.gameOverWin (symbolOf s m.sender.userId)
            (s.board.set n (symbolOf s m.sender.userId))
            (checkWin (s.board.set n (symbolOf s m.sender.userId))
              (symbolOf s m.sender.userId)).line) := by
  unfold makeMove
  dsimp only
  rw [boardWrite_natCast, if_pos hw]
  refine ⟨_, ?_, ?_, rfl⟩
  · generalize objKeys s.players = keys
    induction keys with
    | nil => rfl
    | cons k rest ih =>
      simp only [List.map_cons, List.filterMap_cons]
      split <;> simp [statsOf, ih]
  · intro e he
    obtain ⟨pid, _, hpid⟩ := List.mem_map.mp he
    rw [← hpid]
    split
    · exact ⟨_, _, rfl⟩
    · exact ⟨_, _, rfl⟩

/-! ## C26: the winning line -/

/-- C26: when an accepted move wins, `checkWin` returns a line of
`WIN_CONDITIONS` whose three cells on the new board hold the mover's symbol,
the first such line in the order of `WIN_CONDITIONS` (rows, columns,
diagonals); the winner is that symbol; every `game_over` message of the move
carries that line, that symbol and the new board; and the message is sent
when a presence is connected. -/
theorem processMove_winningLine (s : State) (m : Message) (n : Nat) (hok : MoveOk s m n)
    (hw : (checkWin (processMove s m).1.board (symbolOf s m.sender.userId)).won = true) :
    ∃ c, c ∈ WIN_CONDITIONS ∧
      cell (processMove s m).1.board c.1 = symbolOf s m.sender.userId ∧
      cell (processMove s m).1.board c.2.1 = symbolOf s m.sender.userId ∧
      cell (processMove s m).1.board c.2.2 = symbolOf s m.sender.userId ∧
      (∃ before after, WIN_CONDITIONS = before ++ c :: after ∧
        ∀ c2 ∈ before,
          lineHolds (processMove s m).1.board (symbolOf s m.sender.userId) c2 = false) ∧
      (processMove s m).1.winner = symbolOf s m.sender.userId ∧
      (processMove s m).1.gameOver = true ∧
      (∀ o w b line rcp,
        Effect.broadcast o (Msg.gameOverWin w b line) rcp ∈ (processMove s m).2 →
        line = some c ∧ w = symbolOf s m.sender.userId ∧ b = (processMove s m).1.board) ∧
      (s.presences ≠ [] →
        Effect.broadcast OpCode.GAME_OVER
          (Msg.gameOverWin (symbolOf s m.sender.userId) (processMove s m).1.board (some c))
          (s.presences.map Prod.snd) ∈ (processMove s m).2) := by
  have hpres : (processMove s m).1.presences = s.presences := (processMove_idle s m).1
  rw [processMove_accept s m n hok] at hw hpres ⊢
  rw [makeMove_board] at hw ⊢
  obtain ⟨c, hline, hholds, before, after, hsplit, hbefore⟩ := checkWin_line _ _ hw
  obtain ⟨h1, h2, h3⟩ := (lineHolds_iff _ _ _).mp hholds
  obtain ⟨updates, _, hup, heff⟩ := makeMove_win_effects s m n hw
  refine ⟨c, ?_, h1, h2, h3, ⟨before, after, hsplit, hbefore⟩, ?_, ?_, ?_, ?_⟩
  · rw [hsplit]; simp
  · rw [makeMove_winner, if_pos hw]
  · unfold makeMove
    dsimp only
    rw [boardWrite_natCast, if_pos hw]
  · intro o w b line rcp hmem
    rw [heff] at hmem
    rcases List.mem_append.mp hmem with hm | hm
    · obtain ⟨u, r, hur⟩ := hup _ hm
      cases hur
    · unfold broadcastToAll at hm
      dsimp only at hm
      split at hm
      · simp only [List.mem_singleton, Effect.broadcast.injEq, Msg.gameOverWin.injEq] at hm
        obtain ⟨_, ⟨hw2, hb2, hl2⟩, _⟩ := hm
        exact ⟨by rw [hl2, hline], hw2, hb2⟩
      · simp at hm
  · intro hne
    rw [heff]
    apply List.mem_append_right
    unfold broadcastToAll
    dsimp only
    rw [hpres, hline]
    rw [if_pos (by
      cases hp : s.presences with
      | nil => exact absurd hp hne
      | cons x rest => simp)]
    exact List.mem_singleton.mpr rfl

/-- C26 at the moves 0, 3, 1, 4, 2: the fifth move wins for `X` and the
message carries the line 0, 1, 2. -/
theorem processMove_winningLine_witness :
    MoveOk midState (moveMsg alice 2) 2 ∧
    (processMove midState (moveMsg alice 2)).1.winner = Val.X ∧
    (processMove midState (moveMsg alice 2)).1.gameOver = true ∧
    Effect.broadcast OpCode.GAME_OVER
      (Msg.gameOverWin Val.X (processMove midState (moveMsg alice 2)).1.board (some (0, 1, 2)))
      [alice, bob] ∈ (processMove midState (moveMsg alice 2)).2 ∧
    ∃ c, c ∈ WIN_CONDITIONS ∧
      cell (processMove midState (moveMsg alice 2)).1.board c.1 =
        symbolOf midState (moveMsg alice 2).sender.userId :=
  ⟨by decide, by decide, by decide, by decide,
    (processMove_winningLine midState (moveMsg alice 2) 2 (by decide) (by decide)).imp
      (fun _ h => ⟨h.1, h.2.1⟩)⟩

/-- The decision of `matchJoinAttempt` in a state in which the game is started
only with 2 or more participants. -/
theorem matchJoinAttempt_cases (s : State) (p : Presence)
    (hst : s.gameStarted = true → 2 ≤ (objKeys s.players).length) :
    ((matchJoinAttempt s p).accept, (matchJoinAttempt s p).rejectMessage) =
      if (objGet s.players p.userId).isSome = true then (true, none)
      else if (objKeys s.players).length ≥ 2 then (false, some "Match is full")
      else (true, none) := by
  unfold matchJoinAttempt
  dsimp only
  by_cases hk : (objGet s.players p.userId).isSome = true
  · rw [if_pos hk, if_pos hk]
  · rw [if_neg hk, if_neg hk]
    by_cases hfull : (objKeys s.players).length ≥ 2
    · rw [if_pos hfull, if_pos hfull]
    · rw [if_neg hfull, if_neg hfull, if_neg (fun hc => hfull (hst hc.1))]

/-! ## C28: admission in reachable states -/

/-- C28: in every reachable state the game is started only if there are 2 or
more participants; hence a rejection by `matchJoinAttempt` always carries
"Match is full", never "Game already started", and the decision is the same
whatever the list `invited` holds. -/
theorem matchJoinAttempt_only_full (s : State) (hr : Reachable s) :
    (s.gameStarted = true → 2 ≤ (objKeys s.players).length) ∧
    ∀ p : Presence,
      ((matchJoinAttempt s p).accept = false →
        (matchJoinAttempt s p).rejectMessage = some "Match is full") ∧
      (matchJoinAttempt s p).rejectMessage ≠ some "Game already started" ∧
      ∀ invited : List UserId,
        (matchJoinAttempt { s with invited := invited } p).accept =
          (matchJoinAttempt s p).accept ∧
        (matchJoinAttempt { s with invited := invited } p).rejectMessage =
          (matchJoinAttempt s p).rejectMessage := by
  have h := startInv_reachable s hr
  have hlen : (objKeys s.players).length = s.players.length := by simp [objKeys]
  have hst : s.gameStarted = true → 2 ≤ (objKeys s.players).length := by
    intro hs
    rw [hlen]
    exact h.started_iff.mp hs
  refine ⟨hst, fun p => ?_⟩
  have h1 := matchJoinAttempt_cases s p hst
  have h2 : ∀ invited : List UserId,
      ((matchJoinAttempt { s with invited := invited } p).accept,
        (matchJoinAttempt { s with invited := invited } p).rejectMessage) =
      ((matchJoinAttempt s p).accept, (matchJoinAttempt s p).rejectMessage) := by
    intro invited
    rw [h1]
    exact matchJoinAttempt_cases { s with invited := invited } p hst
  refine ⟨?_, ?_, fun invited => ⟨congrArg Prod.fst (h2 invited),
    congrArg Prod.snd (h2 invited)⟩⟩
  · intro hacc
    have ha := congrArg Prod.fst h1
    have hm := congrArg Prod.snd h1
    dsimp only at ha hm
    rw [hm]
    rw [hacc] at ha
    by_cases hk : (objGet s.players p.userId).isSome = true
    · rw [if_pos hk] at ha
      exact absurd ha (by decide)
    · rw [if_neg hk] at ha ⊢
      by_cases hfull : (objKeys s.players).length ≥ 2
      · rw [if_pos hfull]
      · rw [if_neg hfull] at ha
        exact absurd ha (by decide)
  · have hm := congrArg Prod.snd h1
    dsimp only at hm
    rw [hm]
    by_cases hk : (objGet s.players p.userId).isSome = true
    · rw [if_pos hk]
      intro hc
      exact Option.noConfusion hc
    · rw [if_neg hk]
      by_cases hfull : (objKeys s.players).length ≥ 2
      · rw [if_pos hfull]
        decide
      · rw [if_neg hfull]
        intro hc
        exact Option.noConfusion hc

/-- C28 at the started session, asked by `carol`. -/
theorem matchJoinAttempt_only_full_witness :
    Reachable startedState ∧ startedState.gameStarted = true ∧
    (matchJoinAttempt startedState carol).accept = false ∧
    (matchJoinAttempt startedState carol).rejectMessage = some "Match is full" :=
  ⟨reachable_startedState, by decide, by decide,
    ((matchJoinAttempt_only_full startedState reachable_startedState).2 carol).1 (by decide)⟩

theorem countP_set_null (p : Val → Bool) (l : List Val) (n : Nat) (v : Val)
    (h : cell l n = Val.null) (hp : p Val.null = false) :
    (l.set n v).countP p = l.countP p + if p v = true then 1 else 0 := by
  induction l generalizing n with
  | nil => simp [cell] at h
  | cons hd tl ih =>
    cases n with
    | zero =>
      simp [cell] at h
      subst h
      simp only [List.set_cons_zero, List.countP_cons, hp]
      simp
    | succ k =>
      have h2 : cell tl k = Val.null := by simpa [cell] using h
      have := ih k h2
      simp only [List.set_cons_succ, List.countP_cons, this]
      omega

theorem matchJoinOne_board (s : State) (p : Presence) :
    (matchJoinOne s p).1.board = s.board := by
  by_cases hk : p.userId ∈ objKeys s.players
  · rw [matchJoinOne_reconnect s p hk]
  · rw [matchJoinOne_new s p hk]
    split
    · rw [startGame_state]; rfl
    · rfl

theorem turnInv_init (params : Params) (now : Nat) : TurnInv (matchInit params now).state := by
  refine ⟨Or.inl ?_, fun _ => ⟨?_, ?_⟩, fun hc => ?_⟩
  · simp [matchInit, countX, countO]
  · simp [matchInit, countX]
  · simp [matchInit, countO]
  · simp [matchInit] at hc

theorem turnInv_emptyTicks (s : State) (n : Nat) (h : TurnInv s) :
    TurnInv { s with emptyTicks := n } :=
  { h with }

theorem turnInv_matchJoinOne (s : State) (p : Presence) (hi : Inv s) (h : StartInv s)
    (ht : TurnInv s) : TurnInv (matchJoinOne s p).1 := by
  have hboard := matchJoinOne_board s p
  have hover := matchJoinOne_gameOver s p
  by_cases hst : s.gameStarted = true
  · have h2 : 2 ≤ s.players.length := h.started_iff.mp hst
    obtain ⟨hsame, hstarted⟩ := matchJoinOne_full s p h2
    have hplayers : ∀ i, i < 2 → (matchJoinOne s p).1.players[i]? = s.players[i]? := by
      intro i hi2
      rw [matchJoinOne_players]
      split
      · rfl
      · rw [List.getElem?_append_left (by omega)]
    refine ⟨by rw [hboard]; exact ht.counts, fun hc => ?_, fun _ hno => ?_⟩
    · rw [hstarted, hst] at hc
      simp at hc
    · rw [hboard, hsame.2.2.2.2.2, hsame.2.2.2.2.1, hplayers 0 (by omega), hplayers 1 (by omega)]
      exact ht.turn hst (by rw [← hover]; exact hno)
  · have hns : s.gameStarted = false := by simpa using hst
    have hq : OpeningTurn s := fun hc => absurd hc hst
    have hopen := openingTurn_matchJoinOne s p hi h hq
    obtain ⟨hx, ho⟩ := ht.fresh hns
    refine ⟨by rw [hboard]; exact ht.counts, fun _ => by rw [hboard]; exact ⟨hx, ho⟩,
      fun hc _ => Or.inl ?_⟩
    obtain ⟨hsym, hkv⟩ := hopen hc
    rw [hboard, hx, ho]
    exact ⟨hsym, rfl, hkv⟩

theorem matchLeaveOne_shape (s : State) (p : Presence) :
    (matchLeaveOne s p).1 = { s with presences := objDelete s.presences p.userId } ∨
    ∃ w, (matchLeaveOne s p).1 = { s with
      presences := objDelete s.presences p.userId, gameOver := true, winner := w } := by
  unfold matchLeaveOne
  dsimp only
  split
  · split
    · exact Or.inr ⟨_, rfl⟩
    · exact Or.inl rfl
  · exact Or.inl rfl

theorem turnInv_matchLeaveOne (s : State) (p : Presence) (ht : TurnInv s) :
    TurnInv (matchLeaveOne s p).1 := by
  rcases matchLeaveOne_shape s p with e | ⟨w, e⟩
  · rw [e]
    exact { ht with }
  · rw [e]
    exact { ht with turn := fun _ hc => by simp at hc }

theorem makeMove_shape (s : State) (m : Message) (n : Nat) :
    (∃ w, (makeMove s m (Position.num (n : ℚ))).1 = { s with
        board := s.board.set n (symbolOf s m.sender.userId)
        moveCount := s.moveCount + 1
        gameOver := true
        winner := w }) ∨
    (makeMove s m (Position.num (n : ℚ))).1 = switchTurn { s with
        board := s.board.set n (symbolOf s m.sender.userId)
        moveCount := s.moveCount + 1 } m.sender.userId (symbolOf s m.sender.userId) := by
  unfold makeMove
  dsimp only
  rw [boardWrite_natCast]
  split_ifs
  · exact Or.inl ⟨_, rfl⟩
  · exact Or.inl ⟨_, rfl⟩
  · exact Or.inr rfl

theorem switchTurn_state (s : State) (senderId : UserId) (symbol : Val) (id : UserId)
    (h : firstOther (objKeys s.playerSymbols) senderId = some id) :
    switchTurn s senderId symbol = { s with
      currentSymbol := if symbol = Val.X then Sym.O else Sym.X
      currentTurn := some id } := by
  unfold switchTurn
  dsimp only
  rw [h]

theorem first_two (s : State) (hi : Inv s) (h : StartInv s) (hs : s.gameStarted = true) :
    ∃ a pa b pb rest, s.players = (a, pa) :: (b, pb) :: rest ∧ a ≠ b ∧
      symbolOf s a = Val.X ∧ symbolOf s b = Val.O ∧
      firstOther (objKeys s.playerSymbols) a = some b ∧
      firstOther (objKeys s.playerSymbols) b = some a := by
  have h2 := h.started_iff.mp hs
  match hp : s.players with
  | (a, pa) :: (b, pb) :: rest =>
    have hnd := hi.keys_nodup
    rw [hp] at hnd
    have hab : a ≠ b := by
      intro e
      simp [objKeys, e] at hnd
    have hba : b ≠ a := fun e => hab e.symm
    have hkeys : objKeys s.playerSymbols = a :: b :: objKeys rest := by
      rw [hi.keys_eq, hp]; rfl
    refine ⟨a, pa, b, pb, rest, rfl, hab, ?_, ?_, ?_, ?_⟩
    · exact (symbolOf_index s hi h 0 (a, pa) (by rw [hp]; simp)).2
    · exact (symbolOf_index s hi h 1 (b, pb) (by rw [hp]; simp)).2
    · rw [hkeys]
      simp [firstOther, hba]
    · rw [hkeys]
      simp [firstOther, hab]
  | [] => rw [hp] at h2; simp at h2
  | [_] => rw [hp] at h2; simp at h2

theorem turnInv_makeMove (s : State) (m : Message) (n : Nat) (hi : Inv s) (h : StartInv s)
    (ht : TurnInv s) (hok : MoveOk s m n) :
    TurnInv (makeMove s m (Position.num (n : ℚ))).1 := by
  obtain ⟨_, _, hs, ho, hturn, hc⟩ := hok
  obtain ⟨a, pa, b, pb, rest, hp, hab, hxa, hob, hfa, hfb⟩ := first_two s hi h hs
  have hcx : ∀ v, countX (s.board.set n v) = countX s.board + if v = Val.X then 1 else 0 := by
    intro v
    have := countP_set_null (fun v => decide (v = Val.X)) s.board n v hc (by decide)
    simpa [countX] using this
  have hco : ∀ v, countO (s.board.set n v) = countO s.board + if v = Val.O then 1 else 0 := by
    intro v
    have := countP_set_null (fun v => decide (v = Val.O)) s.board n v hc (by decide)
    simpa [countO] using this
  have hnf : ∀ t : State, t.gameStarted = true → t.gameStarted = false → False := by
    intro t h1 h2
    rw [h1] at h2
    simp at h2
  rcases ht.turn hs ho with ⟨hsym, hcount, kv, hkv, hcur⟩ | ⟨hsym, hcount, kv, hkv, hcur⟩
  · have hsender : m.sender.userId = a := by
      rw [hp] at hkv
      simp only [List.getElem?_cons_zero, Option.some.injEq] at hkv
      rw [hcur, ← hkv] at hturn
      exact (Option.some.inj hturn).symm
    have hx' : countX (s.board.set n (symbolOf s a)) = countO (s.board.set n (symbolOf s a)) + 1 := by
      rw [hcx, hco, hxa]
      simp
      exact hcount
    rcases makeMove_shape s m n with ⟨w, e⟩ | e
    · rw [hsender] at e
      rw [e]
      exact ⟨Or.inr hx', fun hc2 => (hnf s hs hc2).elim, fun _ hc2 => by simp at hc2⟩
    · rw [hsender] at e
      rw [e, switchTurn_state { s with
        board := s.board.set n (symbolOf s a)
        moveCount := s.moveCount + 1 } a (symbolOf s a) b hfa]
      refine ⟨Or.inr hx', fun hc2 => (hnf s hs hc2).elim, fun _ _ => Or.inr ⟨?_, hx', (b, pb), ?_, rfl⟩⟩
      · show (if symbolOf s a = Val.X then Sym.O else Sym.X) = Sym.O
        rw [hxa]; rfl
      · show s.players[1]? = some (b, pb)
        rw [hp]; simp
  · have hsender : m.sender.userId = b := by
      rw [hp] at hkv
      simp only [List.getElem?_cons_succ, List.getElem?_cons_zero, Option.some.injEq] at hkv
      rw [hcur, ← hkv] at hturn
      exact (Option.some.inj hturn).symm
    have hx' : countX (s.board.set n (symbolOf s b)) = countO (s.board.set n (symbolOf s b)) := by
      rw [hcx, hco, hob]
      simp
      exact hcount
    rcases makeMove_shape s m n with ⟨w, e⟩ | e
    · rw [hsender] at e
      rw [e]
      exact ⟨Or.inl hx', fun hc2 => (hnf s hs hc2).elim, fun _ hc2 => by simp at hc2⟩
    · rw [hsender] at e
      rw [e, switchTurn_state { s with
        board := s.board.set n (symbolOf s b)
        moveCount := s.moveCount + 1 } b (symbolOf s b) a hfb]
      refine ⟨Or.inl hx', fun hc2 => (hnf s hs hc2).elim, fun _ _ => Or.inl ⟨?_, hx', (a, pa), ?_, rfl⟩⟩
      · show (if symbolOf s b = Val.X then Sym.O else Sym.X) = Sym.X
        rw [hob]; rfl
      · show s.players[0]? = some (a, pa)
        rw [hp]; simp

theorem turnInv_processMove (s : State) (m : Message) (hi : Inv s) (h : StartInv s)
    (ht : TurnInv s) : TurnInv (processMove s m).1 := by
  by_cases hok : ∃ n, MoveOk s m n
  · obtain ⟨n, hn⟩ := hok
    rw [processMove_accept s m n hn]
    exact turnInv_makeMove s m n hi h ht hn
  · obtain ⟨text, hte⟩ := processMove_reject s m hok
    rw [hte]
    exact ht

theorem turnInv_matchLoopOne (s : State) (m : Message) (hi : Inv s) (h : StartInv s)
    (ht : TurnInv s) : TurnInv (matchLoopOne s m).1 := by
  unfold matchLoopOne
  split
  · exact turnInv_processMove s m hi h ht
  · exact ht

theorem turnInv_reachableFrom (start s : State)
    (h0 : Inv start ∧ StartInv start) (ht0 : TurnInv start)
    (h : ReachableFrom start s) : TurnInv s := by
  induction h with
  | refl => exact ht0
  | joinAttempt state presence _ ih =>
    rw [matchJoinAttempt_state]; exact ih
  | join state presences hst ih =>
    have hgood := allInv_reachableFrom start state h0 hst
    have key := runBatch_preserves (fun st => Inv st ∧ StartInv st ∧ TurnInv st) matchJoinOne
      (fun st x hx => ⟨inv_matchJoinOne st x hx.1, startInv_matchJoinOne st x hx.1 hx.2.1,
        turnInv_matchJoinOne st x hx.1 hx.2.1 hx.2.2⟩)
      presences state ⟨hgood.1, hgood.2, ih⟩
    unfold matchJoin
    exact turnInv_emptyTicks _ _ key.2.2
  | leave state presences _ ih =>
    exact runBatch_preserves TurnInv matchLeaveOne turnInv_matchLeaveOne presences state ih
  | loop state messages next hst hn ih =>
    have hgood := allInv_reachableFrom start state h0 hst
    obtain ⟨k, hk⟩ := matchLoop_some state messages next hn
    rw [hk]
    have key := runBatch_preserves (fun st => Inv st ∧ StartInv st ∧ TurnInv st) matchLoopOne
      (fun st x hx => ⟨inv_matchLoopOne st x hx.1, startInv_matchLoopOne st x hx.2.1,
        turnInv_matchLoopOne st x hx.1 hx.2.1 hx.2.2⟩)
      messages { state with emptyTicks := k }
      ⟨inv_emptyTicks state k hgood.1, startInv_emptyTicks state k hgood.2,
        turnInv_emptyTicks state k ih⟩
    exact key.2.2

theorem turnInv_reachable (s : State) (h : Reachable s) : TurnInv s := by
  obtain ⟨params, now, hr⟩ := h
  exact turnInv_reachableFrom _ s ⟨inv_init params now, startInv_init params now⟩
    (turnInv_init params now) hr

/-! ## C29: the balance of the board and the turn -/

/-- C29: in every reachable state, and so in every state that follows a
freshly started session under batches of moves, the number of `X` cells is the
number of `O` cells or one more; and while the game is started and not over,
`currentSymbol` is `X` exactly when the two numbers are equal, and it is the
symbol of the participant who holds the turn. -/
theorem board_balance (s : State) (hr : Reachable s) :
    (countX s.board = countO s.board ∨ countX s.board = countO s.board + 1) ∧
    (s.gameStarted = true → s.gameOver = false →
      (s.currentSymbol = Sym.X ↔ countX s.board = countO s.board) ∧
      ∃ id, s.currentTurn = some id ∧ symbolOf s id = s.currentSymbol.toVal) := by
  have hi := inv_reachable s hr
  have h := startInv_reachable s hr
  have ht := turnInv_reachable s hr
  refine ⟨ht.counts, fun hs ho => ?_⟩
  rcases ht.turn hs ho with ⟨hsym, hcount, kv, hkv, hcur⟩ | ⟨hsym, hcount, kv, hkv, hcur⟩
  · refine ⟨⟨fun _ => hcount, fun _ => hsym⟩, kv.1, hcur, ?_⟩
    rw [hsym, (symbolOf_index s hi h 0 kv hkv).2]
    rfl
  · refine ⟨⟨fun hc => ?_, fun hc => ?_⟩, kv.1, hcur, ?_⟩
    · rw [hsym] at hc
      exact absurd hc (by decide)
    · omega
    · rw [hsym, (symbolOf_index s hi h 1 kv hkv).2]
      rfl

/-- C29 at the session after four moves: two `X`, two `O`, and `X` to play. -/
theorem board_balance_witness :
    Reachable midState ∧ countX midState.board = 2 ∧ countO midState.board = 2 ∧
    (midState.currentSymbol = Sym.X ↔ countX midState.board = countO midState.board) :=
  ⟨reachable_midState, by decide, by decide,
    ((board_balance midState reachable_midState).2 (by decide) (by decide)).1⟩

/-! ## C27: a drawn game -/

/-- C27, as stated, fails: the board X,O,X / O,X,O / O,X,O holds four `X` and
five `O`, and no reachable state has it. -/
theorem claimed_draw_unreachable :
    countX claimedDrawBoard = 4 ∧ countO claimedDrawBoard = 5 ∧
    ¬ ∃ s, Reachable s ∧ s.board = claimedDrawBoard := by
  refine ⟨by decide, by decide, ?_⟩
  rintro ⟨s, hr, hb⟩
  have := (turnInv_reachable s hr).counts
  rw [hb] at this
  have hx : countX claimedDrawBoard = 4 := by decide
  have ho : countO claimedDrawBoard = 5 := by decide
  omega

/-- C27, amended: the nine moves 1, 0, 3, 2, 5, 4, 6, 7, 8, played in turn
from the freshly started session with `X` first, are all accepted; the final
board is O,X,O / X,O,X / X,O,X, no line is filled, and the session ends with
`gameOver` set, winner `"draw"` and `moveCount` 9. -/
theorem draw_after_nine_moves :
    startedState.moveCount = 0 ∧ startedState.currentSymbol = Sym.X ∧
    drawMoves.length = 9 ∧
    movesAccepted startedState drawMoves = true ∧
    (playMoves startedState drawMoves).board = drawBoard ∧
    (∀ c ∈ WIN_CONDITIONS, ¬ lineFilled (playMoves startedState drawMoves).board c) ∧
    (playMoves startedState drawMoves).gameOver = true ∧
    (playMoves startedState drawMoves).winner = Val.draw ∧
    (playMoves startedState drawMoves).moveCount = 9 := by
  refine ⟨by decide, by decide, by decide, by decide, by decide, by decide, by decide,
    by decide, by decide⟩

theorem objSet_nodup {β : Type} (l : List (UserId × β)) (k : UserId) (v : β)
    (h : (objKeys l).Nodup) : (objKeys (objSet l k v)).Nodup := by
  rw [objKeys_objSet]
  split
  · exact h
  · rename_i hk
    exact List.Nodup.append h (List.nodup_singleton k) (by
      intro a ha hb
      rw [List.mem_singleton] at hb
      exact hk (hb ▸ ha))

theorem mem_objSet {β : Type} (l : List (UserId × β)) (k : UserId) (v : β) (kv : UserId × β)
    (h : kv ∈ objSet l k v) : kv = (k, v) ∨ kv ∈ l := by
  induction l with
  | nil =>
    simp only [objSet, List.mem_singleton] at h
    exact Or.inl h
  | cons hd tl ih =>
    obtain ⟨k0, v0⟩ := hd
    simp only [objSet] at h
    split at h
    · rename_i hk
      rcases List.mem_cons.mp h with e | e
      · exact Or.inl (by rw [e, hk])
      · exact Or.inr (List.mem_cons_of_mem _ e)
    · rcases List.mem_cons.mp h with e | e
      · exact Or.inr (by rw [e]; exact List.mem_cons_self _ _)
      · rcases ih e with e2 | e2
        · exact Or.inl e2
        · exact Or.inr (List.mem_cons_of_mem _ e2)

theorem objDelete_sublist {β : Type} (l : List (UserId × β)) (k : UserId) :
    (objDelete l k).Sublist l := by
  induction l with
  | nil => exact List.Sublist.refl _
  | cons hd tl ih =>
    obtain ⟨k0, v0⟩ := hd
    simp only [objDelete]
    split
    · exact List.Sublist.cons _ ih
    · exact List.Sublist.cons₂ _ ih

theorem matchJoinOne_presences (s : State) (p : Presence) :
    (matchJoinOne s p).1.presences = objSet s.presences p.userId p := by
  by_cases hk : p.userId ∈ objKeys s.players
  · rw [matchJoinOne_reconnect s p hk]
  · rw [matchJoinOne_new s p hk]
    split
    · rw [startGame_state]; rfl
    · rfl

theorem matchLeaveOne_presences (s : State) (p : Presence) :
    (matchLeaveOne s p).1.presences = objDelete s.presences p.userId := by
  rcases matchLeaveOne_shape s p with e | ⟨w, e⟩ <;> rw [e]

theorem presInv_of_eq (s t : State) (e : t.presences = s.presences) (h : PresInv s) :
    PresInv t :=
  ⟨by rw [e]; exact h.keys_nodup, by rw [e]; exact h.keyed⟩

theorem presInv_init (params : Params) (now : Nat) : PresInv (matchInit params now).state :=
  ⟨by simp [matchInit, objKeys], by simp [matchInit]⟩

theorem presInv_matchJoinOne (s : State) (p : Presence) (h : PresInv s) :
    PresInv (matchJoinOne s p).1 := by
  constructor
  · rw [matchJoinOne_presences]
    exact objSet_nodup _ _ _ h.keys_nodup
  · rw [matchJoinOne_presences]
    intro kv hkv
    rcases mem_objSet _ _ _ _ hkv with e | e
    · rw [e]
    · exact h.keyed kv e

theorem presInv_matchLeaveOne (s : State) (p : Presence) (h : PresInv s) :
    PresInv (matchLeaveOne s p).1 := by
  constructor
  · rw [matchLeaveOne_presences]
    exact List.Nodup.sublist (List.Sublist.map _ (objDelete_sublist _ _)) h.keys_nodup
  · rw [matchLeaveOne_presences]
    intro kv hkv
    exact h.keyed kv ((objDelete_sublist _ _).subset hkv)

theorem presInv_reachableFrom (start s : State) (h0 : PresInv start)
    (h : ReachableFrom start s) : PresInv s := by
  induction h with
  | refl => exact h0
  | joinAttempt state presence _ ih =>
    rw [matchJoinAttempt_state]; exact ih
  | join state presences _ ih =>
    have key := runBatch_preserves PresInv matchJoinOne presInv_matchJoinOne presences state ih
    unfold matchJoin
    exact presInv_of_eq (runBatch matchJoinOne state presences).1 _ rfl key
  | leave state presences _ ih =>
    exact runBatch_preserves PresInv matchLeaveOne presInv_matchLeaveOne presences state ih
  | loop state messages next _ hn ih =>
    obtain ⟨k, hk⟩ := matchLoop_some state messages next hn
    rw [hk]
    exact presInv_of_eq state _ (runBatch_matchLoopOne_idle messages _).1 ih

theorem presInv_reachable (s : State) (h : Reachable s) : PresInv s := by
  obtain ⟨params, now, hr⟩ := h
  exact presInv_reachableFrom _ s (presInv_init params now) hr

theorem makeMove_next_effects (s : State) (m : Message) (n : Nat)
    (hw : ¬ (checkWin (s.board.set n (symbolOf s m.sender.userId))
      (symbolOf s m.sender.userId)).won = true)
    (h9 : ¬ s.moveCount + 1 ≥ 9) :
    (makeMove s m (Position.num (n : ℚ))).2 =
      sendUpdates (switchTurn { s with
        board := s.board.set n (symbolOf s m.sender.userId)
        moveCount := s.moveCount + 1 } m.sender.userId (symbolOf s m.sender.userId))
        (Position.num (n : ℚ)) (symbolOf s m.sender.userId) := by
  unfold makeMove
  dsimp only
  rw [boardWrite_natCast, if_neg hw, if_neg h9]

/-! ## C25: the state updates after a move -/

/-- C25: in a reachable state with two participants, both connected, an
accepted move that does not end the game sends one state update to each
connected presence, in the order of `state.presences`. All updates carry the
new board and the new `moveCount`; `yourSymbol` is the symbol of the recipient;
`isYourTurn` is true exactly for the recipient who is the participant other
than the sender, and there is exactly one such recipient. -/
theorem processMove_updates (s : State) (m : Message) (n : Nat)
    (hr : Reachable s) (h2 : (objKeys s.players).length = 2)
    (hconn : ∀ id ∈ objKeys s.players, id ∈ objKeys s.presences)
    (hok : MoveOk s m n) (hgo : (processMove s m).1.gameOver = false) :
    ∃ other, other ∈ objKeys s.players ∧ other ≠ m.sender.userId ∧
      (processMove s m).1.currentTurn = some other ∧
      (processMove s m).2 = s.presences.map (fun kv =>
        Effect.broadcast OpCode.GAME_STATE
          (Msg.gameStateUpdate (processMove s m).1.board (Position.num (n : ℚ))
            (symbolOf s m.sender.userId) (some other) (processMove s m).1.currentSymbol
            (objGet s.playerSymbols kv.2.userId) (decide (kv.2.userId = other))
            (processMove s m).1.moveCount) [kv.2]) ∧
      (s.presences.map (fun kv => kv.2.userId)).count other = 1 := by
  have h := inv_reachable s hr
  have hp := presInv_reachable s hr
  have ho : s.gameOver = false := hok.2.2.2.1
  have hmem : m.sender.userId ∈ objKeys s.playerSymbols := h.turn_key _ hok.2.2.2.2.1
  rw [processMove_accept s m n hok] at hgo ⊢
  have hng : ¬ (makeMove s m (Position.num (n : ℚ))).1.gameOver = true := by simp [hgo]
  rw [makeMove_gameOver s m n ho, not_or] at hng
  rw [makeMove_next s m n hng.1 hng.2, makeMove_next_effects s m n hng.1 hng.2]
  obtain ⟨other, hom, hne, hf⟩ := firstOther_pair (objKeys s.playerSymbols) m.sender.userId
    (by rw [h.keys_eq]; exact h2) (by rw [h.keys_eq]; exact h.keys_nodup) hmem
  have hop : other ∈ objKeys s.players := by rw [← h.keys_eq]; exact hom
  have hkeys : s.presences.map (fun kv => kv.2.userId) = objKeys s.presences :=
    List.map_congr_left (fun kv hkv => hp.keyed kv hkv)
  refine ⟨other, hop, hne, switchTurn_currentTurn _ _ _ _ hf, ?_, ?_⟩
  · rw [switchTurn_state
      { s with board := s.board.set n (symbolOf s m.sender.userId), moveCount := s.moveCount + 1 }
      m.sender.userId (symbolOf s m.sender.userId) other hf]
    unfold sendUpdates
    dsimp only
    refine List.map_congr_left (fun kv hkv => ?_)
    rw [hp.keyed kv hkv]
    have e : decide (some other = some kv.1) = decide (kv.1 = other) :=
      decide_eq_decide.mpr ⟨fun e => (Option.some.inj e).symm, fun e => by rw [e]⟩
    rw [e]
  · rw [hkeys]
    exact List.count_eq_one_of_mem hp.keys_nodup (hconn other hop)

/-- C25 at the first move of a started session: `alice` plays cell 4, and the
two updates go to `alice` (symbol `X`, not her turn) and `bob` (symbol `O`, his
turn). -/
theorem processMove_updates_witness :
    Reachable startedState ∧ MoveOk startedState (moveMsg alice 4) 4 ∧
    (processMove startedState (moveMsg alice 4)).1.gameOver = false ∧
    ∃ other, other ∈ objKeys startedState.players ∧ other ≠ (moveMsg alice 4).sender.userId ∧
      (processMove startedState (moveMsg alice 4)).1.currentTurn = some other ∧
      (processMove startedState (moveMsg alice 4)).2 = startedState.presences.map (fun kv =>
        Effect.broadcast OpCode.GAME_STATE
          (Msg.gameStateUpdate (processMove startedState (moveMsg alice 4)).1.board
            (Position.num ((4 : Nat) : ℚ))
            (symbolOf startedState (moveMsg alice 4).sender.userId) (some other)
            (processMove startedState (moveMsg alice 4)).1.currentSymbol
            (objGet startedState.playerSymbols kv.2.userId) (decide (kv.2.userId = other))
            (processMove startedState (moveMsg alice 4)).1.moveCount) [kv.2]) ∧
      (startedState.presences.map (fun kv => kv.2.userId)).count other = 1 :=
  ⟨reachable_startedState, by decide, by decide,
    processMove_updates startedState (moveMsg alice 4) 4 reachable_startedState
      (by decide) (by decide) (by decide) (by decide)⟩

theorem currentLabel_append (label : Label) (l1 l2 : List Effect) :
    currentLabel label (l1 ++ l2) = currentLabel (currentLabel label l1) l2 := by
  induction l1 generalizing label with
  | nil => rfl
  | cons e rest ih =>
    cases e with
    | broadcast o msg r => exact ih label
    | labelUpdate next => exact ih next
    | stats u r => exact ih label

theorem currentLabel_of_noLabel (label : Label) (l : List Effect)
    (h : ∀ e ∈ l, Effect.isLabel e = false) : currentLabel label l = label := by
  induction l with
  | nil => rfl
  | cons e rest ih =>
    have hrest := ih (fun e2 h2 => h e2 (List.mem_cons_of_mem _ h2))
    cases e with
    | broadcast o msg r => exact hrest
    | labelUpdate next => exact absurd (h _ (List.mem_cons_self _ _)) (by simp [Effect.isLabel])
    | stats u r => exact hrest

theorem broadcastToAll_noLabel (s : State) (o : Nat) (msg : Msg) :
    ∀ e ∈ broadcastToAll s o msg, Effect.isLabel e = false := by
  intro e he
  unfold broadcastToAll at he
  dsimp only at he
  split at he
  · rw [List.mem_singleton] at he
    rw [he]; rfl
  · simp at he

theorem startGame_label (s : State) (label : Label) :
    currentLabel label (startGame s).2 =
      { isOpen := false, started := some true, players := 2, mode := s.mode } := by
  unfold startGame
  dsimp only
  rw [currentLabel_append]
  split <;>
  · rw [currentLabel_of_noLabel label (List.map _ _) (fun e he => by
      obtain ⟨kv, _, hkv⟩ := List.mem_map.mp he
      rw [← hkv]; rfl)]
    rfl

theorem matchJoinOne_effects (s : State) (p : Presence) :
    (p.userId ∈ objKeys s.players ∧ (matchJoinOne s p).2 = sendGameState s p) ∨
    (¬ p.userId ∈ objKeys s.players ∧ (objKeys (enrol s p).players).length = 2 ∧
      (matchJoinOne s p).1 = (startGame (enrol s p)).1 ∧
      (matchJoinOne s p).2 = Effect.broadcast OpCode.PLAYER_JOIN
        (Msg.playerAssign (playerOf s p).symbol p.userId) [p] :: (startGame (enrol s p)).2) ∨
    (¬ p.userId ∈ objKeys s.players ∧ ¬ (objKeys (enrol s p).players).length = 2 ∧
      (matchJoinOne s p).1 = enrol s p ∧
      (matchJoinOne s p).2 = [Effect.broadcast OpCode.PLAYER_JOIN
        (Msg.playerAssign (playerOf s p).symbol p.userId) [p]]) := by
  by_cases hk : p.userId ∈ objKeys s.players
  · left
    rw [matchJoinOne_reconnect s p hk]
    exact ⟨hk, rfl⟩
  · right
    have hnew : ¬ (objGet s.players p.userId).isSome = true :=
      fun hc => hk ((objGet_isSome_iff _ _).mp hc)
    have e : matchJoinOne s p =
        if (objKeys (enrol s p).players).length = 2 then
          ((startGame (enrol s p)).1, Effect.broadcast OpCode.PLAYER_JOIN
            (Msg.playerAssign (playerOf s p).symbol p.userId) [p] :: (startGame (enrol s p)).2)
        else
          (enrol s p, [Effect.broadcast OpCode.PLAYER_JOIN
            (Msg.playerAssign (playerOf s p).symbol p.userId) [p]]) := by
      unfold matchJoinOne
      dsimp only
      rw [if_neg hnew]
      rfl
    by_cases h2 : (objKeys (enrol s p).players).length = 2
    · rw [e, if_pos h2]
      exact Or.inl ⟨hk, h2, rfl, rfl⟩
    · rw [e, if_neg h2]
      exact Or.inr ⟨hk, h2, rfl, rfl⟩

theorem labelSync_matchJoinOne (label : Label) (s : State) (p : Presence)
    (h : LabelSync label s) :
    LabelSync (currentLabel label (matchJoinOne s p).2) (matchJoinOne s p).1 := by
  rcases matchJoinOne_effects s p with ⟨hk, e⟩ | ⟨hk, _, e1, e2⟩ | ⟨hk, _, e1, e2⟩
  · rw [e, matchJoinOne_reconnect s p hk]
    exact h
  · rw [e1, e2]
    change LabelSync (currentLabel label (startGame (enrol s p)).2) _
    rw [startGame_label, startGame_state]
    exact ⟨rfl, rfl⟩
  · rw [e1, e2]
    exact h

theorem labelSync_matchLeaveOne (label : Label) (s : State) (p : Presence)
    (h : LabelSync label s) :
    LabelSync (currentLabel label (matchLeaveOne s p).2) (matchLeaveOne s p).1 := by
  have hno : ∀ e ∈ (matchLeaveOne s p).2, Effect.isLabel e = false := by
    unfold matchLeaveOne
    dsimp only
    intro e he
    rcases List.mem_append.mp he with h1 | h1
    · split_ifs at h1
      · split at h1
        · rcases List.mem_append.mp h1 with h2 | h2
          · simp only [List.mem_cons, List.mem_singleton, List.not_mem_nil, or_false] at h2
            rcases h2 with h2 | h2 <;> rw [h2] <;> rfl
          · split at h2
            · rw [List.mem_singleton] at h2
              rw [h2]; rfl
            · simp at h2
        · simp at h1
      · simp at h1
    · exact broadcastToAll_noLabel _ _ _ e h1
  rw [currentLabel_of_noLabel label _ hno]
  rcases matchLeaveOne_shape s p with e | ⟨w, e⟩ <;> rw [e] <;> exact h

theorem makeMove_label (s : State) (m : Message) (p : Position) :
    (makeMove s m p).1.gameStarted = s.gameStarted ∧ (makeMove s m p).1.mode = s.mode ∧
    ∀ e ∈ (makeMove s m p).2, Effect.isLabel e = false := by
  unfold makeMove
  dsimp only
  split_ifs
  · refine ⟨rfl, rfl, fun e he => ?_⟩
    rcases List.mem_append.mp he with h1 | h1
    · obtain ⟨pid, _, hpid⟩ := List.mem_map.mp h1
      rw [← hpid]
      split <;> rfl
    · exact broadcastToAll_noLabel _ _ _ e h1
  · refine ⟨rfl, rfl, fun e he => ?_⟩
    rcases List.mem_append.mp he with h1 | h1
    · obtain ⟨pid, _, hpid⟩ := List.mem_map.mp h1
      rw [← hpid]; rfl
    · exact broadcastToAll_noLabel _ _ _ e h1
  · refine ⟨?_, ?_, fun e he => ?_⟩
    · unfold switchTurn
      dsimp only
      split <;> rfl
    · unfold switchTurn
      dsimp only
      split <;> rfl
    · unfold sendUpdates at he
      obtain ⟨kv, _, hkv⟩ := List.mem_map.mp he
      rw [← hkv]; rfl

theorem labelSync_matchLoopOne (label : Label) (s : State) (m : Message)
    (h : LabelSync label s) :
    LabelSync (currentLabel label (matchLoopOne s m).2) (matchLoopOne s m).1 := by
  unfold matchLoopOne
  split
  · by_cases hok : ∃ n, MoveOk s m n
    · obtain ⟨n, hn⟩ := hok
      rw [processMove_accept s m n hn]
      obtain ⟨e1, e2, hno⟩ := makeMove_label s m (Position.num (n : ℚ))
      rw [currentLabel_of_noLabel label _ hno]
      exact ⟨by rw [e1]; exact h.1, by rw [e2]; exact h.2⟩
    · obtain ⟨text, ht⟩ := processMove_reject s m hok
      rw [ht]
      exact h
  · exact h

theorem runBatch_label {α : Type} (P : Label → State → Prop)
    (body : State → α → State × List Effect)
    (hbody : ∀ label s x, P label s → P (currentLabel label (body s x).2) (body s x).1) :
    ∀ (l : List α) (label : Label) (s : State), P label s →
      P (currentLabel label (runBatch body s l).2) (runBatch body s l).1 := by
  intro l
  induction l with
  | nil => intro label s hs; exact hs
  | cons x rest ih =>
    intro label s hs
    simp only [runBatch]
    rw [currentLabel_append]
    exact ih _ _ (hbody label s x hs)

/-- The open flag and the mode of the label follow the session through every
run: the label is open exactly while the game is not started, and its mode is
the mode of the session. -/
theorem label_open_mode (params : Params) (now : Nat) (s : State) (effects : List Effect)
    (hrun : Run (matchInit params now).state s effects) :
    LabelSync (currentLabel (matchInit params now).label effects) s := by
  induction hrun with
  | refl => exact ⟨rfl, rfl⟩
  | joinAttempt state effects presence _ ih =>
    rw [matchJoinAttempt_state]; exact ih
  | join state effects presences _ ih =>
    rw [currentLabel_append]
    exact runBatch_label LabelSync matchJoinOne labelSync_matchJoinOne presences _ state ih
  | leave state effects presences _ ih =>
    rw [currentLabel_append]
    exact runBatch_label LabelSync matchLeaveOne labelSync_matchLeaveOne presences _ state ih
  | loop state effects messages next _ hn ih =>
    obtain ⟨k, hk, he⟩ := matchLoop_some_effects state messages next hn
    rw [currentLabel_append, hk, he]
    exact runBatch_label LabelSync matchLoopOne labelSync_matchLoopOne messages _
      { state with emptyTicks := k } ih

/-! ## C24: the label and the session -/

/-- C24 fails on the player count. After `matchInit` and the join of `alice`
alone, one participant is enrolled and the session is not started, while the
label still reads `players: 0`: no `matchLabelUpdate` call was made. The open
flag and the mode of the label do agree with the session. -/
theorem label_players_stale :
    Run (matchInit noParams 0).state waitingState waitingEffects ∧
    (objKeys waitingState.players).length = 1 ∧
    waitingState.gameStarted = false ∧
    (∀ e ∈ waitingEffects, Effect.isLabel e = false) ∧
    (currentLabel (matchInit noParams 0).label waitingEffects).players = 0 ∧
    (currentLabel (matchInit noParams 0).label waitingEffects).isOpen = true ∧
    (currentLabel (matchInit noParams 0).label waitingEffects).mode = waitingState.mode :=
  ⟨Run.join lobbyState [] [alice] Run.refl, by decide, by decide, by decide, by decide,
    by decide, by decide⟩

/-- C23 at the lobby with nobody connected: sixty empty ticks leave the match
running with the counter at 60, and the 61st tick returns `null`. -/
theorem matchLoop_idle_sweep_witness :
    (objKeys lobbyState.presences).length = 0 ∧ lobbyState.emptyTicks = 0 ∧
    (∀ t, runTicks lobbyState (List.replicate 60 []) = some t → t.emptyTicks = 60) ∧
    runTicks lobbyState (List.replicate 61 []) = none :=
  ⟨by decide, by decide,
    fun t ht => ((matchLoop_idle_sweep lobbyState [] (List.replicate 60 [])).2.2
      (by decide) (by decide)).2 t ht,
    ((matchLoop_idle_sweep lobbyState [] (List.replicate 61 [])).2.2
      (by decide) (by decide)).1.mpr (by decide)⟩

end TicTacToe
